import Mathlib

/-!
# BParticles playground solver: a shallow embedding

Embedding of `source/blender/simulations/bparticles/playground_solver.cpp`.

* `float` is modelled by `ℚ` (exact arithmetic), `uint` by `Nat`. The clock of the solver is
  the exception: `seconds_since_start += elapsed_seconds` is the addition on binary32,
  `float_add`, which rounds.
* An indexed access `xs[i]` on an `ArrayRef` or a `SmallVector` is checked: an index
  that is not below the size makes the enclosing function return `none`, as does a
  failing `BLI_assert`.
* A loop `for (uint i = 0; i < n; i++)` is a monadic left fold over `List.range n`, a
  range-for over a vector is a monadic left fold over that vector.
-/

namespace BParticles

/-! ## Vectors -/

/-- Three floats, with the component-wise operators the solver uses. -/
structure float3 where
  x : ℚ
  y : ℚ
  z : ℚ
  deriving DecidableEq

namespace float3

/-- The vector written `{0, 0, 0}` in the source. -/
def zero : float3 := ⟨0, 0, 0⟩

instance : Add float3 := ⟨fun a b => ⟨a.x + b.x, a.y + b.y, a.z + b.z⟩⟩

instance : HMul ℚ float3 float3 := ⟨fun t a => ⟨t * a.x, t * a.y, t * a.z⟩⟩

instance : HMul float3 ℚ float3 := ⟨fun a t => ⟨a.x * t, a.y * t, a.z * t⟩⟩

instance : HDiv float3 ℚ float3 := ⟨fun a t => ⟨a.x / t, a.y / t, a.z / t⟩⟩

end float3

/-- Checked write `xs[i] = v` into a vector of fixed size. -/
def store {α : Type} (xs : List α) (i : Nat) (v : α) : Option (List α) :=
  if i < xs.length then some (xs.set i v) else none

/-! ## Attribute storage -/

/-- Modelled from the spec: the `AttributeArrays` view declared in
`particles_container.hpp`, which is not among the sources. It is a slice of `size` rows
over columnar typed buffers (byte, float, float3) addressed by attribute name and row. -/
structure AttributeArrays where
  size : Nat
  bytes : String → Nat → Nat
  floats : String → Nat → ℚ
  float3s : String → Nat → float3

namespace AttributeArrays

/-- Read `attributes.get_byte(name)[index]`. -/
def get_byte (a : AttributeArrays) (name : String) (index : Nat) : Option Nat :=
  if index < a.size then some (a.bytes name index) else none

/-- Read `attributes.get_float(name)[index]`. -/
def get_float (a : AttributeArrays) (name : String) (index : Nat) : Option ℚ :=
  if index < a.size then some (a.floats name index) else none

/-- Read `attributes.get_float3(name)[index]`. -/
def get_float3 (a : AttributeArrays) (name : String) (index : Nat) : Option float3 :=
  if index < a.size then some (a.float3s name index) else none

/-- Write `attributes.get_byte(name)[index] = v` (bytes are kept below 256). -/
def set_byte (a : AttributeArrays) (name : String) (index : Nat) (v : Nat) :
    Option AttributeArrays :=
  if index < a.size then
    some { a with bytes := fun n r => if n = name ∧ r = index then v % 256 else a.bytes n r }
  else none

/-- Write `attributes.get_float3(name)[index] = v`. -/
def set_float3 (a : AttributeArrays) (name : String) (index : Nat) (v : float3) :
    Option AttributeArrays :=
  if index < a.size then
    some { a with float3s := fun n r => if n = name ∧ r = index then v else a.float3s n r }
  else none

/-- The pair of updates `positions[pindex] += position_offset;
velocities[pindex] += velocity_offset;` that ends every integration loop. -/
def add_offsets (a : AttributeArrays) (pindex : Nat) (position_offset velocity_offset : float3) :
    Option AttributeArrays := do
  let position ← a.get_float3 "Position" pindex
  let a ← a.set_float3 "Position" pindex (position + position_offset)
  let velocity ← a.get_float3 "Velocity" pindex
  a.set_float3 "Velocity" pindex (velocity + velocity_offset)

end AttributeArrays

/-! ## Forces and the description -/

/-- Modelled from the spec: the `Force` interface, which is not among the sources. A force
contributes a 3-vector per row, computed from the attributes, and `add_force` adds it into the
accumulator entry of every row of the mask without touching the attributes. -/
structure Force where
  term : AttributeArrays → Nat → float3

/-- Modelled from the spec: `Force::add_force(attributes, indices_mask, dst)` adds the term of
row `indices_mask[i]` to `dst[i]`. -/
def Force.add_force (force : Force) (attributes : AttributeArrays) (indices_mask : List Nat)
    (dst : List float3) : List float3 :=
  List.zipWith (fun pindex d => d + force.term attributes pindex) indices_mask dst

/-- The part of `Description` the stepping code reads: the registered forces. -/
structure Description where
  forces : List Force

/-! ## Blocks, container and solver state -/

/-- Modelled from the spec: the `ParticlesBlock` declared in `particles_container.hpp`, which
is not among the sources. It owns fixed-capacity buffers for every attribute (`attributes`,
whose `size` is the capacity) and tracks `active_amount`; rows `[0, active_amount)` are the
active ones. -/
structure ParticlesBlock where
  attributes : AttributeArrays
  active_amount : Nat

namespace ParticlesBlock

/-- Modelled from the spec: `slice_all()`, the view of all rows of the block. -/
def slice_all (block : ParticlesBlock) : AttributeArrays := block.attributes

/-- Modelled from the spec: `slice_active()`, the view of the rows `[0, active_amount)`. -/
def slice_active (block : ParticlesBlock) : AttributeArrays :=
  { block.attributes with size := block.active_amount }

/-- The block after code has written through a slice of it: a slice aliases the buffers of
its block, so the block sees the columns of the slice. -/
def written_through (block : ParticlesBlock) (slice : AttributeArrays) : ParticlesBlock :=
  { block with attributes := { slice with size := block.attributes.size } }

/-- Modelled from the spec: `move(src_row, dst_row)` copies every attribute value from
`src_row` to `dst_row` within the same block, and is undefined if either row is not below the
capacity. -/
def move (block : ParticlesBlock) (old_index new_index : Nat) : Option ParticlesBlock :=
  if old_index < block.attributes.size ∧ new_index < block.attributes.size then
    some { block with attributes :=
      { block.attributes with
        bytes := fun n r =>
          if r = new_index then block.attributes.bytes n old_index
          else block.attributes.bytes n r
        floats := fun n r =>
          if r = new_index then block.attributes.floats n old_index
          else block.attributes.floats n r
        float3s := fun n r =>
          if r = new_index then block.attributes.float3s n old_index
          else block.attributes.float3s n r } }
  else none

end ParticlesBlock

/-- Modelled from the spec: the `ParticlesContainer`, as far as the solver reads it: its
active blocks. -/
structure ParticlesContainer where
  active_blocks : List ParticlesBlock

/-- The state `SimpleSolver::MyState`: the container and the clock. -/
structure MyState where
  particles : ParticlesContainer
  seconds_since_start : ℚ

/-! ## Action and event -/

/-- The action `MoveUpAction::execute`: add 5 to the y position of every row of the mask. -/
def MoveUpAction.execute (attributes : AttributeArrays) (indices_mask : List Nat) :
    Option AttributeArrays :=
  indices_mask.foldlM (fun attributes pindex => do
    let position ← attributes.get_float3 "Position" pindex
    attributes.set_float3 "Position" pindex { position with y := position.y + 5 }) attributes

/-- One iteration of the loop of `HitPlaneEvent::filter`; the state is the pair of output
vectors. The second comparison is only evaluated when the first holds. -/
def HitPlaneEvent.filter_step (attributes : AttributeArrays) (indices_mask : List Nat)
    (next_movement : List float3) (out : List Nat × List ℚ) (i : Nat) :
    Option (List Nat × List ℚ) := do
  let pindex ← indices_mask[i]?
  let position ← attributes.get_float3 "Position" pindex
  if position.y < 2 then
    let movement ← next_movement[i]?
    if position.y + movement.y ≥ 2 then
      let time_factor := (2 - position.y) / movement.y
      pure (out.1 ++ [pindex], out.2 ++ [time_factor])
    else pure out
  else pure out

/-- The event filter `HitPlaneEvent::filter`: the attributes are only read, and are handed back as they
were; the two output vectors are appended to. -/
def HitPlaneEvent.filter (attributes : AttributeArrays) (indices_mask : List Nat)
    (next_movement : List float3) (r_filtered_indices : List Nat) (r_time_factors : List ℚ) :
    Option (AttributeArrays × List Nat × List ℚ) := do
  let out ← (List.range indices_mask.length).foldlM
    (HitPlaneEvent.filter_step attributes indices_mask next_movement)
    (r_filtered_indices, r_time_factors)
  pure (attributes, out.1, out.2)

/-! ## Integration -/

/-- The function `SimpleSolver::compute_combined_force`. -/
def compute_combined_force (m_description : Description) (attributes : AttributeArrays)
    (indices_mask : List Nat) (dst : List float3) : Option (List float3) :=
  if indices_mask.length = dst.length then
    let dst := List.replicate dst.length float3.zero
    some (m_description.forces.foldl
      (fun dst force => force.add_force attributes indices_mask dst) dst)
  else none

/-- One iteration of the loop of `integrate_particles`; the state is the pair
`(r_position_offsets, r_velocity_offsets)`. -/
def integrate_step (attributes : AttributeArrays) (indices_mask : List Nat)
    (time_diffs : List ℚ) (combined_force : List float3) (out : List float3 × List float3)
    (i : Nat) : Option (List float3 × List float3) := do
  let pindex ← indices_mask[i]?
  let mass : ℚ := 1
  let time_diff ← time_diffs[i]?
  let force ← combined_force[i]?
  let r_velocity_offsets ← store out.2 i (time_diff * force / mass)
  let velocity ← attributes.get_float3 "Velocity" pindex
  let velocity_offset ← r_velocity_offsets[i]?
  let r_position_offsets ← store out.1 i (time_diff * (velocity + velocity_offset * (1 / 2 : ℚ)))
  pure (r_position_offsets, r_velocity_offsets)

/-- The function `SimpleSolver::integrate_particles`; returns `(r_position_offsets, r_velocity_offsets)`. -/
def integrate_particles (m_description : Description) (attributes : AttributeArrays)
    (indices_mask : List Nat) (time_diffs : List ℚ)
    (r_position_offsets r_velocity_offsets : List float3) :
    Option (List float3 × List float3) :=
  if indices_mask.length = time_diffs.length then do
    let combined_force ← compute_combined_force m_description attributes indices_mask
      (List.replicate indices_mask.length float3.zero)
    (List.range indices_mask.length).foldlM
      (integrate_step attributes indices_mask time_diffs combined_force)
      (r_position_offsets, r_velocity_offsets)
  else none

/-! ## Stepping a slice -/

/-- One iteration of the loop of the branch `triggered_indices.size() == 0` of
`step_slice_to_next_event`: both offset vectors are indexed by `pindex`. -/
def finalize_step (indices_mask : List Nat) (position_offsets velocity_offsets : List float3)
    (attributes : AttributeArrays) (i : Nat) : Option AttributeArrays := do
  let pindex ← indices_mask[i]?
  let position_offset ← position_offsets[pindex]?
  let velocity_offset ← velocity_offsets[pindex]?
  attributes.add_offsets pindex position_offset velocity_offset

/-- One iteration of the loop of the other branch of `step_slice_to_next_event`; the state
is `(attributes, r_unfinished_time_diffs, used_triggered_count)`. -/
def event_step (indices_mask : List Nat) (time_diffs : List ℚ)
    (position_offsets velocity_offsets : List float3) (triggered_indices : List Nat)
    (triggered_time_factors : List ℚ) (st : AttributeArrays × List ℚ × Nat) (i : Nat) :
    Option (AttributeArrays × List ℚ × Nat) := do
  let attributes := st.1
  let r_unfinished_time_diffs := st.2.1
  let used_triggered_count := st.2.2
  let pindex ← indices_mask[i]?
  let full : Option (AttributeArrays × List ℚ × Nat) := do
    let position_offset ← position_offsets[i]?
    let velocity_offset ← velocity_offsets[i]?
    let attributes ← attributes.add_offsets pindex position_offset velocity_offset
    pure (attributes, r_unfinished_time_diffs, used_triggered_count)
  if used_triggered_count < triggered_indices.length then
    let next_triggered_affected_index ← triggered_indices[used_triggered_count]?
    if pindex = next_triggered_affected_index then
      let time_factor ← triggered_time_factors[used_triggered_count]?
      let position_offset ← position_offsets[i]?
      let velocity_offset ← velocity_offsets[i]?
      let attributes ← attributes.add_offsets pindex (position_offset * time_factor)
        (velocity_offset * time_factor)
      let time_diff ← time_diffs[i]?
      pure (attributes, r_unfinished_time_diffs ++ [time_diff * (1 - time_factor)],
        used_triggered_count + 1)
    else full
  else full

/-- The function `SimpleSolver::step_slice_to_next_event`; returns the attributes together with
`r_unfinished_mask` and `r_unfinished_time_diffs`. -/
def step_slice_to_next_event (m_description : Description) (_state : MyState)
    (attributes : AttributeArrays) (indices_mask : List Nat) (time_diffs : List ℚ)
    (r_unfinished_mask : List Nat) (r_unfinished_time_diffs : List ℚ) :
    Option (AttributeArrays × List Nat × List ℚ) := do
  let position_offsets := List.replicate indices_mask.length float3.zero
  let velocity_offsets := List.replicate indices_mask.length float3.zero
  let (position_offsets, velocity_offsets) ←
    integrate_particles m_description attributes indices_mask time_diffs
      position_offsets velocity_offsets
  let (attributes, triggered_indices, triggered_time_factors) ←
    HitPlaneEvent.filter attributes indices_mask position_offsets [] []
  let (attributes, r_unfinished_time_diffs) ←
    if triggered_indices.length = 0 then do
      let attributes ← (List.range indices_mask.length).foldlM
        (finalize_step indices_mask position_offsets velocity_offsets) attributes
      pure (attributes, r_unfinished_time_diffs)
    else do
      let st ← (List.range indices_mask.length).foldlM
        (event_step indices_mask time_diffs position_offsets velocity_offsets
          triggered_indices triggered_time_factors)
        (attributes, r_unfinished_time_diffs, 0)
      pure (st.1, st.2.1)
  let attributes ← MoveUpAction.execute attributes triggered_indices
  pure (attributes, r_unfinished_mask ++ triggered_indices, r_unfinished_time_diffs)

/-- One iteration of the loop of `step_slice_ignoring_events`. -/
def ignoring_step (indices_mask : List Nat) (position_offsets velocity_offsets : List float3)
    (attributes : AttributeArrays) (i : Nat) : Option AttributeArrays := do
  let pindex ← indices_mask[i]?
  let position_offset ← position_offsets[i]?
  let velocity_offset ← velocity_offsets[i]?
  attributes.add_offsets pindex position_offset velocity_offset

/-- The function `SimpleSolver::step_slice_ignoring_events`. -/
def step_slice_ignoring_events (m_description : Description) (attributes : AttributeArrays)
    (indices_mask : List Nat) (time_diffs : List ℚ) : Option AttributeArrays := do
  let position_offsets := List.replicate indices_mask.length float3.zero
  let velocity_offsets := List.replicate indices_mask.length float3.zero
  let (position_offsets, velocity_offsets) ←
    integrate_particles m_description attributes indices_mask time_diffs
      position_offsets velocity_offsets
  (List.range indices_mask.length).foldlM
    (ignoring_step indices_mask position_offsets velocity_offsets) attributes

/-- One iteration of the "Temporary Kill Code" loop of `step_slice`. -/
def kill_step (state : MyState) (attributes : AttributeArrays) (pindex : Nat) :
    Option AttributeArrays := do
  let birth_time ← attributes.get_float "Birth Time" pindex
  let age := state.seconds_since_start - birth_time
  if age > 5 then attributes.set_byte "Kill State" pindex 1 else pure attributes

/-- The function `SimpleSolver::step_slice`. -/
def step_slice (m_description : Description) (state : MyState) (attributes : AttributeArrays)
    (indices_mask : List Nat) (time_diffs : List ℚ) : Option AttributeArrays := do
  let (attributes, unfinished_mask, unfinished_time_diffs) ←
    step_slice_to_next_event m_description state attributes indices_mask time_diffs [] []
  if unfinished_mask.length = unfinished_time_diffs.length then
    let attributes ←
      if unfinished_mask.length > 0 then
        step_slice_ignoring_events m_description attributes unfinished_mask
          unfinished_time_diffs
      else pure attributes
    indices_mask.foldlM (kill_step state) attributes
  else none

/-! ## Stepping a block -/

/-- The data handed to `step_block_cb` (the solver itself is passed separately). -/
structure StepBlocksParallelData where
  state : MyState
  blocks : List ParticlesBlock
  elapsed_seconds : ℚ

/-- The callback `SimpleSolver::step_block_cb`: step the active slice of block `index` for
`elapsed_seconds`, with the identity mask. -/
def step_block_cb (m_description : Description) (data : StepBlocksParallelData) (index : Nat) :
    Option (List ParticlesBlock) := do
  let block ← data.blocks[index]?
  let attributes := block.slice_active
  let time_diffs := List.replicate attributes.size data.elapsed_seconds
  let attributes ← step_slice m_description data.state attributes
    (List.range attributes.size) time_diffs
  store data.blocks index (block.written_through attributes)

/-! ## Removing dead particles -/

/-- The loop of `SimpleSolver::delete_dead_particles(ParticlesBlock *)`. `kill_size` is the
size of the view `kill_states`, taken from `slice_active()` before the loop; the view aliases
the block, so `kill_states[index]` reads the current "Kill State" column. The subtraction
`active_amount() - 1` is only reached under `index < active_amount()`. -/
def delete_dead_particles.loop (kill_size : Nat) (block : ParticlesBlock) (index : Nat) :
    Option ParticlesBlock :=
  if index < block.active_amount then
    if index < kill_size then
      if block.attributes.bytes "Kill State" index = 1 then
        match hmove : block.move (block.active_amount - 1) index with
        | some moved =>
          delete_dead_particles.loop kill_size
            { moved with active_amount := moved.active_amount - 1 } index
        | none => none
      else delete_dead_particles.loop kill_size block (index + 1)
    else none
  else some block
termination_by block.active_amount - index
decreasing_by
  · simp_wf
    have hsame : moved.active_amount = block.active_amount := by
      unfold ParticlesBlock.move at hmove
      split at hmove
      · cases hmove; rfl
      · cases hmove
    omega
  · simp_wf
    omega

/-- The function `SimpleSolver::delete_dead_particles(ParticlesBlock *)`. -/
def delete_dead_particles (block : ParticlesBlock) : Option ParticlesBlock :=
  delete_dead_particles.loop block.slice_active.size block 0

/-! ## Emitters and the solver -/

/-- Modelled from the spec: the schema `AttributesInfo`, which is not among the sources: the
names of the byte, float and float3 attributes, in index order. -/
structure AttributesInfo where
  byte_attributes : List String
  float_attributes : List String
  float3_attributes : List String

/-- Modelled from the spec: an `EmitterTarget`, a not yet activated row range of a new block,
as the emitter leaves it: `attributes` is the view `slice_all()` of the block with the values
the emitter wrote (whatever it did not write is whatever the new block held), and
`emitted_amount` is the number of rows the emitter filled. -/
structure EmitterTarget where
  attributes : AttributeArrays
  emitted_amount : Nat

/-- Modelled from the spec: an `Emitter`, seen through what one call of `emit` does: it
requests targets, each backed by a new block, and fills them. -/
structure Emitter where
  emit : List EmitterTarget

/-- Modelled from the spec: `EmitterInfo`, the emitter with the attribute names it declared
as used. -/
structure EmitterInfo where
  emitter : Emitter
  used_byte_attributes : List String
  used_float_attributes : List String
  used_float3_attributes : List String

namespace EmitterInfo

/-- Modelled from the spec: `uses_byte_attribute(name)`. -/
def uses_byte_attribute (info : EmitterInfo) (name : String) : Bool :=
  decide (name ∈ info.used_byte_attributes)

/-- Modelled from the spec: `uses_float_attribute(name)`. -/
def uses_float_attribute (info : EmitterInfo) (name : String) : Bool :=
  decide (name ∈ info.used_float_attributes)

/-- Modelled from the spec: `uses_float3_attribute(name)`. -/
def uses_float3_attribute (info : EmitterInfo) (name : String) : Bool :=
  decide (name ∈ info.used_float3_attributes)

end EmitterInfo

/-- Modelled from the spec: `SmallSetVector::add_multiple`, which appends the values that are
not yet in the set. -/
def add_multiple (set values : List String) : List String :=
  values.foldl (fun set value => if value ∈ set then set else set ++ [value]) set

/-- The members of `SimpleSolver`. -/
structure SimpleSolver where
  m_description : Description
  m_attributes : AttributesInfo
  m_emitter_infos : List EmitterInfo

/-- The constructor of `SimpleSolver`; `emitter_infos` are the emitters of the description,
each with the info it declares. -/
def new_playground_solver (description : Description) (emitter_infos : List EmitterInfo) :
    SimpleSolver :=
  { m_description := description
    m_emitter_infos := emitter_infos
    m_attributes :=
      { byte_attributes := emitter_infos.foldl
          (fun names emitter => add_multiple names emitter.used_byte_attributes) ["Kill State"]
        float_attributes := emitter_infos.foldl
          (fun names emitter => add_multiple names emitter.used_float_attributes) ["Birth Time"]
        float3_attributes := emitter_infos.foldl
          (fun names emitter => add_multiple names emitter.used_float3_attributes) [] } }

namespace AttributeArrays

/-- Modelled from the spec: `take_front(n)`, the view of the first `n` rows. -/
def take_front (a : AttributeArrays) (n : Nat) : Option AttributeArrays :=
  if n ≤ a.size then some { a with size := n } else none

/-- Model of `get_byte(name).fill(v)`: every row of the view gets the value. -/
def fill_byte (a : AttributeArrays) (name : String) (v : Nat) : AttributeArrays :=
  { a with bytes := fun n r => if n = name ∧ r < a.size then v % 256 else a.bytes n r }

/-- Model of `get_float(name).fill(v)`. -/
def fill_float (a : AttributeArrays) (name : String) (v : ℚ) : AttributeArrays :=
  { a with floats := fun n r => if n = name ∧ r < a.size then v else a.floats n r }

/-- Model of `get_float3(name).fill(v)`. -/
def fill_float3 (a : AttributeArrays) (name : String) (v : float3) : AttributeArrays :=
  { a with float3s := fun n r => if n = name ∧ r < a.size then v else a.float3s n r }

/-- Assignment to the element `row` of `get_float(name)` through a reference obtained by
iterating over the view. -/
def put_float (a : AttributeArrays) (name : String) (row : Nat) (v : ℚ) : AttributeArrays :=
  { a with floats := fun n r => if n = name ∧ r = row then v else a.floats n r }

end AttributeArrays

/-- Modelled from the spec: `ParticlesContainer::new_block()` registers a new block with
`active_amount = 0`; `buffers` is the memory of the new block. -/
def ParticlesContainer.new_block (container : ParticlesContainer) (buffers : AttributeArrays) :
    ParticlesContainer :=
  ⟨container.active_blocks ++ [⟨buffers, 0⟩]⟩

/-- Modelled from the spec: `ParticlesBlock::is_empty()`. -/
def ParticlesBlock.is_empty (block : ParticlesBlock) : Bool :=
  decide (block.active_amount = 0)

/-- The state after code has changed, through a pointer, the block registered at place
`index` of the container. -/
def MyState.set_block (state : MyState) (index : Nat) (block : ParticlesBlock) :
    Option MyState := do
  let blocks ← store state.particles.active_blocks index block
  pure { state with particles := ⟨blocks⟩ }

/-- The function `SimpleSolver::init`: a container without blocks and the clock at 0. -/
def SimpleSolver.init (_solver : SimpleSolver) : MyState :=
  { particles := ⟨[]⟩, seconds_since_start := 0 }

/-! ## Stepping all blocks -/

/-- The function `SimpleSolver::step_blocks`: `step_block_cb` runs for every index of
`blocks`, here one index after the other; the blocks are returned as the callbacks left
them. -/
def step_blocks (m_description : Description) (state : MyState) (blocks : List ParticlesBlock)
    (elapsed_seconds : ℚ) : Option (List ParticlesBlock) :=
  (List.range blocks.length).foldlM
    (fun blocks index => step_block_cb m_description ⟨state, blocks, elapsed_seconds⟩ index)
    blocks

/-- The function `SimpleSolver::delete_dead_particles(ArrayRef<ParticlesBlock *>)`. -/
def delete_dead_particles_all (blocks : List ParticlesBlock) : Option (List ParticlesBlock) :=
  blocks.mapM delete_dead_particles

/-! ## Emission -/

/-- The three loops of `emit_from_emitter` that fill with zero, over the rows of
`emitted_data`, every attribute of the schema the emitter does not use. -/
def zero_unused (m_attributes : AttributesInfo) (emitter : EmitterInfo)
    (emitted_data : AttributeArrays) : AttributeArrays :=
  let emitted_data := m_attributes.byte_attributes.foldl
    (fun data name => if !emitter.uses_byte_attribute name then data.fill_byte name 0 else data)
    emitted_data
  let emitted_data := m_attributes.float_attributes.foldl
    (fun data name => if !emitter.uses_float_attribute name then data.fill_float name 0 else data)
    emitted_data
  m_attributes.float3_attributes.foldl
    (fun data name =>
      if !emitter.uses_float3_attribute name then data.fill_float3 name float3.zero else data)
    emitted_data

/-- The loop of `emit_from_emitter` over `birth_times`; `rand n` is what the call number `n`
of `rand()` returns, and the state of the loop is the data with the number of calls of
`rand()` made so far. -/
def assign_birth_times (rand : Nat → Nat) (state : MyState) (elapsed_seconds : ℚ)
    (emitted_data : AttributeArrays) (rand_calls : Nat) : AttributeArrays × Nat :=
  (List.range emitted_data.size).foldl
    (fun (st : AttributeArrays × Nat) row =>
      let fac : ℚ := ((rand st.2 % 1000 : Nat) : ℚ) / 1000
      (st.1.put_float "Birth Time" row (state.seconds_since_start - elapsed_seconds * fac),
        st.2 + 1))
    (emitted_data, rand_calls)

/-- What the body of the loop over the targets in `emit_from_emitter` has done when it
calls `step_slice`. -/
structure EmittedSlice where
  state : MyState
  rand_calls : Nat
  block : ParticlesBlock
  emitted_data : AttributeArrays
  time_steps : List ℚ

/-- The body of the loop over the targets in `emit_from_emitter` up to the call of
`step_slice`: the zero fill, the birth times, the time steps, and the increase of
`active_amount`. `block_index` is the place of the block of the target in the container. -/
def prepare_emitted (solver : SimpleSolver) (rand : Nat → Nat) (emitter : EmitterInfo)
    (elapsed_seconds : ℚ) (st : MyState × Nat) (target : EmitterTarget) (block_index : Nat) :
    Option EmittedSlice := do
  let state := st.1
  let block ← state.particles.active_blocks[block_index]?
  let emitted_data ← target.attributes.take_front target.emitted_amount
  let emitted_data := zero_unused solver.m_attributes emitter emitted_data
  let filled := assign_birth_times rand state elapsed_seconds emitted_data st.2
  let emitted_data := filled.1
  let time_steps := (List.range emitted_data.size).map
    (fun row => state.seconds_since_start - emitted_data.floats "Birth Time" row)
  let block := block.written_through emitted_data
  let block := { block with active_amount := block.active_amount + target.emitted_amount }
  let state ← state.set_block block_index block
  pure ⟨state, filled.2, block, emitted_data, time_steps⟩

/-- The body of the loop over the targets in `emit_from_emitter`. -/
def emit_target (solver : SimpleSolver) (rand : Nat → Nat) (emitter : EmitterInfo)
    (elapsed_seconds : ℚ) (st : MyState × Nat) (target : EmitterTarget) (block_index : Nat) :
    Option (MyState × Nat) := do
  let prepared ← prepare_emitted solver rand emitter elapsed_seconds st target block_index
  let emitted_data ← step_slice solver.m_description prepared.state prepared.emitted_data
    (List.range prepared.emitted_data.size) prepared.time_steps
  let state ← prepared.state.set_block block_index
    (prepared.block.written_through emitted_data)
  pure (state, prepared.rand_calls)

/-- The function `SimpleSolver::emit_from_emitter`. Every target the emitter requested is
backed by a new block, registered in request order behind the blocks the container had;
the state carries the number of calls of `rand()` made so far. -/
def emit_from_emitter (solver : SimpleSolver) (rand : Nat → Nat) (st : MyState × Nat)
    (emitter : EmitterInfo) (elapsed_seconds : ℚ) : Option (MyState × Nat) := do
  let targets := emitter.emitter.emit
  let first := st.1.particles.active_blocks.length
  let blocks := (List.range targets.length).map (fun i => first + i)
  let particles := targets.foldl
    (fun particles target => particles.new_block target.attributes) st.1.particles
  let state : MyState := { st.1 with particles := particles }
  (List.range targets.length).foldlM
    (fun st i => do
      let target ← targets[i]?
      let block ← blocks[i]?
      emit_target solver rand emitter elapsed_seconds st target block)
    (state, st.2)

/-- The function `SimpleSolver::emit_new_particles`. -/
def emit_new_particles (solver : SimpleSolver) (rand : Nat → Nat) (st : MyState × Nat)
    (elapsed_seconds : ℚ) : Option (MyState × Nat) :=
  solver.m_emitter_infos.foldlM
    (fun st emitter => emit_from_emitter solver rand st emitter elapsed_seconds) st

/-! ## Addition on `float` -/

/-- Round to the nearest integer, a tie to the even one. -/
def round_half_even (x : ℚ) : Int :=
  let f := Int.floor x
  if x - f < 1 / 2 then f
  else if 1 / 2 < x - f then f + 1
  else if f % 2 = 0 then f else f + 1

/-- The exponent `e` of the binade of a number in `float` (binary32): `2^e ≤ |q| < 2^(e+1)`,
and -126 for the numbers below `2^-126` (subnormal numbers and zero use the spacing of the
lowest binade). -/
def float_exponent (q : ℚ) : Int := max (Int.log 2 |q|) (-126)

/-- Rounding to `float` (binary32: 24 significant bits, round to nearest, ties to even), as
long as the result is finite: the neighbouring floats of `q` are `2^(e-23)` apart. -/
def round_to_float (q : ℚ) : ℚ :=
  let ulp : ℚ := 2 ^ (float_exponent q - 23)
  round_half_even (q / ulp) * ulp

/-- The addition `a + b` on `float`: the exact sum, rounded. It is `none` when the rounded
sum is not finite (its magnitude reaches `2^128`), because a rational cannot hold an
infinity. -/
def float_add (a b : ℚ) : Option ℚ :=
  let sum := round_to_float (a + b)
  if |sum| < 2 ^ 128 then some sum else none

/-! ## Compression and the step -/

/-- The function `SimpleSolver::compress_all_blocks`. `Compress` stands for
`ParticlesBlock::Compress`, which is not among the sources; the blocks that are empty
afterwards are released, the others stay registered in their order. -/
def compress_all_blocks (Compress : List ParticlesBlock → List ParticlesBlock)
    (particles : ParticlesContainer) : ParticlesContainer :=
  let blocks := Compress particles.active_blocks
  ⟨blocks.filter (fun block => !block.is_empty)⟩

/-- The function `SimpleSolver::step` (the two lines it prints are left out). The clock is a
`float` and `seconds_since_start += elapsed_seconds` is the addition on `float`. The vector
`already_existing_blocks` holds pointers to the blocks of the container, so the container
sees what `step_blocks` and `delete_dead_particles` did to them. -/
def SimpleSolver.step (solver : SimpleSolver)
    (Compress : List ParticlesBlock → List ParticlesBlock) (rand : Nat → Nat)
    (st : MyState × Nat) (elapsed_seconds : ℚ) : Option (MyState × Nat) := do
  let seconds_since_start ← float_add st.1.seconds_since_start elapsed_seconds
  let state : MyState := { st.1 with seconds_since_start := seconds_since_start }
  let already_existing_blocks := state.particles.active_blocks
  let blocks ← step_blocks solver.m_description state already_existing_blocks elapsed_seconds
  let blocks ← delete_dead_particles_all blocks
  let state : MyState := { state with particles := ⟨blocks⟩ }
  let emitted ← emit_new_particles solver rand (state, st.2) elapsed_seconds
  let state : MyState :=
    { emitted.1 with particles := compress_all_blocks Compress emitted.1.particles }
  pure (state, emitted.2)

/-! ## Access from the outside -/

/-- The function `SimpleSolver::particle_amount`; `count` is a `uint`, so the additions wrap
at 2^32. The state is handed back as it was. -/
def particle_amount (state : MyState) : MyState × Nat :=
  (state, state.particles.active_blocks.foldl
    (fun count block => (count + block.active_amount) % 4294967296) 0)

/-- Model of `memcpy(dst + index, positions.begin(), sizeof(float3) * positions.size())`:
the copied range has to lie inside `dst`. -/
def memcpy (dst : List float3) (index : Nat) (positions : List float3) :
    Option (List float3) :=
  if index + positions.length ≤ dst.length then
    some (dst.take index ++ positions ++ dst.drop (index + positions.length))
  else none

/-- The function `SimpleSolver::get_positions`; `index` is a `uint`, so the additions wrap at
2^32. The state is handed back as it was. -/
def get_positions (state : MyState) (dst : List float3) : Option (MyState × List float3) := do
  let out ← state.particles.active_blocks.foldlM
    (fun (out : List float3 × Nat) block => do
      let attributes := block.slice_active
      let positions := (List.range attributes.size).map (attributes.float3s "Position")
      let dst ← memcpy out.1 out.2 positions
      pure (dst, (out.2 + positions.length) % 4294967296))
    (dst, 0)
  pure (state, out.1)

/-! ## The loop of `delete_dead_particles`, iteration by iteration -/

/-- The expression `a - 1` on `uint`: it wraps around when `a` is 0. -/
def uint_pred (a : Nat) : Nat := (a + 4294967295) % 4294967296

/-- The record of one iteration of the loop of `delete_dead_particles`: the values of
`block->active_amount()` and `index` at the loop test, and the two rows passed to `move` when
the iteration calls it. An iteration that calls `move` is one that evaluates
`active_amount() - 1`, with `active_amount()` as recorded. -/
structure Iteration where
  active_amount : Nat
  index : Nat
  move : Option (Nat × Nat)

/-- The loop of `SimpleSolver::delete_dead_particles(ParticlesBlock *)` once more, with the
subtractions on `uint` written out and with a record of every iteration it runs. -/
def delete_dead_particles.traced (kill_size : Nat) (block : ParticlesBlock) (index : Nat) :
    Option (ParticlesBlock × List Iteration) :=
  if index < block.active_amount then
    if index < kill_size then
      if block.attributes.bytes "Kill State" index = 1 then
        match hmove : block.move (uint_pred block.active_amount) index with
        | some moved =>
          (delete_dead_particles.traced kill_size
            { moved with active_amount := uint_pred moved.active_amount } index).map
            (fun rest => (rest.1,
              ⟨block.active_amount, index, some (uint_pred block.active_amount, index)⟩
                :: rest.2))
        | none => none
      else
        (delete_dead_particles.traced kill_size block (index + 1)).map
          (fun rest => (rest.1, ⟨block.active_amount, index, none⟩ :: rest.2))
    else none
  else some (block, [])
termination_by block.active_amount - index
decreasing_by
  · simp_wf
    have hsame : moved.active_amount = block.active_amount := by
      unfold ParticlesBlock.move at hmove
      split at hmove
      · cases hmove; rfl
      · cases hmove
    unfold uint_pred
    omega
  · simp_wf
    omega

/-- The function `SimpleSolver::delete_dead_particles(ParticlesBlock *)` with the record of
its iterations. -/
def delete_dead_particles_traced (block : ParticlesBlock) :
    Option (ParticlesBlock × List Iteration) :=
  delete_dead_particles.traced block.slice_active.size block 0

/-! ## The point cache -/

/-- Modelled from the spec: the member `state` of `PointCache` (`DNA_pointcache_types.h`,
which is not among the sources), as far as `PTC_validate` and `PTC_invalidate` touch it. An
`int` is an integer; the two functions do no arithmetic on it. -/
structure PointCacheState where
  simframe : Int
  last_exact : Int

/-- Modelled from the spec: the struct `PointCache`, as far as `PTC_validate` and
`PTC_invalidate` touch it. -/
structure PointCache where
  state : PointCacheState
  startframe : Int

/-- Modelled from the spec: `min_ii` of `BLI_math`, which is not among the sources: the
smaller of two ints. -/
def min_ii (a b : Int) : Int := if a < b then a else b

/-- The function `PTC_validate`. A pointer that may be null is an `Option`; the result is
the cache the pointer points to after the call. -/
def PTC_validate (cache : Option PointCache) (framenr : Int) : Option PointCache :=
  match cache with
  | some cache => some { cache with state := { cache.state with simframe := framenr } }
  | none => none

/-- The function `PTC_invalidate`. -/
def PTC_invalidate (cache : Option PointCache) : Option PointCache :=
  match cache with
  | some cache =>
    let cache := { cache with state := { cache.state with simframe := 0 } }
    some { cache with state := { cache.state with last_exact := min_ii cache.startframe 0 } }
  | none => none

/-! # Vocabulary of the statements -/

/-! ## Auxiliary vocabulary for the statements -/

/-- A force whose term is the same vector `F` for every row. -/
def constant_force (F : float3) : Force := ⟨fun _ _ => F⟩

/-- The invariant of the loop of `integrate_particles` after `k` iterations. -/
def IntegrateInv (attributes : AttributeArrays) (mask : List Nat) (time_diffs : List ℚ)
    (cf : List float3) (k : Nat) (out : List float3 × List float3) : Prop :=
  out.1.length = mask.length ∧ out.2.length = mask.length ∧
  ∀ i p t f, i < k → mask[i]? = some p → time_diffs[i]? = some t → cf[i]? = some f →
    out.2[i]? = some (t * f) ∧
    out.1[i]? = some (t * (attributes.float3s "Velocity" p + (1 / 2 : ℚ) * (t * f)))

/-- Two slices that agree in size, in every byte and float column, and in every float3 column
other than "Position" and "Velocity". -/
def SameFrame (a a' : AttributeArrays) : Prop :=
  a'.size = a.size ∧ a'.bytes = a.bytes ∧ a'.floats = a.floats ∧
  ∀ name, name ≠ "Position" → name ≠ "Velocity" → a'.float3s name = a.float3s name

/-- The state of a loop that has added `dP i` to the position and `dV i` to the velocity of
row `m i`, for every `i < k`, starting from `a0`. -/
def OffsetsInv (a0 : AttributeArrays) (m : Nat → Nat) (dP dV : Nat → float3) (k : Nat)
    (a : AttributeArrays) : Prop :=
  SameFrame a0 a ∧
  (∀ i, i < k →
    a.float3s "Position" (m i) = a0.float3s "Position" (m i) + dP i ∧
    a.float3s "Velocity" (m i) = a0.float3s "Velocity" (m i) + dV i) ∧
  (∀ r, (∀ i, i < k → m i ≠ r) →
    a.float3s "Position" r = a0.float3s "Position" r ∧
    a.float3s "Velocity" r = a0.float3s "Velocity" r)

/-- Row stored at position `i` of a mask (0 past its end). -/
def row_at (mask : List Nat) (i : Nat) : Nat := mask[i]?.getD 0

/-- Entry `i` of a vector of offsets (zero past its end). -/
def offset_at (offsets : List float3) (i : Nat) : float3 := offsets[i]?.getD float3.zero

/-- Entry `i` of a vector of time differences (0 past its end). -/
def time_at (time_diffs : List ℚ) (i : Nat) : ℚ := time_diffs[i]?.getD 0

/-- The trigger condition of `HitPlaneEvent::filter` for a row and its tentative movement. -/
def crosses (attributes : AttributeArrays) (pindex : Nat) (movement : float3) : Bool :=
  decide ((attributes.float3s "Position" pindex).y < 2) &&
  decide ((attributes.float3s "Position" pindex).y + movement.y ≥ 2)

/-- The time factor `HitPlaneEvent::filter` computes for a row and its tentative movement. -/
def hit_factor (attributes : AttributeArrays) (pindex : Nat) (movement : float3) : ℚ :=
  (2 - (attributes.float3s "Position" pindex).y) / movement.y

/-- The positions `i < k` of the mask, in ascending order, whose row `mask[i]` fulfils the
trigger condition with the movement `next_movement[i]`. -/
def triggered_upto (attributes : AttributeArrays) (mask : List Nat)
    (next_movement : List float3) (k : Nat) : List Nat :=
  (List.range k).filter
    (fun i => crosses attributes (row_at mask i) (offset_at next_movement i))

/-- All positions of the mask whose row triggers, in mask order. -/
def triggered (attributes : AttributeArrays) (mask : List Nat)
    (next_movement : List float3) : List Nat :=
  triggered_upto attributes mask next_movement mask.length

/-- The position offset the event loop commits for position `i` of the mask: the tentative
offset, scaled by the time factor when the row triggers. -/
def committed_offset (attributes : AttributeArrays) (mask : List Nat)
    (position_offsets offsets : List float3) (i : Nat) : float3 :=
  if crosses attributes (row_at mask i) (offset_at position_offsets i) then
    offset_at offsets i * hit_factor attributes (row_at mask i) (offset_at position_offsets i)
  else offset_at offsets i

/-- The remaining time budget of position `i` of the mask after its event. -/
def remaining_time (attributes : AttributeArrays) (mask : List Nat) (time_diffs : List ℚ)
    (position_offsets : List float3) (i : Nat) : ℚ :=
  time_at time_diffs i *
    (1 - hit_factor attributes (row_at mask i) (offset_at position_offsets i))

/-- The state of the event loop of `step_slice_to_next_event` after `k` iterations. -/
def EventInv (a0 : AttributeArrays) (mask : List Nat) (time_diffs : List ℚ)
    (po vo : List float3) (r_utd : List ℚ) (k : Nat) (st : AttributeArrays × List ℚ × Nat) :
    Prop :=
  OffsetsInv a0 (row_at mask) (committed_offset a0 mask po po) (committed_offset a0 mask po vo)
    k st.1 ∧
  st.2.1 = r_utd ++ (triggered_upto a0 mask po k).map (remaining_time a0 mask time_diffs po) ∧
  st.2.2 = (triggered_upto a0 mask po k).length

/-- A position after `c` applications of `MoveUpAction`. -/
def moved_up (p : float3) (c : Nat) : float3 := { p with y := p.y + 5 * (c : ℚ) }

/-- The state of the loop of `MoveUpAction::execute` once the rows `done` are processed. -/
def MoveUpInv (a0 : AttributeArrays) (done : List Nat) (a : AttributeArrays) : Prop :=
  a.size = a0.size ∧ a.bytes = a0.bytes ∧ a.floats = a0.floats ∧
  (∀ name, name ≠ "Position" → a.float3s name = a0.float3s name) ∧
  ∀ r, a.float3s "Position" r = moved_up (a0.float3s "Position" r) (done.count r)

/-- The state of the kill loop of `step_slice` once the rows `done` are processed. -/
def KillInv (state : MyState) (a0 : AttributeArrays) (done : List Nat) (a : AttributeArrays) :
    Prop :=
  a.size = a0.size ∧ a.floats = a0.floats ∧ a.float3s = a0.float3s ∧
  (∀ name, name ≠ "Kill State" → a.bytes name = a0.bytes name) ∧
  ∀ r, a.bytes "Kill State" r =
    if r ∈ done ∧ state.seconds_since_start - a0.floats "Birth Time" r > 5 then 1
    else a0.bytes "Kill State" r

/-! ## Concrete inputs -/

/-- A slice of two rows, both at height 1; row 0 moves up with speed 2, row 1 is at rest. -/
def example_slice : AttributeArrays :=
  { size := 2
    bytes := fun _ _ => 0
    floats := fun _ _ => 0
    float3s := fun name row =>
      if name = "Position" then ⟨0, 1, 0⟩
      else if name = "Velocity" ∧ row = 0 then ⟨0, 2, 0⟩
      else ⟨0, 0, 0⟩ }

/-- A state whose clock shows 0. -/
def example_state : MyState := ⟨⟨[]⟩, 0⟩

/-- A description without forces. -/
def no_forces : Description := ⟨[]⟩

/-- A description with one constant force pointing up. -/
def one_force : Description := ⟨[constant_force ⟨0, 1, 0⟩]⟩

/-- The number of rows below `n` whose "Kill State" is 1. -/
def dead_count (block : ParticlesBlock) (n : Nat) : Nat :=
  (List.range n).countP (fun r => block.attributes.bytes "Kill State" r = 1)

/-- The block after one removal at `index`: every attribute of the last active row is
copied to `index` and `active_amount` is decremented. -/
def removed_at (block : ParticlesBlock) (index : Nat) : ParticlesBlock :=
  { attributes :=
      { block.attributes with
        bytes := fun n r =>
          if r = index then block.attributes.bytes n (block.active_amount - 1)
          else block.attributes.bytes n r
        floats := fun n r =>
          if r = index then block.attributes.floats n (block.active_amount - 1)
          else block.attributes.floats n r
        float3s := fun n r =>
          if r = index then block.attributes.float3s n (block.active_amount - 1)
          else block.attributes.float3s n r }
    active_amount := block.active_amount - 1 }

/-- A block of five rows, four of them active, in which only row 1 is dead; the byte
attribute "Id" numbers the rows. -/
def example_block : ParticlesBlock :=
  { attributes :=
      { size := 5
        bytes := fun name row => if name = "Kill State" then (if row = 1 then 1 else 0) else row
        floats := fun _ _ => 0
        float3s := fun _ _ => ⟨0, 0, 0⟩ }
    active_amount := 4 }

/-- A slice of two rows at the origin; row 0 moves along x with speed 1, row 1 is at rest. -/
def drifting_slice : AttributeArrays :=
  { size := 2
    bytes := fun _ _ => 0
    floats := fun _ _ => 0
    float3s := fun name row =>
      if name = "Velocity" ∧ row = 0 then ⟨1, 0, 0⟩ else ⟨0, 0, 0⟩ }

/-- A block of two rows, both active, holding `drifting_slice`. -/
def drifting_block : ParticlesBlock := ⟨drifting_slice, 2⟩

/-- Two slices with the same size and the same byte and float columns. -/
def ScalarFrame (a a' : AttributeArrays) : Prop :=
  a'.size = a.size ∧ a'.bytes = a.bytes ∧ a'.floats = a.floats

/-- A state whose clock shows 6. -/
def late_state : MyState := ⟨⟨[]⟩, 6⟩

/-- The sum, starting from zero and in list order, of the terms of the forces for a row. -/
def force_sum (forces : List Force) (attributes : AttributeArrays) (pindex : Nat) : float3 :=
  forces.foldl (fun sum force => sum + force.term attributes pindex) float3.zero

/-- A force pointing sideways, the same for every row. -/
def side_force : Force := constant_force ⟨1, 0, 0⟩

/-- A force pointing up, the same for every row. -/
def up_force : Force := constant_force ⟨0, 1, 0⟩

/-- What `step_slice` leaves alone: the size, every float column, every byte column other
than "Kill State", every float3 column other than "Position" and "Velocity", and every row
outside the mask. -/
def StepFrame (mask : List Nat) (a a' : AttributeArrays) : Prop :=
  a'.size = a.size ∧ a'.floats = a.floats ∧
  (∀ name, name ≠ "Kill State" → a'.bytes name = a.bytes name) ∧
  (∀ name, name ≠ "Position" → name ≠ "Velocity" → a'.float3s name = a.float3s name) ∧
  ∀ r, r ∉ mask →
    a'.bytes "Kill State" r = a.bytes "Kill State" r ∧
    a'.float3s "Position" r = a.float3s "Position" r ∧
    a'.float3s "Velocity" r = a.float3s "Velocity" r

/-- The data `emit_from_emitter` hands to `step_slice` for a target: the first
`emitted_amount` rows of the target, zero-filled where the emitter declared no use, with the
birth times assigned. -/
def prepared_data (solver : SimpleSolver) (rand : Nat → Nat) (emitter : EmitterInfo)
    (elapsed_seconds : ℚ) (state : MyState) (rand_calls : Nat) (target : EmitterTarget) :
    AttributeArrays :=
  (assign_birth_times rand state elapsed_seconds
    (zero_unused solver.m_attributes emitter
      { target.attributes with size := target.emitted_amount }) rand_calls).1

/-- What `emit_from_emitter` has made of the new block of a target when it returns. -/
def EmittedBlock (solver : SimpleSolver) (emitter : EmitterInfo)
    (seconds_since_start elapsed_seconds : ℚ) (target : EmitterTarget)
    (block : ParticlesBlock) : Prop :=
  block.active_amount = target.emitted_amount ∧
  block.attributes.size = target.attributes.size ∧
  (∀ r, r < target.emitted_amount → ∃ n : Nat,
    block.attributes.floats "Birth Time" r =
      seconds_since_start - elapsed_seconds * (((n % 1000 : Nat) : ℚ) / 1000)) ∧
  (∀ name, name ∈ solver.m_attributes.byte_attributes →
    name ∉ emitter.used_byte_attributes → name ≠ "Kill State" →
    ∀ r, r < target.emitted_amount → block.attributes.bytes name r = 0) ∧
  (∀ name, name ∈ solver.m_attributes.float_attributes →
    name ∉ emitter.used_float_attributes → name ≠ "Birth Time" →
    ∀ r, r < target.emitted_amount → block.attributes.floats name r = 0) ∧
  (∀ name, name ∈ solver.m_attributes.float3_attributes →
    name ∉ emitter.used_float3_attributes → name ≠ "Position" → name ≠ "Velocity" →
    ∀ r, r < target.emitted_amount → block.attributes.float3s name r = float3.zero)

/-- The state of the loop over the targets in `emit_from_emitter` after `k` iterations:
`old_blocks` are the blocks the container had before the call. -/
def EmitInv (solver : SimpleSolver) (emitter : EmitterInfo) (state : MyState)
    (elapsed_seconds : ℚ) (k : Nat) (st : MyState × Nat) : Prop :=
  st.1.seconds_since_start = state.seconds_since_start ∧
  st.1.particles.active_blocks.length
    = state.particles.active_blocks.length + emitter.emitter.emit.length ∧
  (∀ j, j < state.particles.active_blocks.length →
    st.1.particles.active_blocks[j]? = state.particles.active_blocks[j]?) ∧
  (∀ i target, emitter.emitter.emit[i]? = some target → i < k →
    ∃ block, st.1.particles.active_blocks[state.particles.active_blocks.length + i]?
        = some block ∧
      EmittedBlock solver emitter state.seconds_since_start elapsed_seconds target block) ∧
  (∀ i target, emitter.emitter.emit[i]? = some target → k ≤ i →
    st.1.particles.active_blocks[state.particles.active_blocks.length + i]?
      = some ⟨target.attributes, 0⟩)

/-- A target of four rows of which the emitter filled two; the emitter wrote the positions
and left 7, 9 and (3, 3, 3) in everything else. -/
def example_target : EmitterTarget :=
  { attributes :=
      { size := 4
        bytes := fun _ _ => 7
        floats := fun _ _ => 9
        float3s := fun name _ => if name = "Position" then ⟨0, 1, 0⟩ else ⟨3, 3, 3⟩ }
    emitted_amount := 2 }

/-- An emitter that fills `example_target` and declares that it uses "Position". -/
def example_emitter : EmitterInfo := ⟨⟨[example_target]⟩, [], [], ["Position"]⟩

/-- The solver for a description without forces and `example_emitter`. -/
def example_solver : SimpleSolver := new_playground_solver no_forces [example_emitter]

/-- A source of random numbers that always returns 500. -/
def example_rand (_ : Nat) : Nat := 500

/-- A state whose container holds the new block of `example_target`, at clock 6. -/
def fresh_state : MyState := ⟨⟨[⟨example_target.attributes, 0⟩]⟩, 6⟩

/-- The sum of `active_amount` over a list of blocks. -/
def total_active (blocks : List ParticlesBlock) : Nat :=
  (blocks.map (fun block => block.active_amount)).sum

/-- The "Position" values of the active rows of a list of blocks, block after block and, in
a block, in ascending row order. -/
def active_positions : List ParticlesBlock → List float3
  | [] => []
  | block :: blocks =>
    (List.range block.active_amount).map (block.attributes.float3s "Position")
      ++ active_positions blocks

/-- A state with the two blocks `drifting_block` (two active rows) and `example_block` (four
active rows). -/
def two_block_state : MyState := ⟨⟨[drifting_block, example_block]⟩, 0⟩

/-- A sequence of calls of `step`, one for every elapsed time of the list; the result lists
the states after each call. -/
def run_steps (solver : SimpleSolver) (Compress : List ParticlesBlock → List ParticlesBlock)
    (rand : Nat → Nat) : MyState × Nat → List ℚ → Option (List (MyState × Nat))
  | _, [] => some []
  | st, elapsed_seconds :: rest => do
    let next ← solver.step Compress rand st elapsed_seconds
    let states ← run_steps solver Compress rand next rest
    pure (next :: states)

/-- The attribute tuple of row `row`: the values of all byte, float and float3 attributes
there. -/
def row_of (attributes : AttributeArrays) (row : Nat) :
    (String → Nat) × (String → ℚ) × (String → float3) :=
  (fun name => attributes.bytes name row, fun name => attributes.floats name row,
    fun name => attributes.float3s name row)

/-- The attribute tuples of the rows `[0, active_amount)` of a block, in row order. -/
def active_rows (block : ParticlesBlock) : List ((String → Nat) × (String → ℚ) × (String → float3)) :=
  (List.range block.active_amount).map (row_of block.attributes)

/-- The attribute tuples of the active rows of a block whose "Kill State" is not 1, in row
order. -/
def surviving_rows (block : ParticlesBlock) :
    List ((String → Nat) × (String → ℚ) × (String → float3)) :=
  ((List.range block.active_amount).filter
    (fun row => decide (block.attributes.bytes "Kill State" row ≠ 1))).map
      (row_of block.attributes)

/-- Follows the spec (section 4.3, step 3), for the place `i` of the mask: a row without a
triggered event gets its full tentative offset; a row with a triggered event gets the offset
scaled by its time factor, the action is run for it at once, and the row is enqueued with
the remaining budget `dt * (1 - time_factor)`. `events` holds the pairs of a triggered row
and its time factor; the state is the attributes and the queue. -/
def spec_pass_step (indices_mask : List Nat) (time_diffs : List ℚ)
    (position_offsets velocity_offsets : List float3) (events : List (Nat × ℚ))
    (st : AttributeArrays × List (Nat × ℚ)) (i : Nat) :
    Option (AttributeArrays × List (Nat × ℚ)) := do
  let pindex ← indices_mask[i]?
  let position_offset ← position_offsets[i]?
  let velocity_offset ← velocity_offsets[i]?
  match List.lookup pindex events with
  | none => do
    let attributes ← st.1.add_offsets pindex position_offset velocity_offset
    pure (attributes, st.2)
  | some time_factor => do
    let attributes ← st.1.add_offsets pindex (position_offset * time_factor)
      (velocity_offset * time_factor)
    let attributes ← MoveUpAction.execute attributes [pindex]
    let dt ← time_diffs[i]?
    pure (attributes, st.2 ++ [(pindex, dt * (1 - time_factor))])

/-- Follows the spec (section 4.3, steps 1 to 4), with `HitPlaneEvent` as the event and
`MoveUpAction` as its action: compute the tentative offsets, ask the event, and when no row
triggers apply `step_slice_ignoring_events`; otherwise commit row by row as in
`spec_pass_step` and recurse on the enqueued rows with their reduced budgets. `fuel` bounds
the number of passes. -/
def spec_step_slice (m_description : Description) :
    Nat → AttributeArrays → List Nat → List ℚ → Option AttributeArrays
  | 0, _, _, _ => none
  | fuel + 1, attributes, indices_mask, time_diffs => do
    let (position_offsets, velocity_offsets) ←
      integrate_particles m_description attributes indices_mask time_diffs
        (List.replicate indices_mask.length float3.zero)
        (List.replicate indices_mask.length float3.zero)
    let (attributes, triggered_indices, triggered_time_factors) ←
      HitPlaneEvent.filter attributes indices_mask position_offsets [] []
    if triggered_indices.length = 0 then
      step_slice_ignoring_events m_description attributes indices_mask time_diffs
    else do
      let (attributes, queue) ← (List.range indices_mask.length).foldlM
        (spec_pass_step indices_mask time_diffs position_offsets velocity_offsets
          (triggered_indices.zip triggered_time_factors))
        (attributes, [])
      spec_step_slice m_description fuel attributes (queue.map Prod.fst) (queue.map Prod.snd)

/-- A point cache that starts at frame 3 and is valid up to frame 12. -/
def example_cache : PointCache := ⟨⟨12, 9⟩, 3⟩

/-- A point cache that starts at frame -4. -/
def early_cache : PointCache := ⟨⟨12, 9⟩, -4⟩

/-- A `float` value: a finite number that rounding to `float` leaves as it is. -/
def is_float (q : ℚ) : Prop := round_to_float q = q ∧ |q| < 2 ^ 128

/-- The sum on `float`, from left to right, of a start value and a list of numbers. -/
def float_sum (start : ℚ) (summands : List ℚ) : Option ℚ :=
  summands.foldlM float_add start

/-- A solver without forces and without emitters. -/
def bare_solver : SimpleSolver := new_playground_solver no_forces []

/-! # Lemmas -/

/-! ## Vector arithmetic -/

namespace float3

theorem ext_iff3 (a b : float3) : a = b ↔ a.x = b.x ∧ a.y = b.y ∧ a.z = b.z := by
  cases a; cases b; simp

@[simp] theorem add_x (a b : float3) : (a + b).x = a.x + b.x := rfl
@[simp] theorem add_y (a b : float3) : (a + b).y = a.y + b.y := rfl
@[simp] theorem add_z (a b : float3) : (a + b).z = a.z + b.z := rfl
@[simp] theorem smul_x (t : ℚ) (a : float3) : (t * a).x = t * a.x := rfl
@[simp] theorem smul_y (t : ℚ) (a : float3) : (t * a).y = t * a.y := rfl
@[simp] theorem smul_z (t : ℚ) (a : float3) : (t * a).z = t * a.z := rfl
@[simp] theorem mul_x (a : float3) (t : ℚ) : (a * t).x = a.x * t := rfl
@[simp] theorem mul_y (a : float3) (t : ℚ) : (a * t).y = a.y * t := rfl
@[simp] theorem mul_z (a : float3) (t : ℚ) : (a * t).z = a.z * t := rfl
@[simp] theorem div_x (a : float3) (t : ℚ) : (a / t).x = a.x / t := rfl
@[simp] theorem div_y (a : float3) (t : ℚ) : (a / t).y = a.y / t := rfl
@[simp] theorem div_z (a : float3) (t : ℚ) : (a / t).z = a.z / t := rfl
@[simp] theorem zero_x : zero.x = 0 := rfl
@[simp] theorem zero_y : zero.y = 0 := rfl
@[simp] theorem zero_z : zero.z = 0 := rfl

theorem div_one (a : float3) : a / (1 : ℚ) = a := by
  simp [ext_iff3]

theorem mul_scalar_comm (a : float3) (t : ℚ) : a * t = t * a := by
  simp [ext_iff3, mul_comm]

theorem zero_add (a : float3) : zero + a = a := by
  simp [ext_iff3]

theorem add_zero (a : float3) : a + zero = a := by
  simp [ext_iff3]

theorem smul_zero (t : ℚ) : t * zero = zero := by
  simp [ext_iff3]

theorem zero_mul (t : ℚ) : zero * t = zero := by
  simp [ext_iff3]

end float3

/-! ## Loops -/

/-- Invariant rule for a counting loop whose body cannot fail while the invariant holds. -/
theorem foldlM_range_inv {σ : Type} (body : σ → Nat → Option σ) (Inv : Nat → σ → Prop)
    (n : Nat) (init : σ) (h0 : Inv 0 init)
    (hstep : ∀ k s, k < n → Inv k s → ∃ s', body s k = some s' ∧ Inv (k + 1) s') :
    ∃ s, (List.range n).foldlM body init = some s ∧ Inv n s := by
  induction n with
  | zero => exact ⟨init, by simp, h0⟩
  | succ n ih =>
    obtain ⟨s, hs, hinv⟩ := ih (fun k s hk h => hstep k s (Nat.lt_succ_of_lt hk) h)
    obtain ⟨s', hs', hinv'⟩ := hstep n s (Nat.lt_succ_self n) hinv
    refine ⟨s', ?_, hinv'⟩
    rw [List.range_succ, List.foldlM_append, hs]
    simp [hs']

/-- Invariant rule for a counting loop, for the runs that complete. -/
theorem foldlM_range_inv_of_some {σ : Type} (body : σ → Nat → Option σ)
    (Inv : Nat → σ → Prop) (n : Nat) (init : σ) (h0 : Inv 0 init)
    (hstep : ∀ k s s', k < n → Inv k s → body s k = some s' → Inv (k + 1) s')
    (s : σ) (hs : (List.range n).foldlM body init = some s) : Inv n s := by
  induction n generalizing s with
  | zero =>
    simp at hs
    exact hs ▸ h0
  | succ n ih =>
    rw [List.range_succ, List.foldlM_append] at hs
    cases hmid : (List.range n).foldlM body init with
    | none => simp [hmid] at hs
    | some mid =>
      rw [hmid] at hs
      have hmidInv := ih (fun k s s' hk h => hstep k s s' (Nat.lt_succ_of_lt hk) h) mid hmid
      have : body mid n = some s := by simpa using hs
      exact hstep n mid s (Nat.lt_succ_self n) hmidInv this

/-- Invariant rule for a loop over the elements of a vector. -/
theorem foldlM_list_inv {σ α : Type} (body : σ → α → Option σ) (Inv : List α → σ → Prop)
    (l : List α) (init : σ) (h0 : Inv [] init)
    (hstep : ∀ pre x s, x ∈ l → Inv pre s → ∃ s', body s x = some s' ∧ Inv (pre ++ [x]) s') :
    ∃ s, l.foldlM body init = some s ∧ Inv l s := by
  suffices h : ∀ (suf pre : List α) (s : σ), (∀ x ∈ suf, x ∈ l) → Inv pre s →
      ∃ s', suf.foldlM body s = some s' ∧ Inv (pre ++ suf) s' by
    simpa using h l [] init (fun _ hx => hx) h0
  intro suf
  induction suf with
  | nil => intro pre s _ h; exact ⟨s, by simp, by simpa using h⟩
  | cons x suf ih =>
    intro pre s hmem h
    obtain ⟨s1, hs1, hinv1⟩ := hstep pre x s (hmem x (List.mem_cons_self _ _)) h
    obtain ⟨s2, hs2, hinv2⟩ := ih (pre ++ [x]) s1
      (fun y hy => hmem y (List.mem_cons_of_mem _ hy)) hinv1
    refine ⟨s2, ?_, by simpa using hinv2⟩
    simp [hs1, hs2]

theorem getElem?_some_getD {α : Type} (l : List α) (i : Nat) (d : α) (h : i < l.length) :
    l[i]? = some (l[i]?.getD d) := by
  simp [List.getElem?_eq_getElem h]

theorem store_eq {α : Type} (xs : List α) (i : Nat) (v : α) (h : i < xs.length) :
    store xs i v = some (xs.set i v) := by
  simp [store, h]

/-! ## Integration -/

theorem add_force_length (force : Force) (attributes : AttributeArrays) (mask : List Nat)
    (dst : List float3) (h : mask.length = dst.length) :
    (force.add_force attributes mask dst).length = mask.length := by
  simp [Force.add_force, h]

theorem forces_foldl_length (forces : List Force) (attributes : AttributeArrays)
    (mask : List Nat) (dst : List float3) (h : mask.length = dst.length) :
    (forces.foldl (fun dst force => force.add_force attributes mask dst) dst).length
      = mask.length := by
  induction forces generalizing dst with
  | nil => simpa using h.symm
  | cons f fs ih =>
    simp only [List.foldl_cons]
    exact ih _ (add_force_length f attributes mask dst h).symm

theorem compute_combined_force_some (m_description : Description)
    (attributes : AttributeArrays) (mask : List Nat) (dst : List float3)
    (h : mask.length = dst.length) :
    ∃ cf, compute_combined_force m_description attributes mask dst = some cf
      ∧ cf.length = mask.length := by
  refine ⟨m_description.forces.foldl
    (fun dst force => force.add_force attributes mask dst)
    (List.replicate dst.length float3.zero), by simp [compute_combined_force, h], ?_⟩
  exact forces_foldl_length _ _ _ _ (by simp [h])

theorem integrate_step_inv (attributes : AttributeArrays) (mask : List Nat)
    (time_diffs : List ℚ) (cf : List float3) (hlen : mask.length = time_diffs.length)
    (hcf : cf.length = mask.length) (hrange : ∀ p ∈ mask, p < attributes.size)
    (k : Nat) (out : List float3 × List float3) (hk : k < mask.length)
    (hinv : IntegrateInv attributes mask time_diffs cf k out) :
    ∃ out', integrate_step attributes mask time_diffs cf out k = some out'
      ∧ IntegrateInv attributes mask time_diffs cf (k + 1) out' := by
  obtain ⟨h1, h2, h3⟩ := hinv
  have hp : mask[k]? = some mask[k] := List.getElem?_eq_getElem hk
  have hkt : k < time_diffs.length := hlen ▸ hk
  have hkf : k < cf.length := hcf ▸ hk
  have ht : time_diffs[k]? = some time_diffs[k] := List.getElem?_eq_getElem hkt
  have hf : cf[k]? = some cf[k] := List.getElem?_eq_getElem hkf
  have hsz : mask[k] < attributes.size := hrange _ (List.getElem_mem _)
  refine ⟨(out.1.set k (time_diffs[k] * (attributes.float3s "Velocity" mask[k]
      + (time_diffs[k] * cf[k] / (1 : ℚ)) * (1 / 2 : ℚ))),
    out.2.set k (time_diffs[k] * cf[k] / (1 : ℚ))), ?_, ?_⟩
  · simp [integrate_step, hp, ht, hf, store, h1, h2, hk, AttributeArrays.get_float3, hsz]
  · refine ⟨by simp [h1], by simp [h2], ?_⟩
    intro i p t f hi hpi hti hfi
    rcases Nat.lt_succ_iff_lt_or_eq.mp hi with hlt | heq
    · have hne : k ≠ i := by omega
      simpa [List.getElem?_set_ne hne] using h3 i p t f hlt hpi hti hfi
    · subst heq
      rw [hp] at hpi; rw [ht] at hti; rw [hf] at hfi
      cases hpi; cases hti; cases hfi
      simp [h1, h2, hk, float3.div_one, float3.mul_scalar_comm]

theorem integrate_particles_spec (m_description : Description) (attributes : AttributeArrays)
    (mask : List Nat) (time_diffs : List ℚ) (r_po r_vo : List float3)
    (hlen : mask.length = time_diffs.length) (hpo : r_po.length = mask.length)
    (hvo : r_vo.length = mask.length) (hrange : ∀ p ∈ mask, p < attributes.size) :
    ∃ cf po vo,
      compute_combined_force m_description attributes mask
        (List.replicate mask.length float3.zero) = some cf ∧
      integrate_particles m_description attributes mask time_diffs r_po r_vo = some (po, vo) ∧
      cf.length = mask.length ∧ po.length = mask.length ∧ vo.length = mask.length ∧
      ∀ (i p : Nat) (t : ℚ) (f : float3),
        mask[i]? = some p → time_diffs[i]? = some t → cf[i]? = some f →
        vo[i]? = some (t * f) ∧
        po[i]? = some (t * (attributes.float3s "Velocity" p + (1 / 2 : ℚ) * (t * f))) := by
  obtain ⟨cf, hcf, hcflen⟩ := compute_combined_force_some m_description attributes mask
    (List.replicate mask.length float3.zero) (by simp)
  obtain ⟨out, hout, h1, h2, h3⟩ := foldlM_range_inv
    (integrate_step attributes mask time_diffs cf)
    (IntegrateInv attributes mask time_diffs cf) mask.length (r_po, r_vo)
    ⟨hpo, hvo, fun i _ _ _ hi => absurd hi (Nat.not_lt_zero i)⟩
    (fun k s hk hinv => integrate_step_inv attributes mask time_diffs cf hlen hcflen hrange
      k s hk hinv)
  refine ⟨cf, out.1, out.2, hcf, ?_, hcflen, h1, h2, ?_⟩
  · rw [integrate_particles, if_pos hlen, hcf]
    simpa using hout
  · intro i p t f hp ht hf
    have hi : i < mask.length := (List.getElem?_eq_some_iff.mp hp).1
    exact h3 i p t f hi hp ht hf

theorem forces_single_constant (F : float3) (attributes : AttributeArrays) (mask : List Nat)
    (i : Nat) (hi : i < mask.length) :
    ((constant_force F).add_force attributes mask
      (List.replicate mask.length float3.zero))[i]? = some F := by
  simp [Force.add_force, constant_force, List.getElem?_zipWith, List.getElem?_eq_getElem hi,
    hi, float3.zero_add]

/-! ## Attribute updates -/

theorem sameFrame_refl (a : AttributeArrays) : SameFrame a a :=
  ⟨rfl, rfl, rfl, fun _ _ _ => rfl⟩

theorem sameFrame_trans {a b c : AttributeArrays} (h1 : SameFrame a b) (h2 : SameFrame b c) :
    SameFrame a c :=
  ⟨h2.1.trans h1.1, h2.2.1.trans h1.2.1, h2.2.2.1.trans h1.2.2.1,
   fun n hp hv => (h2.2.2.2 n hp hv).trans (h1.2.2.2 n hp hv)⟩

theorem add_offsets_some (a : AttributeArrays) (p : Nat) (dP dV : float3) (hp : p < a.size) :
    ∃ a', a.add_offsets p dP dV = some a' ∧ SameFrame a a' ∧
      a'.float3s "Position" p = a.float3s "Position" p + dP ∧
      a'.float3s "Velocity" p = a.float3s "Velocity" p + dV ∧
      ∀ r, r ≠ p → a'.float3s "Position" r = a.float3s "Position" r ∧
        a'.float3s "Velocity" r = a.float3s "Velocity" r := by
  refine ⟨{ a with float3s := fun n r =>
      if n = "Velocity" ∧ r = p then a.float3s "Velocity" p + dV
      else if n = "Position" ∧ r = p then a.float3s "Position" p + dP
      else a.float3s n r }, ?_, ⟨rfl, rfl, rfl, ?_⟩, ?_, ?_, ?_⟩
  · simp only [AttributeArrays.add_offsets, AttributeArrays.get_float3,
      AttributeArrays.set_float3, hp, if_true, Option.bind_eq_bind, Option.some_bind]
    congr 2
  · intro n hnP hnV
    funext r
    simp [hnP, hnV]
  · simp
  · simp
  · intro r hr
    simp [hr]

theorem OffsetsInv.init (a0 : AttributeArrays) (m : Nat → Nat) (dP dV : Nat → float3) :
    OffsetsInv a0 m dP dV 0 a0 :=
  ⟨sameFrame_refl a0, fun i hi => absurd hi (Nat.not_lt_zero i), fun _ _ => ⟨rfl, rfl⟩⟩

theorem OffsetsInv.step {a0 : AttributeArrays} {m : Nat → Nat} {dP dV : Nat → float3}
    {k : Nat} {a : AttributeArrays} (hinv : OffsetsInv a0 m dP dV k a)
    (hinj : ∀ i, i < k → m i ≠ m k) (hrange : m k < a0.size) :
    ∃ a', a.add_offsets (m k) (dP k) (dV k) = some a' ∧ OffsetsInv a0 m dP dV (k + 1) a' := by
  obtain ⟨hframe, hdone, hrest⟩ := hinv
  have hsz : m k < a.size := by rw [hframe.1]; exact hrange
  obtain ⟨a', hsome, hfr, hP, hV, hother⟩ := add_offsets_some a (m k) (dP k) (dV k) hsz
  refine ⟨a', hsome, sameFrame_trans hframe hfr, ?_, ?_⟩
  · intro i hi
    rcases Nat.lt_succ_iff_lt_or_eq.mp hi with hlt | heq
    · have := hother (m i) (hinj i hlt)
      rw [this.1, this.2]
      exact hdone i hlt
    · subst heq
      have := hrest (m i) (fun j hj => hinj j hj)
      rw [hP, hV, this.1, this.2]
      exact ⟨rfl, rfl⟩
  · intro r hr
    have hne : r ≠ m k := fun h => hr k (Nat.lt_succ_self k) h.symm
    have := hother r hne
    rw [this.1, this.2]
    exact hrest r (fun i hi => hr i (Nat.lt_succ_of_lt hi))

/-! ## The event filter -/

theorem row_at_eq (mask : List Nat) (i : Nat) (h : i < mask.length) :
    mask[i]? = some (row_at mask i) := by
  simp [row_at, List.getElem?_eq_getElem h]

theorem offset_at_eq (offsets : List float3) (i : Nat) (h : i < offsets.length) :
    offsets[i]? = some (offset_at offsets i) := by
  simp [offset_at, List.getElem?_eq_getElem h]

theorem time_at_eq (time_diffs : List ℚ) (i : Nat) (h : i < time_diffs.length) :
    time_diffs[i]? = some (time_at time_diffs i) := by
  simp [time_at, List.getElem?_eq_getElem h]

theorem row_at_mem (mask : List Nat) (i : Nat) (h : i < mask.length) :
    row_at mask i ∈ mask := by
  have h1 : row_at mask i = mask[i] := by simp [row_at, List.getElem?_eq_getElem h]
  rw [h1]
  exact List.getElem_mem _

theorem row_at_inj (mask : List Nat) (hnodup : mask.Nodup) (i j : Nat) (hi : i < mask.length)
    (hj : j < mask.length) (h : row_at mask i = row_at mask j) : i = j := by
  have h1 : row_at mask i = mask[i] := by simp [row_at, List.getElem?_eq_getElem hi]
  have h2 : row_at mask j = mask[j] := by simp [row_at, List.getElem?_eq_getElem hj]
  rw [h1, h2] at h
  exact (List.Nodup.getElem_inj_iff hnodup).mp h

theorem triggered_upto_succ (attributes : AttributeArrays) (mask : List Nat)
    (nm : List float3) (k : Nat) :
    triggered_upto attributes mask nm (k + 1) =
      triggered_upto attributes mask nm k ++
        (if crosses attributes (row_at mask k) (offset_at nm k) then [k] else []) := by
  simp only [triggered_upto, List.range_succ, List.filter_append]
  congr 1
  by_cases h : crosses attributes (row_at mask k) (offset_at nm k) = true
  · simp [List.filter, h]
  · simp [List.filter, h]

theorem crosses_iff (attributes : AttributeArrays) (p : Nat) (m : float3) :
    crosses attributes p m = true ↔
      (attributes.float3s "Position" p).y < 2 ∧ (attributes.float3s "Position" p).y + m.y ≥ 2 := by
  simp [crosses]

/-- A row that triggers has a positive movement along y, and its time factor lies in (0, 1]. -/
theorem hit_factor_bounds (attributes : AttributeArrays) (p : Nat) (m : float3)
    (h : crosses attributes p m = true) :
    0 < m.y ∧ 0 < hit_factor attributes p m ∧ hit_factor attributes p m ≤ 1 := by
  obtain ⟨h1, h2⟩ := (crosses_iff attributes p m).mp h
  have hm : 0 < m.y := by linarith
  refine ⟨hm, ?_, ?_⟩
  · exact div_pos (by linarith) hm
  · rw [hit_factor, div_le_one hm]
    linarith

/-- One iteration of the filter, for a position inside the mask and the movement vector. -/
theorem filter_step_eq (attributes : AttributeArrays) (mask : List Nat) (nm : List float3)
    (out : List Nat × List ℚ) (k : Nat) (hk : k < mask.length) (hnm : k < nm.length)
    (hrange : row_at mask k < attributes.size) :
    HitPlaneEvent.filter_step attributes mask nm out k =
      some (if crosses attributes (row_at mask k) (offset_at nm k) then
        (out.1 ++ [row_at mask k],
          out.2 ++ [hit_factor attributes (row_at mask k) (offset_at nm k)])
        else out) := by
  simp only [HitPlaneEvent.filter_step, row_at_eq mask k hk, offset_at_eq nm k hnm,
    AttributeArrays.get_float3, hrange, if_true, Option.bind_eq_bind, Option.some_bind,
    crosses, hit_factor]
  by_cases h1 : (attributes.float3s "Position" (row_at mask k)).y < 2
  · by_cases h2 : (attributes.float3s "Position" (row_at mask k)).y + (offset_at nm k).y ≥ 2
    · simp [h1, h2]
    · simp [h1, h2]
  · simp [h1]

theorem filter_spec (attributes : AttributeArrays) (mask : List Nat) (nm : List float3)
    (ri : List Nat) (rt : List ℚ) (hlen : mask.length = nm.length)
    (hrange : ∀ p ∈ mask, p < attributes.size) :
    HitPlaneEvent.filter attributes mask nm ri rt =
      some (attributes,
        ri ++ (triggered attributes mask nm).map (row_at mask),
        rt ++ (triggered attributes mask nm).map
          (fun i => hit_factor attributes (row_at mask i) (offset_at nm i))) := by
  obtain ⟨out, hout, hinv⟩ := foldlM_range_inv
    (HitPlaneEvent.filter_step attributes mask nm)
    (fun k out => out =
      (ri ++ (triggered_upto attributes mask nm k).map (row_at mask),
       rt ++ (triggered_upto attributes mask nm k).map
          (fun i => hit_factor attributes (row_at mask i) (offset_at nm i))))
    mask.length (ri, rt) (by simp [triggered_upto])
    (by
      intro k s hk hs
      refine ⟨_, filter_step_eq attributes mask nm s k hk (hlen ▸ hk)
        (hrange _ (row_at_mem mask k hk)), ?_⟩
      show _ = _
      rw [triggered_upto_succ, hs]
      by_cases h : crosses attributes (row_at mask k) (offset_at nm k) = true
      · simp [h]
      · simp [h])
  simp only [HitPlaneEvent.filter, hout, Option.bind_eq_bind, Option.some_bind, hinv]
  rfl

/-! ## The event loop -/

theorem triggered_split (attributes : AttributeArrays) (mask : List Nat) (nm : List float3)
    (k : Nat) (hk : k < mask.length) :
    ∃ rest, triggered attributes mask nm =
        triggered_upto attributes mask nm k ++
          ((if crosses attributes (row_at mask k) (offset_at nm k) then [k] else []) ++ rest) ∧
      ∀ j ∈ rest, k < j ∧ j < mask.length := by
  have hn : mask.length = (k + 1) + (mask.length - (k + 1)) := by omega
  refine ⟨((List.range (mask.length - (k + 1))).map (k + 1 + ·)).filter
    (fun i => crosses attributes (row_at mask i) (offset_at nm i)), ?_, ?_⟩
  · rw [← List.append_assoc, ← triggered_upto_succ]
    unfold triggered
    conv_lhs => rw [hn]
    simp only [triggered_upto, List.range_add, List.filter_append]
  · intro j hj
    have hj' := (List.mem_filter.mp hj).1
    obtain ⟨x, hx, rfl⟩ := List.mem_map.mp hj'
    have := List.mem_range.mp hx
    omega

theorem getElem?_map_append_cons {α β : Type} (f : α → β) (l : List α) (x : β) (r : List β) :
    (l.map f ++ x :: r)[l.length]? = some x := by
  rw [List.getElem?_append_right (by simp)]
  simp

theorem getElem?_map_append_head {α β : Type} (f : α → β) (l : List α) (r : List β) :
    (l.map f ++ r)[l.length]? = r[0]? := by
  rw [List.getElem?_append_right (by simp)]
  simp

theorem event_step_hit (mask : List Nat) (td : List ℚ) (po vo : List float3) (ti : List Nat)
    (tfs : List ℚ) (a : AttributeArrays) (utd : List ℚ) (used k p : Nat) (tf t : ℚ)
    (dp dv : float3) (hp : mask[k]? = some p) (hti : ti[used]? = some p)
    (htf : tfs[used]? = some tf) (hpo : po[k]? = some dp) (hvo : vo[k]? = some dv)
    (ht : td[k]? = some t) :
    event_step mask td po vo ti tfs (a, utd, used) k =
      (a.add_offsets p (dp * tf) (dv * tf)).map
        (fun a' => (a', utd ++ [t * (1 - tf)], used + 1)) := by
  have hlt : used < ti.length := (List.getElem?_eq_some_iff.mp hti).1
  simp only [event_step, hp, hti, htf, hpo, hvo, ht, hlt, if_true, Option.bind_eq_bind,
    Option.some_bind]
  cases a.add_offsets p (dp * tf) (dv * tf) <;> rfl

theorem event_step_miss (mask : List Nat) (td : List ℚ) (po vo : List float3) (ti : List Nat)
    (tfs : List ℚ) (a : AttributeArrays) (utd : List ℚ) (used k p : Nat)
    (dp dv : float3) (hp : mask[k]? = some p)
    (hti : ∀ q, ti[used]? = some q → q ≠ p)
    (hpo : po[k]? = some dp) (hvo : vo[k]? = some dv) :
    event_step mask td po vo ti tfs (a, utd, used) k =
      (a.add_offsets p dp dv).map (fun a' => (a', utd, used)) := by
  by_cases hlt : used < ti.length
  · have hq : ti[used]? = some ti[used] := List.getElem?_eq_getElem hlt
    have hne : ¬ (p = ti[used]) := fun h => hti _ hq h.symm
    simp only [event_step, hp, hq, hpo, hvo, hlt, hne, if_true, if_false, Option.bind_eq_bind,
      Option.some_bind]
    cases a.add_offsets p dp dv <;> rfl
  · simp only [event_step, hp, hpo, hvo, hlt, if_false, Option.bind_eq_bind,
      Option.some_bind]
    cases a.add_offsets p dp dv <;> rfl

theorem event_step_inv (a0 : AttributeArrays) (mask : List Nat) (td : List ℚ)
    (po vo : List float3) (r_utd : List ℚ) (hnodup : mask.Nodup)
    (hrange : ∀ p ∈ mask, p < a0.size) (hlen : mask.length = td.length)
    (hpo : po.length = mask.length) (hvo : vo.length = mask.length)
    (k : Nat) (st : AttributeArrays × List ℚ × Nat) (hk : k < mask.length)
    (hinv : EventInv a0 mask td po vo r_utd k st) :
    ∃ st', event_step mask td po vo ((triggered a0 mask po).map (row_at mask))
        ((triggered a0 mask po).map
          (fun i => hit_factor a0 (row_at mask i) (offset_at po i))) st k = some st'
      ∧ EventInv a0 mask td po vo r_utd (k + 1) st' := by
  obtain ⟨a, utd, used⟩ := st
  obtain ⟨hoff, hutd, hused⟩ := hinv
  simp only at hoff hutd hused
  obtain ⟨rest, hsplit, hrest⟩ := triggered_split a0 mask po k hk
  have hinj : ∀ i, i < k → row_at mask i ≠ row_at mask k := by
    intro i hi h
    have := row_at_inj mask hnodup i k (by omega) hk h
    omega
  have hmk := row_at_eq mask k hk
  have hpk := offset_at_eq po k (hpo ▸ hk)
  have hvk := offset_at_eq vo k (hvo ▸ hk)
  have htk := time_at_eq td k (hlen ▸ hk)
  by_cases hc : crosses a0 (row_at mask k) (offset_at po k) = true
  · obtain ⟨a', ha', hinv'⟩ := OffsetsInv.step hoff hinj (hrange _ (row_at_mem mask k hk))
    simp only [committed_offset, hc, if_true] at ha'
    refine ⟨(a', utd ++ [remaining_time a0 mask td po k], used + 1), ?_, hinv', ?_, ?_⟩
    · rw [event_step_hit mask td po vo _ _ a utd used k (row_at mask k)
        (hit_factor a0 (row_at mask k) (offset_at po k)) (time_at td k)
        (offset_at po k) (offset_at vo k) hmk ?_ ?_ hpk hvk htk, ha']
      · rfl
      · rw [hsplit, hused]
        simp only [hc, if_true, List.map_append, List.map_cons, List.singleton_append]
        exact getElem?_map_append_cons _ _ _ _
      · rw [hsplit, hused]
        simp only [hc, if_true, List.map_append, List.map_cons, List.singleton_append]
        exact getElem?_map_append_cons _ _ _ _
    · simp [triggered_upto_succ, hc, hutd]
    · simp [triggered_upto_succ, hc, hused]
  · obtain ⟨a', ha', hinv'⟩ := OffsetsInv.step hoff hinj (hrange _ (row_at_mem mask k hk))
    simp only [committed_offset, hc, Bool.false_eq_true, if_false] at ha'
    refine ⟨(a', utd, used), ?_, hinv', ?_, ?_⟩
    · rw [event_step_miss mask td po vo _ _ a utd used k (row_at mask k)
        (offset_at po k) (offset_at vo k) hmk ?_ hpk hvk, ha']
      · rfl
      · intro q hq heq
        rw [hsplit, hused] at hq
        simp only [hc, List.map_append, List.nil_append, Bool.false_eq_true, if_false] at hq
        rw [getElem?_map_append_head] at hq
        have hmem : q ∈ rest.map (row_at mask) :=
          List.getElem?_mem hq
        obtain ⟨j, hjr, hjq⟩ := List.mem_map.mp hmem
        obtain ⟨hkj, hjn⟩ := hrest j hjr
        have := row_at_inj mask hnodup j k hjn hk (hjq.trans heq)
        omega
    · simp [triggered_upto_succ, hc, hutd]
    · simp [triggered_upto_succ, hc, hused]

/-! ## The action and the kill loop -/

theorem moved_up_zero (p : float3) : moved_up p 0 = p := by
  simp [moved_up]

theorem MoveUpAction.execute_spec (a0 : AttributeArrays) (l : List Nat)
    (hrange : ∀ p ∈ l, p < a0.size) :
    ∃ a, MoveUpAction.execute a0 l = some a ∧ MoveUpInv a0 l a := by
  apply foldlM_list_inv _ (MoveUpInv a0) l a0
  · exact ⟨rfl, rfl, rfl, fun _ _ => rfl, fun r => by simp [moved_up_zero]⟩
  · intro pre x a hx hinv
    obtain ⟨hsz, hb, hf, hother, hpos⟩ := hinv
    have hxs : x < a.size := by rw [hsz]; exact hrange x hx
    refine ⟨{ a with float3s := fun n r =>
        if n = "Position" ∧ r = x then
          { a.float3s "Position" x with y := (a.float3s "Position" x).y + 5 }
        else a.float3s n r }, ?_, hsz, hb, hf, ?_, ?_⟩
    · simp [AttributeArrays.get_float3, AttributeArrays.set_float3, hxs]
    · intro name hname
      funext r
      simp [hname, hother name hname]
    · intro r
      by_cases hr : r = x
      · subst hr
        simp [hpos, moved_up, List.count_append]
        ring
      · have hr' : ¬ (x = r) := fun h => hr h.symm
        simp [hr, hr', hpos, List.count_append, List.count_singleton]

theorem kill_loop_spec (state : MyState) (a0 : AttributeArrays) (l : List Nat)
    (hrange : ∀ p ∈ l, p < a0.size) :
    ∃ a, l.foldlM (kill_step state) a0 = some a ∧ KillInv state a0 l a := by
  apply foldlM_list_inv _ (KillInv state a0) l a0
  · exact ⟨rfl, rfl, rfl, fun _ _ => rfl, fun r => by simp⟩
  · intro pre x a hx hinv
    obtain ⟨hsz, hf, hf3, hother, hkill⟩ := hinv
    have hxs : x < a.size := by rw [hsz]; exact hrange x hx
    by_cases hage : state.seconds_since_start - a0.floats "Birth Time" x > 5
    · refine ⟨{ a with bytes := fun n r =>
          if n = "Kill State" ∧ r = x then 1 % 256 else a.bytes n r }, ?_, hsz, hf, hf3, ?_, ?_⟩
      · simp [kill_step, AttributeArrays.get_float, AttributeArrays.set_byte, hxs, hf, hage]
      · intro name hname
        funext r
        simp [hname, hother name hname]
      · intro r
        by_cases hr : r = x
        · subst hr
          simp [hage]
        · simp [hr, hkill]
    · refine ⟨a, ?_, hsz, hf, hf3, hother, ?_⟩
      · simp [kill_step, AttributeArrays.get_float, hxs, hf, hage]
      · intro r
        by_cases hr : r = x
        · subst hr
          simp [hage, hkill]
        · simp [hr, hkill]

/-! ## The committing loops -/

theorem ignoring_loop_spec (a0 : AttributeArrays) (mask : List Nat) (po vo : List float3)
    (hnodup : mask.Nodup) (hrange : ∀ p ∈ mask, p < a0.size)
    (hpo : po.length = mask.length) (hvo : vo.length = mask.length) :
    ∃ a, (List.range mask.length).foldlM (ignoring_step mask po vo) a0 = some a ∧
      OffsetsInv a0 (row_at mask) (offset_at po) (offset_at vo) mask.length a := by
  apply foldlM_range_inv _ (OffsetsInv a0 (row_at mask) (offset_at po) (offset_at vo))
  · exact OffsetsInv.init _ _ _ _
  · intro k a hk hinv
    have hinj : ∀ i, i < k → row_at mask i ≠ row_at mask k := by
      intro i hi h
      have := row_at_inj mask hnodup i k (by omega) hk h
      omega
    obtain ⟨a', ha', hinv'⟩ := OffsetsInv.step hinv hinj (hrange _ (row_at_mem mask k hk))
    refine ⟨a', ?_, hinv'⟩
    simp only [ignoring_step, row_at_eq mask k hk, offset_at_eq po k (hpo ▸ hk),
      offset_at_eq vo k (hvo ▸ hk), Option.bind_eq_bind, Option.some_bind, ha']

theorem finalize_loop_spec (a0 : AttributeArrays) (mask : List Nat) (po vo : List float3)
    (hnodup : mask.Nodup) (hrange : ∀ p ∈ mask, p < a0.size)
    (hsmall : ∀ p ∈ mask, p < mask.length)
    (hpo : po.length = mask.length) (hvo : vo.length = mask.length) :
    ∃ a, (List.range mask.length).foldlM (finalize_step mask po vo) a0 = some a ∧
      OffsetsInv a0 (row_at mask) (fun i => offset_at po (row_at mask i))
        (fun i => offset_at vo (row_at mask i)) mask.length a := by
  apply foldlM_range_inv _ (OffsetsInv a0 (row_at mask) (fun i => offset_at po (row_at mask i))
    (fun i => offset_at vo (row_at mask i)))
  · exact OffsetsInv.init _ _ _ _
  · intro k a hk hinv
    have hinj : ∀ i, i < k → row_at mask i ≠ row_at mask k := by
      intro i hi h
      have := row_at_inj mask hnodup i k (by omega) hk h
      omega
    have hsm : row_at mask k < mask.length := hsmall _ (row_at_mem mask k hk)
    obtain ⟨a', ha', hinv'⟩ := OffsetsInv.step hinv hinj (hrange _ (row_at_mem mask k hk))
    refine ⟨a', ?_, hinv'⟩
    simp only [finalize_step, row_at_eq mask k hk, offset_at_eq po _ (hpo ▸ hsm),
      offset_at_eq vo _ (hvo ▸ hsm), Option.bind_eq_bind, Option.some_bind, ha']

theorem event_loop_spec (a0 : AttributeArrays) (mask : List Nat) (td : List ℚ)
    (po vo : List float3) (r_utd : List ℚ) (hnodup : mask.Nodup)
    (hrange : ∀ p ∈ mask, p < a0.size) (hlen : mask.length = td.length)
    (hpo : po.length = mask.length) (hvo : vo.length = mask.length) :
    ∃ st, (List.range mask.length).foldlM
        (event_step mask td po vo ((triggered a0 mask po).map (row_at mask))
          ((triggered a0 mask po).map
            (fun i => hit_factor a0 (row_at mask i) (offset_at po i))))
        (a0, r_utd, 0) = some st ∧
      EventInv a0 mask td po vo r_utd mask.length st := by
  apply foldlM_range_inv _ (EventInv a0 mask td po vo r_utd)
  · exact ⟨OffsetsInv.init _ _ _ _, by simp [triggered_upto], by simp [triggered_upto]⟩
  · intro k st hk hinv
    exact event_step_inv a0 mask td po vo r_utd hnodup hrange hlen hpo hvo k st hk hinv

/-- The rows of the triggered positions lie in the mask. -/
theorem triggered_rows_mem (a0 : AttributeArrays) (mask : List Nat) (po : List float3)
    (p : Nat) (hp : p ∈ (triggered a0 mask po).map (row_at mask)) : p ∈ mask := by
  obtain ⟨i, hi, rfl⟩ := List.mem_map.mp hp
  have := List.mem_range.mp (List.mem_filter.mp hi).1
  exact row_at_mem mask i this

theorem triggered_mem_iff (a0 : AttributeArrays) (mask : List Nat) (po : List float3)
    (i : Nat) :
    i ∈ triggered a0 mask po ↔
      i < mask.length ∧ crosses a0 (row_at mask i) (offset_at po i) = true := by
  simp [triggered, triggered_upto, List.mem_filter]

theorem triggered_nodup (a0 : AttributeArrays) (mask : List Nat) (po : List float3) :
    (triggered a0 mask po).Nodup :=
  List.Nodup.filter _ (List.nodup_range _)

theorem triggered_rows_nodup (a0 : AttributeArrays) (mask : List Nat) (po : List float3)
    (hnodup : mask.Nodup) : ((triggered a0 mask po).map (row_at mask)).Nodup := by
  refine List.Nodup.map_on ?_ (triggered_nodup a0 mask po)
  intro i hi j hj h
  exact row_at_inj mask hnodup i j ((triggered_mem_iff a0 mask po i).mp hi).1
    ((triggered_mem_iff a0 mask po j).mp hj).1 h

/-- Whether the row at position `i` of the mask is among the rows of the triggered
positions. -/
theorem row_triggered_iff (a0 : AttributeArrays) (mask : List Nat) (po : List float3)
    (hnodup : mask.Nodup) (i : Nat) (hi : i < mask.length) :
    row_at mask i ∈ (triggered a0 mask po).map (row_at mask) ↔
      crosses a0 (row_at mask i) (offset_at po i) = true := by
  constructor
  · intro h
    obtain ⟨j, hj, hji⟩ := List.mem_map.mp h
    obtain ⟨hjn, hjc⟩ := (triggered_mem_iff a0 mask po j).mp hj
    have := row_at_inj mask hnodup j i hjn hi hji
    subst this
    exact hjc
  · intro h
    exact List.mem_map.mpr ⟨i, (triggered_mem_iff a0 mask po i).mpr ⟨hi, h⟩, rfl⟩

/-! ## `step_slice_to_next_event` -/

theorem to_next_event_triggered (m_description : Description) (state : MyState)
    (a0 : AttributeArrays) (mask : List Nat) (td : List ℚ) (r_um : List Nat) (r_utd : List ℚ)
    (po vo : List float3) (hnodup : mask.Nodup) (hrange : ∀ p ∈ mask, p < a0.size)
    (hlen : mask.length = td.length)
    (hint : integrate_particles m_description a0 mask td
      (List.replicate mask.length float3.zero) (List.replicate mask.length float3.zero)
        = some (po, vo))
    (hpo : po.length = mask.length) (hvo : vo.length = mask.length)
    (htrig : triggered a0 mask po ≠ []) :
    ∃ a1 a2,
      (List.range mask.length).foldlM
        (event_step mask td po vo ((triggered a0 mask po).map (row_at mask))
          ((triggered a0 mask po).map
            (fun i => hit_factor a0 (row_at mask i) (offset_at po i))))
        (a0, r_utd, 0) =
          some (a1, r_utd ++ (triggered a0 mask po).map (remaining_time a0 mask td po),
            (triggered a0 mask po).length) ∧
      MoveUpAction.execute a1 ((triggered a0 mask po).map (row_at mask)) = some a2 ∧
      step_slice_to_next_event m_description state a0 mask td r_um r_utd =
        some (a2, r_um ++ (triggered a0 mask po).map (row_at mask),
          r_utd ++ (triggered a0 mask po).map (remaining_time a0 mask td po)) ∧
      OffsetsInv a0 (row_at mask) (committed_offset a0 mask po po)
        (committed_offset a0 mask po vo) mask.length a1 ∧
      MoveUpInv a1 ((triggered a0 mask po).map (row_at mask)) a2 := by
  obtain ⟨⟨a1, utd, used⟩, hloop, hoff, hutd, hused⟩ :=
    event_loop_spec a0 mask td po vo r_utd hnodup hrange hlen hpo hvo
  simp only at hoff hutd hused
  have hutd' : utd = r_utd ++ (triggered a0 mask po).map (remaining_time a0 mask td po) := hutd
  have hused' : used = (triggered a0 mask po).length := hused
  subst hutd' hused'
  have hr1 : ∀ p ∈ (triggered a0 mask po).map (row_at mask), p < a1.size := by
    intro p hp
    rw [hoff.1.1]
    exact hrange p (triggered_rows_mem a0 mask po p hp)
  obtain ⟨a2, hmove, hmoveInv⟩ := MoveUpAction.execute_spec a1 _ hr1
  refine ⟨a1, a2, hloop, hmove, ?_, hoff, hmoveInv⟩
  have hne : ¬ ((triggered a0 mask po).length = 0) := by
    intro h
    exact htrig (List.length_eq_zero.mp h)
  simp only [step_slice_to_next_event, hint, filter_spec a0 mask po [] [] hpo.symm hrange,
    Option.bind_eq_bind, Option.some_bind, List.nil_append, List.length_map, hne, if_false,
    hloop, hmove, Option.pure_def]

theorem to_next_event_untriggered (m_description : Description) (state : MyState)
    (a0 : AttributeArrays) (mask : List Nat) (td : List ℚ) (r_um : List Nat) (r_utd : List ℚ)
    (po vo : List float3) (hnodup : mask.Nodup) (hrange : ∀ p ∈ mask, p < a0.size)
    (hsmall : ∀ p ∈ mask, p < mask.length)
    (hint : integrate_particles m_description a0 mask td
      (List.replicate mask.length float3.zero) (List.replicate mask.length float3.zero)
        = some (po, vo))
    (hpo : po.length = mask.length) (hvo : vo.length = mask.length)
    (htrig : triggered a0 mask po = []) :
    ∃ a1,
      step_slice_to_next_event m_description state a0 mask td r_um r_utd =
        some (a1, r_um, r_utd) ∧
      OffsetsInv a0 (row_at mask) (fun i => offset_at po (row_at mask i))
        (fun i => offset_at vo (row_at mask i)) mask.length a1 := by
  obtain ⟨a1, hloop, hoff⟩ := finalize_loop_spec a0 mask po vo hnodup hrange hsmall hpo hvo
  refine ⟨a1, ?_, hoff⟩
  simp only [step_slice_to_next_event, hint, filter_spec a0 mask po [] [] hpo.symm hrange,
    Option.bind_eq_bind, Option.some_bind, List.nil_append, htrig, List.map_nil,
    List.length_nil, if_true, hloop, MoveUpAction.execute, List.foldlM_nil, List.append_nil,
    Option.pure_def]

/-! ## `step_slice_ignoring_events` -/

theorem step_slice_ignoring_events_spec (m_description : Description) (a0 : AttributeArrays)
    (mask : List Nat) (td : List ℚ) (hnodup : mask.Nodup)
    (hrange : ∀ p ∈ mask, p < a0.size) (hlen : mask.length = td.length) :
    ∃ po vo a,
      integrate_particles m_description a0 mask td
        (List.replicate mask.length float3.zero) (List.replicate mask.length float3.zero)
          = some (po, vo) ∧
      po.length = mask.length ∧ vo.length = mask.length ∧
      step_slice_ignoring_events m_description a0 mask td = some a ∧
      OffsetsInv a0 (row_at mask) (offset_at po) (offset_at vo) mask.length a := by
  obtain ⟨cf, po, vo, _, hint, _, hpo, hvo, _⟩ := integrate_particles_spec m_description a0
    mask td (List.replicate mask.length float3.zero) (List.replicate mask.length float3.zero)
    hlen (by simp) (by simp) hrange
  obtain ⟨a, hloop, hoff⟩ := ignoring_loop_spec a0 mask po vo hnodup hrange hpo hvo
  refine ⟨po, vo, a, hint, hpo, hvo, ?_, hoff⟩
  simp only [step_slice_ignoring_events, hint, Option.bind_eq_bind, Option.some_bind, hloop]

/-! ## `step_slice` -/

theorem step_slice_untriggered (m_description : Description) (state : MyState)
    (a0 : AttributeArrays) (mask : List Nat) (td : List ℚ)
    (po vo : List float3) (hnodup : mask.Nodup) (hrange : ∀ p ∈ mask, p < a0.size)
    (hsmall : ∀ p ∈ mask, p < mask.length)
    (hint : integrate_particles m_description a0 mask td
      (List.replicate mask.length float3.zero) (List.replicate mask.length float3.zero)
        = some (po, vo))
    (hpo : po.length = mask.length) (hvo : vo.length = mask.length)
    (htrig : triggered a0 mask po = []) :
    ∃ a1 a2,
      step_slice_to_next_event m_description state a0 mask td [] [] = some (a1, [], []) ∧
      OffsetsInv a0 (row_at mask) (fun i => offset_at po (row_at mask i))
        (fun i => offset_at vo (row_at mask i)) mask.length a1 ∧
      step_slice m_description state a0 mask td = some a2 ∧
      KillInv state a1 mask a2 := by
  obtain ⟨a1, hnext, hoff⟩ := to_next_event_untriggered m_description state a0 mask td [] []
    po vo hnodup hrange hsmall hint hpo hvo htrig
  have hr1 : ∀ p ∈ mask, p < a1.size := by
    intro p hp
    rw [hoff.1.1]
    exact hrange p hp
  obtain ⟨a2, hkill, hkillInv⟩ := kill_loop_spec state a1 mask hr1
  refine ⟨a1, a2, hnext, hoff, ?_, hkillInv⟩
  simp [step_slice, hnext, hkill]

theorem step_slice_triggered (m_description : Description) (state : MyState)
    (a0 : AttributeArrays) (mask : List Nat) (td : List ℚ)
    (po vo : List float3) (hnodup : mask.Nodup) (hrange : ∀ p ∈ mask, p < a0.size)
    (hlen : mask.length = td.length)
    (hint : integrate_particles m_description a0 mask td
      (List.replicate mask.length float3.zero) (List.replicate mask.length float3.zero)
        = some (po, vo))
    (hpo : po.length = mask.length) (hvo : vo.length = mask.length)
    (htrig : triggered a0 mask po ≠ []) :
    ∃ a1 a2 po2 vo2 a3 a4,
      OffsetsInv a0 (row_at mask) (committed_offset a0 mask po po)
        (committed_offset a0 mask po vo) mask.length a1 ∧
      MoveUpInv a1 ((triggered a0 mask po).map (row_at mask)) a2 ∧
      step_slice_to_next_event m_description state a0 mask td [] [] =
        some (a2, (triggered a0 mask po).map (row_at mask),
          (triggered a0 mask po).map (remaining_time a0 mask td po)) ∧
      integrate_particles m_description a2 ((triggered a0 mask po).map (row_at mask))
        ((triggered a0 mask po).map (remaining_time a0 mask td po))
        (List.replicate (triggered a0 mask po).length float3.zero)
        (List.replicate (triggered a0 mask po).length float3.zero) = some (po2, vo2) ∧
      po2.length = (triggered a0 mask po).length ∧
      vo2.length = (triggered a0 mask po).length ∧
      step_slice_ignoring_events m_description a2 ((triggered a0 mask po).map (row_at mask))
        ((triggered a0 mask po).map (remaining_time a0 mask td po)) = some a3 ∧
      OffsetsInv a2 (row_at ((triggered a0 mask po).map (row_at mask))) (offset_at po2)
        (offset_at vo2) (triggered a0 mask po).length a3 ∧
      step_slice m_description state a0 mask td = some a4 ∧
      KillInv state a3 mask a4 := by
  obtain ⟨a1, a2, _, _, hnext, hoff, hmove⟩ := to_next_event_triggered m_description state a0
    mask td [] [] po vo hnodup hrange hlen hint hpo hvo htrig
  simp only [List.nil_append] at hnext
  have hsz2 : a2.size = a0.size := by rw [hmove.1, hoff.1.1]
  have hr2 : ∀ p ∈ (triggered a0 mask po).map (row_at mask), p < a2.size := by
    intro p hp
    rw [hsz2]
    exact hrange p (triggered_rows_mem a0 mask po p hp)
  obtain ⟨po2, vo2, a3, hint2, hpo2, hvo2, hign, hoff2⟩ :=
    step_slice_ignoring_events_spec m_description a2 ((triggered a0 mask po).map (row_at mask))
      ((triggered a0 mask po).map (remaining_time a0 mask td po))
      (triggered_rows_nodup a0 mask po hnodup) hr2 (by simp)
  simp only [List.length_map] at hint2 hpo2 hvo2 hoff2
  have hr3 : ∀ p ∈ mask, p < a3.size := by
    intro p hp
    rw [hoff2.1.1, hsz2]
    exact hrange p hp
  obtain ⟨a4, hkill, hkillInv⟩ := kill_loop_spec state a3 mask hr3
  refine ⟨a1, a2, po2, vo2, a3, a4, hoff, hmove, hnext, hint2, hpo2, hvo2, hign, hoff2, ?_,
    hkillInv⟩
  have hpos : 0 < (triggered a0 mask po).length := List.length_pos.mpr htrig
  simp [step_slice, hnext, hpos, hign, hkill]

/-! ## Removing dead particles -/

theorem delete_loop_done (ks : Nat) (b : ParticlesBlock) (i : Nat)
    (h : ¬ i < b.active_amount) : delete_dead_particles.loop ks b i = some b := by
  rw [delete_dead_particles.loop]
  simp [h]

theorem delete_loop_alive (ks : Nat) (b : ParticlesBlock) (i : Nat)
    (h : i < b.active_amount) (hks : i < ks)
    (halive : b.attributes.bytes "Kill State" i ≠ 1) :
    delete_dead_particles.loop ks b i = delete_dead_particles.loop ks b (i + 1) := by
  rw [delete_dead_particles.loop]
  simp [h, hks, halive]

theorem move_last_eq (b : ParticlesBlock) (i : Nat) (h : i < b.active_amount)
    (hcap : b.active_amount ≤ b.attributes.size) :
    b.move (b.active_amount - 1) i
      = some { removed_at b i with active_amount := b.active_amount } := by
  have h1 : b.active_amount - 1 < b.attributes.size := by omega
  have h2 : i < b.attributes.size := by omega
  simp [ParticlesBlock.move, h1, h2, removed_at]

theorem delete_loop_dead (ks : Nat) (b : ParticlesBlock) (i : Nat)
    (h : i < b.active_amount) (hks : i < ks) (hcap : b.active_amount ≤ b.attributes.size)
    (hdead : b.attributes.bytes "Kill State" i = 1) :
    delete_dead_particles.loop ks b i = delete_dead_particles.loop ks (removed_at b i) i := by
  rw [delete_dead_particles.loop]
  simp only [h, hks, hdead, if_true]
  split
  · rename_i moved hmove
    rw [move_last_eq b i h hcap] at hmove
    cases hmove
    rfl
  · rename_i hmove
    rw [move_last_eq b i h hcap] at hmove
    cases hmove

theorem delete_loop_skip (ks : Nat) (b : ParticlesBlock) (d : Nat) :
    ∀ i, i + d ≤ b.active_amount → i + d ≤ ks →
      (∀ r, i ≤ r → r < i + d → b.attributes.bytes "Kill State" r ≠ 1) →
      delete_dead_particles.loop ks b i = delete_dead_particles.loop ks b (i + d) := by
  induction d with
  | zero => intro i _ _ _; rfl
  | succ d ih =>
    intro i hact hks halive
    rw [delete_loop_alive ks b i (by omega) (by omega) (halive i (Nat.le_refl i) (by omega))]
    rw [ih (i + 1) (by omega) (by omega) (fun r h1 h2 => halive r (by omega) (by omega))]
    congr 1
    omega

theorem dead_count_succ (b : ParticlesBlock) (n : Nat) :
    dead_count b (n + 1) =
      dead_count b n + (if b.attributes.bytes "Kill State" n = 1 then 1 else 0) := by
  simp [dead_count, List.range_succ, List.countP_append, List.countP_cons]

theorem dead_count_eq_zero (b : ParticlesBlock) (n : Nat)
    (h : ∀ r, r < n → b.attributes.bytes "Kill State" r ≠ 1) : dead_count b n = 0 := by
  induction n with
  | zero => simp [dead_count]
  | succ n ih =>
    rw [dead_count_succ, ih (fun r hr => h r (Nat.lt_succ_of_lt hr))]
    simp [h n (Nat.lt_succ_self n)]

/-- Counting the dead rows below `n` in two blocks that agree except at row `i`. -/
theorem dead_count_update (b c : ParticlesBlock) (i n : Nat) (hi : i < n)
    (hsame : ∀ r, r ≠ i →
      c.attributes.bytes "Kill State" r = b.attributes.bytes "Kill State" r) :
    dead_count c n + (if b.attributes.bytes "Kill State" i = 1 then 1 else 0) =
      dead_count b n + (if c.attributes.bytes "Kill State" i = 1 then 1 else 0) := by
  induction n with
  | zero => omega
  | succ n ih =>
    rw [dead_count_succ, dead_count_succ]
    rcases Nat.lt_succ_iff_lt_or_eq.mp hi with hlt | heq
    · have := ih hlt
      rw [hsame n (by omega)]
      omega
    · subst heq
      have hcb : dead_count c i = dead_count b i := by
        simp only [dead_count]
        apply List.countP_congr
        intro r hr
        have := List.mem_range.mp hr
        rw [hsame r (by omega)]
      rw [hcb]
      omega

theorem dead_count_removed (b : ParticlesBlock) (i : Nat) (h : i < b.active_amount)
    (hdead : b.attributes.bytes "Kill State" i = 1) :
    dead_count (removed_at b i) (b.active_amount - 1) + 1 = dead_count b b.active_amount := by
  have hN : b.active_amount = (b.active_amount - 1) + 1 := by omega
  have hsame : ∀ r, r ≠ i → (removed_at b i).attributes.bytes "Kill State" r
      = b.attributes.bytes "Kill State" r := by
    intro r hr
    simp [removed_at, hr]
  have hat : (removed_at b i).attributes.bytes "Kill State" i
      = b.attributes.bytes "Kill State" (b.active_amount - 1) := by
    simp [removed_at]
  conv_rhs => rw [hN, dead_count_succ]
  by_cases hlast : i = b.active_amount - 1
  · have hcb : dead_count (removed_at b i) (b.active_amount - 1)
        = dead_count b (b.active_amount - 1) := by
      simp only [dead_count]
      apply List.countP_congr
      intro r hr
      have := List.mem_range.mp hr
      rw [hsame r (by omega)]
    rw [hcb, ← hlast, hdead]
    simp
  · have := dead_count_update b (removed_at b i) i (b.active_amount - 1) (by omega) hsame
    rw [hdead, hat] at this
    simp only [if_true] at this
    omega

theorem delete_loop_spec (ks : Nat) :
    ∀ (m : Nat) (b : ParticlesBlock) (i : Nat), b.active_amount - i = m →
      i ≤ b.active_amount → b.active_amount ≤ ks → b.active_amount ≤ b.attributes.size →
      (∀ r, r < i → b.attributes.bytes "Kill State" r ≠ 1) →
      ∃ b', delete_dead_particles.loop ks b i = some b' ∧
        (∀ r, r < b'.active_amount → b'.attributes.bytes "Kill State" r ≠ 1) ∧
        b'.active_amount + dead_count b b.active_amount = b.active_amount ∧
        b'.attributes.size = b.attributes.size := by
  intro m
  induction m with
  | zero =>
    intro b i hm hi _ _ halive
    have hEq : i = b.active_amount := by omega
    subst hEq
    refine ⟨b, delete_loop_done ks b _ (Nat.lt_irrefl _), halive, ?_, rfl⟩
    rw [dead_count_eq_zero b _ halive]
    rfl
  | succ m ih =>
    intro b i hm hi hks hcap halive
    have hlt : i < b.active_amount := by omega
    by_cases hdead : b.attributes.bytes "Kill State" i = 1
    · have hact : (removed_at b i).active_amount = b.active_amount - 1 := rfl
      obtain ⟨b', hb', hnone, hcount, hsize⟩ := ih (removed_at b i) i (by rw [hact]; omega)
        (by rw [hact]; omega) (by rw [hact]; omega)
        (by rw [hact]; show _ ≤ b.attributes.size; omega)
        (by
          intro r hr
          have hne : r ≠ i := by omega
          simpa [removed_at, hne] using halive r hr)
      refine ⟨b', ?_, hnone, ?_, hsize⟩
      · rw [delete_loop_dead ks b i hlt (by omega) hcap hdead, hb']
      · have := dead_count_removed b i hlt hdead
        rw [hact] at hcount
        omega
    · obtain ⟨b', hb', hnone, hcount, hsize⟩ := ih b (i + 1) (by omega) (by omega) hks hcap
        (by
          intro r hr
          rcases Nat.lt_succ_iff_lt_or_eq.mp hr with h | h
          · exact halive r h
          · subst h; exact hdead)
      exact ⟨b', by rw [delete_loop_alive ks b i hlt (by omega) hdead, hb'], hnone, hcount,
        hsize⟩

/-! ## Consequences of the loop invariants -/

theorem OffsetsInv.velocity_eq {a0 : AttributeArrays} {m : Nat → Nat} {dP dV : Nat → float3}
    {k : Nat} {a : AttributeArrays} (hinv : OffsetsInv a0 m dP dV k a) (r : Nat)
    (hz : ∀ i, i < k → m i = r → dV i = float3.zero) :
    a.float3s "Velocity" r = a0.float3s "Velocity" r := by
  by_cases h : ∃ i, i < k ∧ m i = r
  · obtain ⟨i, hi, hir⟩ := h
    have := (hinv.2.1 i hi).2
    rw [hir, hz i hi hir, float3.add_zero] at this
    exact this
  · exact (hinv.2.2 r (fun i hi hir => h ⟨i, hi, hir⟩)).2

theorem OffsetsInv.position_eq {a0 : AttributeArrays} {m : Nat → Nat} {dP dV : Nat → float3}
    {k : Nat} {a : AttributeArrays} (hinv : OffsetsInv a0 m dP dV k a) (r : Nat)
    (hz : ∀ i, i < k → m i = r → dP i = float3.zero) :
    a.float3s "Position" r = a0.float3s "Position" r := by
  by_cases h : ∃ i, i < k ∧ m i = r
  · obtain ⟨i, hi, hir⟩ := h
    have := (hinv.2.1 i hi).1
    rw [hir, hz i hi hir, float3.add_zero] at this
    exact this
  · exact (hinv.2.2 r (fun i hi hir => h ⟨i, hi, hir⟩)).1

theorem offset_at_of_eq (offsets : List float3) (i : Nat) (v : float3)
    (h : offsets[i]? = some v) : offset_at offsets i = v := by
  simp [offset_at, h]

/-- What a completed call of `integrate_particles` has written, entry by entry. -/
theorem integrate_particles_entries (m_description : Description)
    (attributes : AttributeArrays) (mask : List Nat) (td : List ℚ) (po vo : List float3)
    (hlen : mask.length = td.length) (hrange : ∀ p ∈ mask, p < attributes.size)
    (hint : integrate_particles m_description attributes mask td
      (List.replicate mask.length float3.zero) (List.replicate mask.length float3.zero)
        = some (po, vo)) :
    ∃ cf, compute_combined_force m_description attributes mask
        (List.replicate mask.length float3.zero) = some cf ∧
      cf.length = mask.length ∧ po.length = mask.length ∧ vo.length = mask.length ∧
      ∀ i, i < mask.length →
        offset_at vo i = time_at td i * offset_at cf i ∧
        offset_at po i = time_at td i * (attributes.float3s "Velocity" (row_at mask i)
          + (1 / 2 : ℚ) * (time_at td i * offset_at cf i)) := by
  obtain ⟨cf, po', vo', hcf, hint', hcflen, hpolen, hvolen, hall⟩ :=
    integrate_particles_spec m_description attributes mask td
      (List.replicate mask.length float3.zero) (List.replicate mask.length float3.zero)
      hlen (by simp) (by simp) hrange
  rw [hint] at hint'
  cases hint'
  refine ⟨cf, hcf, hcflen, hpolen, hvolen, ?_⟩
  intro i hi
  have h := hall i (row_at mask i) (time_at td i) (offset_at cf i) (row_at_eq mask i hi)
    (time_at_eq td i (hlen ▸ hi)) (offset_at_eq cf i (hcflen ▸ hi))
  exact ⟨offset_at_of_eq _ _ _ h.1, offset_at_of_eq _ _ _ h.2⟩

/-- Without forces the tentative velocity offsets vanish and the tentative position offsets
are `time_diff * velocity`. -/
theorem integrate_particles_no_forces (m_description : Description)
    (hforces : m_description.forces = [])
    (attributes : AttributeArrays) (mask : List Nat) (td : List ℚ) (po vo : List float3)
    (hlen : mask.length = td.length) (hrange : ∀ p ∈ mask, p < attributes.size)
    (hint : integrate_particles m_description attributes mask td
      (List.replicate mask.length float3.zero) (List.replicate mask.length float3.zero)
        = some (po, vo)) :
    ∀ i, i < mask.length →
      offset_at vo i = float3.zero ∧
      offset_at po i = time_at td i * attributes.float3s "Velocity" (row_at mask i) := by
  obtain ⟨cf, hcf, _, _, _, hall⟩ := integrate_particles_entries m_description attributes
    mask td po vo hlen hrange hint
  have hcfeq : cf = List.replicate mask.length float3.zero := by
    simp only [compute_combined_force, List.length_replicate, if_true, hforces,
      List.foldl_nil, Option.some.injEq] at hcf
    exact hcf.symm
  intro i hi
  have hz : offset_at cf i = float3.zero := by
    rw [hcfeq]
    simp [offset_at, List.getElem?_replicate, hi]
  obtain ⟨h1, h2⟩ := hall i hi
  rw [hz] at h1 h2
  refine ⟨by rw [h1, float3.smul_zero], ?_⟩
  rw [h2]
  simp [float3.ext_iff3]

theorem row_at_range (n i : Nat) (h : i < n) : row_at (List.range n) i = i := by
  simp [row_at, List.getElem?_range h]

theorem not_crosses_zero (attributes : AttributeArrays) (p : Nat) :
    crosses attributes p float3.zero = false := by
  simp only [crosses, float3.zero_y, add_zero, Bool.and_eq_false_imp, decide_eq_true_eq,
    decide_eq_false_iff_not, not_le, ge_iff_le]
  intro h
  exact h

/-! ## Stepping without forces -/

theorem step_slice_no_forces (m_description : Description)
    (hforces : m_description.forces = []) (state : MyState) (a0 : AttributeArrays)
    (td : List ℚ) (hlen : td.length = a0.size) :
    ∃ a', step_slice m_description state a0 (List.range a0.size) td = some a' ∧
      (∀ r, a'.float3s "Velocity" r = a0.float3s "Velocity" r) ∧
      (∀ r, (r < a0.size → time_at td r * a0.float3s "Velocity" r = float3.zero) →
        a'.float3s "Position" r = a0.float3s "Position" r) := by
  have hnodup : (List.range a0.size).Nodup := List.nodup_range _
  have hrange : ∀ p ∈ List.range a0.size, p < a0.size := fun p hp => List.mem_range.mp hp
  have hmlen : (List.range a0.size).length = td.length := by simp [hlen]
  have hn : (List.range a0.size).length = a0.size := List.length_range _
  obtain ⟨_, po, vo, _, hint, _, hpo, hvo, _⟩ := integrate_particles_spec m_description a0
    (List.range a0.size) td (List.replicate (List.range a0.size).length float3.zero)
    (List.replicate (List.range a0.size).length float3.zero) hmlen (by simp) (by simp) hrange
  have hoffs := integrate_particles_no_forces m_description hforces a0 (List.range a0.size)
    td po vo hmlen hrange hint
  by_cases htrig : triggered a0 (List.range a0.size) po = []
  · obtain ⟨a1, a2, _, hoff, hstep, hkill⟩ := step_slice_untriggered m_description state a0
      (List.range a0.size) td po vo hnodup hrange (by simp) hint hpo hvo htrig
    refine ⟨a2, hstep, ?_, ?_⟩
    · intro r
      rw [hkill.2.2.1]
      apply hoff.velocity_eq r
      intro i hi _
      have hi' : i < a0.size := hn ▸ hi
      have hrow : row_at (List.range a0.size) i < (List.range a0.size).length := by
        rw [row_at_range _ _ hi']; exact hi
      exact (hoffs _ hrow).1
    · intro r hr
      rw [hkill.2.2.1]
      apply hoff.position_eq r
      intro i hi hir
      have hi' : i < a0.size := hn ▸ hi
      rw [row_at_range _ _ hi'] at hir
      subst hir
      show offset_at po (row_at (List.range a0.size) i) = float3.zero
      rw [row_at_range _ _ hi', (hoffs i hi).2, row_at_range _ _ hi']
      exact hr hi'
  · obtain ⟨a1, a2, po2, vo2, a3, a4, hoff, hmove, _, hint2, _, _, _, hoff2, hstep, hkill⟩ :=
      step_slice_triggered m_description state a0 (List.range a0.size) td po vo hnodup hrange
        hmlen hint hpo hvo htrig
    have hsz2 : a2.size = a0.size := by rw [hmove.1, hoff.1.1]
    have hr2 : ∀ p ∈ (triggered a0 (List.range a0.size) po).map
        (row_at (List.range a0.size)), p < a2.size := by
      intro p hp
      rw [hsz2]
      exact hrange p (triggered_rows_mem a0 _ po p hp)
    have hint2' := hint2
    rw [← List.length_map (triggered a0 (List.range a0.size) po)
      (row_at (List.range a0.size))] at hint2'
    have hoffs2 := integrate_particles_no_forces m_description hforces a2 _ _ po2 vo2
      (by simp) hr2 hint2'
    refine ⟨a4, hstep, ?_, ?_⟩
    · intro r
      rw [hkill.2.2.1]
      have h3 : a3.float3s "Velocity" r = a2.float3s "Velocity" r := by
        apply hoff2.velocity_eq r
        intro j hj _
        exact (hoffs2 j (by simpa using hj)).1
      have h2 : a2.float3s "Velocity" r = a1.float3s "Velocity" r := by
        rw [hmove.2.2.2.1 "Velocity" (by decide)]
      have h1 : a1.float3s "Velocity" r = a0.float3s "Velocity" r := by
        apply hoff.velocity_eq r
        intro i hi _
        show committed_offset a0 _ po vo i = float3.zero
        simp only [committed_offset, (hoffs i hi).1, float3.zero_mul, ite_self]
      rw [h3, h2, h1]
    · intro r hr
      rw [hkill.2.2.1]
      have hnot : ∀ i, i < (List.range a0.size).length → row_at (List.range a0.size) i = r →
          crosses a0 (row_at (List.range a0.size) i) (offset_at po i) = false ∧
          offset_at po i = float3.zero := by
        intro i hi hir
        have hi' : i < a0.size := hn ▸ hi
        have hpz : offset_at po i = float3.zero := by
          rw [(hoffs i hi).2, hir]
          rw [row_at_range _ _ hi'] at hir
          subst hir
          exact hr hi'
        exact ⟨by rw [hpz]; exact not_crosses_zero _ _, hpz⟩
      have hnotmem : r ∉ (triggered a0 (List.range a0.size) po).map
          (row_at (List.range a0.size)) := by
        intro hmem
        obtain ⟨i, hi, hir⟩ := List.mem_map.mp hmem
        obtain ⟨hilt, hic⟩ := (triggered_mem_iff a0 _ po i).mp hi
        rw [(hnot i hilt hir).1] at hic
        cases hic
      have h3 : a3.float3s "Position" r = a2.float3s "Position" r := by
        apply (hoff2.2.2 r ?_).1
        intro j hj hjr
        apply hnotmem
        rw [← hjr]
        exact row_at_mem _ j (by simpa using hj)
      have h2 : a2.float3s "Position" r = a1.float3s "Position" r := by
        rw [hmove.2.2.2.2 r, List.count_eq_zero_of_not_mem hnotmem, moved_up_zero]
      have h1 : a1.float3s "Position" r = a0.float3s "Position" r := by
        apply hoff.position_eq r
        intro i hi hir
        show committed_offset a0 _ po po i = float3.zero
        simp only [committed_offset, (hnot i hi hir).2, not_crosses_zero, Bool.false_eq_true,
          if_false]
      rw [h3, h2, h1]

/-- Without forces, rows that do not move along y drift by `time_diff * velocity`. -/
theorem step_slice_no_forces_level (m_description : Description)
    (hforces : m_description.forces = []) (state : MyState) (a0 : AttributeArrays)
    (td : List ℚ) (hlen : td.length = a0.size)
    (hlevel : ∀ r, r < a0.size → (a0.float3s "Velocity" r).y = 0) :
    ∃ a', step_slice m_description state a0 (List.range a0.size) td = some a' ∧
      ∀ r, r < a0.size → a'.float3s "Position" r =
        a0.float3s "Position" r + time_at td r * a0.float3s "Velocity" r := by
  have hnodup : (List.range a0.size).Nodup := List.nodup_range _
  have hrange : ∀ p ∈ List.range a0.size, p < a0.size := fun p hp => List.mem_range.mp hp
  have hmlen : (List.range a0.size).length = td.length := by simp [hlen]
  have hn : (List.range a0.size).length = a0.size := List.length_range _
  obtain ⟨_, po, vo, _, hint, _, hpo, hvo, _⟩ := integrate_particles_spec m_description a0
    (List.range a0.size) td (List.replicate (List.range a0.size).length float3.zero)
    (List.replicate (List.range a0.size).length float3.zero) hmlen (by simp) (by simp) hrange
  have hoffs := integrate_particles_no_forces m_description hforces a0 (List.range a0.size)
    td po vo hmlen hrange hint
  have htrig : triggered a0 (List.range a0.size) po = [] := by
    apply List.filter_eq_nil_iff.mpr
    intro i hi
    have hi' : i < a0.size := List.mem_range.mp (hn ▸ hi)
    have hy : (offset_at po i).y = 0 := by
      rw [(hoffs i (hn.symm ▸ hi')).2, row_at_range _ _ hi']
      simp [hlevel i hi']
    simp only [crosses, hy, add_zero, Bool.and_eq_true, decide_eq_true_eq, not_and, not_le,
      ge_iff_le]
    exact fun h => h
  obtain ⟨a1, a2, _, hoff, hstep, hkill⟩ := step_slice_untriggered m_description state a0
    (List.range a0.size) td po vo hnodup hrange (by simp) hint hpo hvo htrig
  refine ⟨a2, hstep, ?_⟩
  intro r hr
  have h := (hoff.2.1 r (hn.symm ▸ hr)).1
  simp only [row_at_range _ _ hr] at h
  rw [hkill.2.2.1, h, (hoffs r (hn.symm ▸ hr)).2, row_at_range _ _ hr]

/-! ## Rows that cross the plane -/

theorem to_next_event_untriggered_out (m_description : Description) (state : MyState)
    (a0 : AttributeArrays) (mask : List Nat) (td : List ℚ) (r_um : List Nat) (r_utd : List ℚ)
    (po vo : List float3) (hrange : ∀ p ∈ mask, p < a0.size)
    (hint : integrate_particles m_description a0 mask td
      (List.replicate mask.length float3.zero) (List.replicate mask.length float3.zero)
        = some (po, vo))
    (hpo : po.length = mask.length) (htrig : triggered a0 mask po = [])
    (result : AttributeArrays) (um : List Nat) (utd : List ℚ)
    (h : step_slice_to_next_event m_description state a0 mask td r_um r_utd
      = some (result, um, utd)) : um = r_um ∧ utd = r_utd := by
  simp only [step_slice_to_next_event, hint, filter_spec a0 mask po [] [] hpo.symm hrange,
    Option.bind_eq_bind, Option.some_bind, List.nil_append, htrig, List.map_nil,
    List.length_nil, if_true, MoveUpAction.execute, List.foldlM_nil, List.append_nil,
    Option.pure_def, Option.bind_eq_some, Option.some.injEq, Prod.mk.injEq] at h
  obtain ⟨_, _, _, h1, h2⟩ := h
  exact ⟨h1.symm, h2.symm⟩

/-- The place of a triggered position `i` in the list of triggered positions. -/
theorem triggered_index (a0 : AttributeArrays) (mask : List Nat) (po : List float3) (i : Nat)
    (hi : i < mask.length) (hcross : crosses a0 (row_at mask i) (offset_at po i) = true) :
    (triggered a0 mask po)[(triggered_upto a0 mask po i).length]? = some i := by
  obtain ⟨rest, hsplit, _⟩ := triggered_split a0 mask po i hi
  rw [hsplit]
  simp only [hcross, if_true, List.singleton_append]
  rw [List.getElem?_append_right (Nat.le_refl _)]
  simp

theorem crossing_height (a0 : AttributeArrays) (p : Nat) (m : float3)
    (hcross : crosses a0 p m = true) :
    (a0.float3s "Position" p + m * hit_factor a0 p m).y = 2 := by
  obtain ⟨hm, _, _⟩ := hit_factor_bounds a0 p m hcross
  have hne : m.y ≠ 0 := ne_of_gt hm
  simp only [float3.add_y, float3.mul_y, hit_factor]
  field_simp

theorem step_slice_crossing (m_description : Description) (state : MyState)
    (a0 : AttributeArrays) (mask : List Nat) (td : List ℚ) (po vo : List float3)
    (hnodup : mask.Nodup) (hrange : ∀ p ∈ mask, p < a0.size)
    (hlen : mask.length = td.length)
    (hint : integrate_particles m_description a0 mask td
      (List.replicate mask.length float3.zero) (List.replicate mask.length float3.zero)
        = some (po, vo))
    (i : Nat) (hi : i < mask.length)
    (hcross : crosses a0 (row_at mask i) (offset_at po i) = true) :
    ∃ a2 um utd po2 vo2 a4 j,
      step_slice_to_next_event m_description state a0 mask td [] [] = some (a2, um, utd) ∧
      um[j]? = some (row_at mask i) ∧
      utd[j]? = some (time_at td i *
        (1 - hit_factor a0 (row_at mask i) (offset_at po i))) ∧
      integrate_particles m_description a2 um utd
        (List.replicate um.length float3.zero) (List.replicate um.length float3.zero)
          = some (po2, vo2) ∧
      step_slice m_description state a0 mask td = some a4 ∧
      (a2.float3s "Position" (row_at mask i)).y = 7 ∧
      (a4.float3s "Position" (row_at mask i)).y = 2 + 5 + (offset_at po2 j).y := by
  obtain ⟨_, _, _, hpo, hvo, _⟩ := integrate_particles_entries m_description a0 mask td po vo
    hlen hrange hint
  have hmem : i ∈ triggered a0 mask po := (triggered_mem_iff a0 mask po i).mpr ⟨hi, hcross⟩
  have htrig : triggered a0 mask po ≠ [] := List.ne_nil_of_mem hmem
  obtain ⟨a1, a2, po2, vo2, a3, a4, hoff, hmove, hnext, hint2, _, _, _, hoff2, hstep, hkill⟩ :=
    step_slice_triggered m_description state a0 mask td po vo hnodup hrange hlen hint hpo hvo
      htrig
  have hj := triggered_index a0 mask po i hi hcross
  have hjlt : (triggered_upto a0 mask po i).length < (triggered a0 mask po).length :=
    (List.getElem?_eq_some_iff.mp hj).1
  have hum : ((triggered a0 mask po).map (row_at mask))[(triggered_upto a0 mask po i).length]?
      = some (row_at mask i) := by
    rw [List.getElem?_map, hj]; rfl
  have hrowj : row_at ((triggered a0 mask po).map (row_at mask))
      (triggered_upto a0 mask po i).length = row_at mask i := by
    simp [row_at, hum]
  have hrowmem : row_at mask i ∈ (triggered a0 mask po).map (row_at mask) :=
    List.mem_map.mpr ⟨i, hmem, rfl⟩
  have h1 : (a1.float3s "Position" (row_at mask i)).y = 2 := by
    rw [(hoff.2.1 i hi).1]
    simp only [committed_offset, hcross, if_true]
    exact crossing_height a0 _ _ hcross
  have h2 : (a2.float3s "Position" (row_at mask i)).y = 7 := by
    rw [hmove.2.2.2.2 (row_at mask i),
      List.count_eq_one_of_mem (triggered_rows_nodup a0 mask po hnodup) hrowmem]
    simp only [moved_up, h1]
    norm_num
  refine ⟨a2, _, _, po2, vo2, a4, (triggered_upto a0 mask po i).length, hnext, hum, ?_, ?_,
    hstep, h2, ?_⟩
  · rw [List.getElem?_map, hj]; rfl
  · simpa using hint2
  · rw [hkill.2.2.1]
    have h3 := (hoff2.2.1 _ hjlt).1
    rw [hrowj] at h3
    rw [h3, float3.add_y, h2]
    norm_num

/-! ## Concrete evaluations -/

theorem integrate_example_slice :
    integrate_particles no_forces example_slice [0, 1] [1, 1]
      (List.replicate [0, 1].length float3.zero) (List.replicate [0, 1].length float3.zero)
      = some ([⟨0, 2, 0⟩, ⟨0, 0, 0⟩], [⟨0, 0, 0⟩, ⟨0, 0, 0⟩]) := by
  simp [integrate_particles, compute_combined_force, no_forces, integrate_step, store,
    example_slice, AttributeArrays.get_float3, List.range, List.range.loop, float3.zero,
    float3.ext_iff3]

theorem integrate_drifting_slice :
    integrate_particles no_forces drifting_slice [1, 0] [1, 1]
      (List.replicate [1, 0].length float3.zero) (List.replicate [1, 0].length float3.zero)
      = some ([⟨0, 0, 0⟩, ⟨1, 0, 0⟩], [⟨0, 0, 0⟩, ⟨0, 0, 0⟩]) := by
  simp [integrate_particles, compute_combined_force, no_forces, integrate_step, store,
    drifting_slice, AttributeArrays.get_float3, List.range, List.range.loop, float3.zero,
    float3.ext_iff3]

theorem example_slice_row0_crosses :
    crosses example_slice (row_at [0, 1] 0)
      (offset_at [⟨0, 2, 0⟩, ⟨0, 0, 0⟩] 0) = true := by
  simp [crosses, example_slice, row_at, offset_at]

theorem drifting_slice_triggered :
    triggered drifting_slice [1, 0] [⟨0, 0, 0⟩, ⟨1, 0, 0⟩] = [] := by
  simp [triggered, triggered_upto, crosses, drifting_slice, row_at, offset_at, List.range,
    List.range.loop, List.filter]
  norm_num

/-! ## What a completed step leaves alone -/

theorem scalarFrame_refl (a : AttributeArrays) : ScalarFrame a a := ⟨rfl, rfl, rfl⟩

theorem scalarFrame_trans {a b c : AttributeArrays} (h1 : ScalarFrame a b)
    (h2 : ScalarFrame b c) : ScalarFrame a c :=
  ⟨h2.1.trans h1.1, h2.2.1.trans h1.2.1, h2.2.2.trans h1.2.2⟩

/-- A loop whose body keeps a reflexive and transitive relation to its input keeps it
over the whole run. -/
theorem foldlM_keeps {σ α : Type} (R : σ → σ → Prop) (hrefl : ∀ s, R s s)
    (htrans : ∀ s t u, R s t → R t u → R s u) (body : σ → α → Option σ)
    (hbody : ∀ s x s', body s x = some s' → R s s') (l : List α) :
    ∀ init s, l.foldlM body init = some s → R init s := by
  induction l with
  | nil =>
    intro init s h
    simp at h
    exact h ▸ hrefl init
  | cons x l ih =>
    intro init s h
    simp only [List.foldlM_cons, Option.bind_eq_bind, Option.bind_eq_some] at h
    obtain ⟨mid, hmid, hrest⟩ := h
    exact htrans _ _ _ (hbody init x mid hmid) (ih mid s hrest)

theorem set_float3_frame (a a' : AttributeArrays) (name : String) (r : Nat) (v : float3)
    (h : a.set_float3 name r v = some a') : ScalarFrame a a' := by
  unfold AttributeArrays.set_float3 at h
  split at h
  · cases h; exact ⟨rfl, rfl, rfl⟩
  · cases h

theorem add_offsets_frame (a a' : AttributeArrays) (p : Nat) (dP dV : float3)
    (h : a.add_offsets p dP dV = some a') : ScalarFrame a a' := by
  simp only [AttributeArrays.add_offsets, Option.bind_eq_bind, Option.bind_eq_some] at h
  obtain ⟨_, _, a1, h1, _, _, h2⟩ := h
  exact scalarFrame_trans (set_float3_frame _ _ _ _ _ h1) (set_float3_frame _ _ _ _ _ h2)

theorem finalize_step_frame (mask : List Nat) (po vo : List float3) (a a' : AttributeArrays)
    (i : Nat) (h : finalize_step mask po vo a i = some a') : ScalarFrame a a' := by
  simp only [finalize_step, Option.bind_eq_bind, Option.bind_eq_some] at h
  obtain ⟨_, _, _, _, _, _, h⟩ := h
  exact add_offsets_frame _ _ _ _ _ h

theorem event_step_frame (mask : List Nat) (td : List ℚ) (po vo : List float3)
    (ti : List Nat) (tfs : List ℚ) (st st' : AttributeArrays × List ℚ × Nat) (i : Nat)
    (h : event_step mask td po vo ti tfs st i = some st') : ScalarFrame st.1 st'.1 := by
  simp only [event_step, Option.bind_eq_bind, Option.bind_eq_some, Option.pure_def] at h
  obtain ⟨pindex, _, h⟩ := h
  have hfull : ∀ s' : AttributeArrays × List ℚ × Nat,
      (po[i]?.bind fun position_offset => vo[i]?.bind fun velocity_offset =>
        (st.1.add_offsets pindex position_offset velocity_offset).bind fun attributes =>
          some (attributes, st.2.1, st.2.2)) = some s' →
      ScalarFrame st.1 s'.1 := by
    intro s' hs
    simp only [Option.bind_eq_some] at hs
    obtain ⟨_, _, _, _, a2, hadd, hs'⟩ := hs
    cases hs'
    exact add_offsets_frame _ _ _ _ _ hadd
  split at h
  · simp only [Option.bind_eq_some] at h
    obtain ⟨_, _, h⟩ := h
    split at h
    · simp only [Option.bind_eq_some] at h
      obtain ⟨_, _, _, _, _, _, a2, hadd, _, _, hs'⟩ := h
      cases hs'
      exact add_offsets_frame _ _ _ _ _ hadd
    · exact hfull st' h
  · exact hfull st' h

theorem move_up_frame (a a' : AttributeArrays) (l : List Nat)
    (h : MoveUpAction.execute a l = some a') : ScalarFrame a a' := by
  refine foldlM_keeps ScalarFrame scalarFrame_refl (fun _ _ _ => scalarFrame_trans) _ ?_ l a a' h
  intro s x s' hs
  simp only [Option.bind_eq_bind, Option.bind_eq_some] at hs
  obtain ⟨_, _, hs⟩ := hs
  exact set_float3_frame _ _ _ _ _ hs

theorem step_slice_to_next_event_frame (m_description : Description) (state : MyState)
    (a : AttributeArrays) (mask : List Nat) (td : List ℚ) (r_um : List Nat) (r_utd : List ℚ)
    (result : AttributeArrays × List Nat × List ℚ)
    (h : step_slice_to_next_event m_description state a mask td r_um r_utd = some result) :
    ScalarFrame a result.1 := by
  simp only [step_slice_to_next_event, Option.bind_eq_bind, Option.bind_eq_some,
    Option.pure_def] at h
  obtain ⟨⟨po, vo⟩, _, ⟨af, ti, tfs⟩, hfilter, h⟩ := h
  have hf : af = a := by
    simp only [HitPlaneEvent.filter, Option.bind_eq_bind, Option.bind_eq_some,
      Option.pure_def, Option.some.injEq, Prod.mk.injEq] at hfilter
    obtain ⟨_, _, h1, _⟩ := hfilter
    exact h1.symm
  subst hf
  split at h
  · simp only [Option.bind_eq_some, Option.some_bind, Option.some.injEq] at h
    obtain ⟨a1, hfold, a2, hmove, hres⟩ := h
    subst hres
    exact scalarFrame_trans
      (foldlM_keeps ScalarFrame scalarFrame_refl (fun _ _ _ => scalarFrame_trans) _
        (fun s x s' hs => finalize_step_frame _ _ _ s s' x hs) _ af a1 hfold)
      (move_up_frame _ _ _ hmove)
  · simp only [Option.bind_eq_some, Option.some_bind, Option.some.injEq] at h
    obtain ⟨st, hfold, a2, hmove, hres⟩ := h
    subst hres
    exact scalarFrame_trans
      (foldlM_keeps (fun s t : AttributeArrays × List ℚ × Nat => ScalarFrame s.1 t.1)
        (fun s => scalarFrame_refl s.1) (fun _ _ _ => scalarFrame_trans) _
        (fun s x s' hs => event_step_frame _ _ _ _ _ _ s s' x hs) _ (af, r_utd, 0) st hfold)
      (move_up_frame _ _ _ hmove)

theorem float3_add_right_comm (a b c : float3) : a + b + c = a + c + b := by
  simp only [float3.ext_iff3, float3.add_x, float3.add_y, float3.add_z]
  refine ⟨?_, ?_, ?_⟩ <;> ring

theorem forces_foldl_entry (attributes : AttributeArrays) (mask : List Nat)
    (forces : List Force) :
    ∀ (dst : List float3) (i p : Nat) (d : float3), mask[i]? = some p → dst[i]? = some d →
      (forces.foldl (fun dst force => force.add_force attributes mask dst) dst)[i]? =
        some (forces.foldl (fun sum force => sum + force.term attributes p) d) := by
  induction forces with
  | nil => intro dst i p d _ hd; simpa using hd
  | cons f fs ih =>
    intro dst i p d hp hd
    simp only [List.foldl_cons]
    apply ih _ i p _ hp
    simp [Force.add_force, List.getElem?_zipWith, hp, hd]

theorem compute_combined_force_entries (m_description : Description)
    (attributes : AttributeArrays) (mask : List Nat) (dst : List float3)
    (hlen : mask.length = dst.length) :
    ∃ result, compute_combined_force m_description attributes mask dst = some result ∧
      result.length = mask.length ∧
      ∀ (i p : Nat), mask[i]? = some p →
        result[i]? = some (force_sum m_description.forces attributes p) := by
  obtain ⟨result, hres, hlenres⟩ :=
    compute_combined_force_some m_description attributes mask dst hlen
  refine ⟨result, hres, hlenres, ?_⟩
  intro i p hp
  have hi : i < mask.length := (List.getElem?_eq_some_iff.mp hp).1
  simp only [compute_combined_force, hlen, if_true, Option.some.injEq] at hres
  rw [← hres]
  exact forces_foldl_entry attributes mask m_description.forces _ i p float3.zero hp
    (by simp [List.getElem?_replicate, ← hlen, hi])

theorem force_sum_perm (forces forces' : List Force) (attributes : AttributeArrays)
    (p : Nat) (h : forces'.Perm forces) :
    force_sum forces' attributes p = force_sum forces attributes p := by
  unfold force_sum
  exact List.Perm.foldl_eq' h (fun x _ y _ z => float3_add_right_comm _ _ _) _

/-! ## What a step of a slice leaves alone -/

theorem stepFrame_trans {mask : List Nat} {a b c : AttributeArrays}
    (h1 : StepFrame mask a b) (h2 : StepFrame mask b c) : StepFrame mask a c := by
  obtain ⟨s1, f1, b1, v1, r1⟩ := h1
  obtain ⟨s2, f2, b2, v2, r2⟩ := h2
  refine ⟨s2.trans s1, f2.trans f1, fun n hn => (b2 n hn).trans (b1 n hn),
    fun n hp hv => (v2 n hp hv).trans (v1 n hp hv), ?_⟩
  intro r hr
  exact ⟨(r2 r hr).1.trans (r1 r hr).1, (r2 r hr).2.1.trans (r1 r hr).2.1,
    (r2 r hr).2.2.trans (r1 r hr).2.2⟩

theorem stepFrame_of_offsets {a0 a : AttributeArrays} {m : Nat → Nat} {dP dV : Nat → float3}
    {k : Nat} {mask : List Nat} (hinv : OffsetsInv a0 m dP dV k a)
    (hm : ∀ i, i < k → m i ∈ mask) : StepFrame mask a0 a := by
  obtain ⟨⟨hs, hb, hf, hv⟩, _, hrest⟩ := hinv
  refine ⟨hs, hf, fun n _ => by rw [hb], hv, ?_⟩
  intro r hr
  have := hrest r (fun i hi h => hr (h ▸ hm i hi))
  exact ⟨by rw [hb], this.1, this.2⟩

theorem stepFrame_of_move_up {a0 a : AttributeArrays} {rows mask : List Nat}
    (hinv : MoveUpInv a0 rows a) (hsub : ∀ r ∈ rows, r ∈ mask) : StepFrame mask a0 a := by
  obtain ⟨hs, hb, hf, hother, hpos⟩ := hinv
  refine ⟨hs, hf, fun n _ => by rw [hb], fun n hp _ => hother n hp, ?_⟩
  intro r hr
  have hnot : r ∉ rows := fun h => hr (hsub r h)
  refine ⟨by rw [hb], ?_, by rw [hother "Velocity" (by decide)]⟩
  rw [hpos r, List.count_eq_zero_of_not_mem hnot, moved_up_zero]

theorem stepFrame_of_kill {state : MyState} {a0 a : AttributeArrays} {mask : List Nat}
    (hinv : KillInv state a0 mask a) : StepFrame mask a0 a := by
  obtain ⟨hs, hf, hf3, hother, hkill⟩ := hinv
  refine ⟨hs, hf, hother, fun n _ _ => by rw [hf3], ?_⟩
  intro r hr
  refine ⟨?_, by rw [hf3], by rw [hf3]⟩
  rw [hkill r]
  simp [hr]

/-- A step of a slice over a mask of distinct rows that lie below the size of the slice and
below the length of the mask completes and leaves alone what `StepFrame` lists. -/
theorem step_slice_frame (m_description : Description) (state : MyState)
    (a0 : AttributeArrays) (mask : List Nat) (td : List ℚ) (hnodup : mask.Nodup)
    (hrange : ∀ p ∈ mask, p < a0.size) (hsmall : ∀ p ∈ mask, p < mask.length)
    (hlen : mask.length = td.length) :
    ∃ a', step_slice m_description state a0 mask td = some a' ∧ StepFrame mask a0 a' := by
  obtain ⟨_, po, vo, _, hint, _, hpo, hvo, _⟩ := integrate_particles_spec m_description a0
    mask td (List.replicate mask.length float3.zero) (List.replicate mask.length float3.zero)
    hlen (by simp) (by simp) hrange
  by_cases htrig : triggered a0 mask po = []
  · obtain ⟨a1, a2, _, hoff, hstep, hkill⟩ := step_slice_untriggered m_description state a0
      mask td po vo hnodup hrange hsmall hint hpo hvo htrig
    exact ⟨a2, hstep, stepFrame_trans
      (stepFrame_of_offsets hoff (fun i hi => row_at_mem mask i hi))
      (stepFrame_of_kill hkill)⟩
  · obtain ⟨a1, a2, po2, vo2, a3, a4, hoff, hmove, _, _, _, _, _, hoff2, hstep, hkill⟩ :=
      step_slice_triggered m_description state a0 mask td po vo hnodup hrange hlen hint hpo
        hvo htrig
    refine ⟨a4, hstep, stepFrame_trans (stepFrame_trans (stepFrame_trans
      (stepFrame_of_offsets hoff (fun i hi => row_at_mem mask i hi))
      (stepFrame_of_move_up hmove (triggered_rows_mem a0 mask po)))
      (stepFrame_of_offsets hoff2 ?_)) (stepFrame_of_kill hkill)⟩
    intro j hj
    apply triggered_rows_mem a0 mask po
    exact row_at_mem _ j (by simpa using hj)

/-- The identity mask. -/
theorem step_slice_identity_frame (m_description : Description) (state : MyState)
    (a0 : AttributeArrays) (td : List ℚ) (hlen : td.length = a0.size) :
    ∃ a', step_slice m_description state a0 (List.range a0.size) td = some a' ∧
      StepFrame (List.range a0.size) a0 a' :=
  step_slice_frame m_description state a0 (List.range a0.size) td (List.nodup_range _)
    (fun _ hp => List.mem_range.mp hp) (by simp) (by simp [hlen])

/-! ## The zero fill and the birth times -/

theorem fill_bytes_foldl (uses : String → Bool) (names : List String) :
    ∀ a : AttributeArrays,
      let result := names.foldl
        (fun data name => if !uses name then data.fill_byte name 0 else data) a
      result.size = a.size ∧ result.floats = a.floats ∧ result.float3s = a.float3s ∧
      ∀ n r, result.bytes n r =
        if n ∈ names ∧ uses n = false ∧ r < a.size then 0 else a.bytes n r := by
  induction names with
  | nil => intro a; simp
  | cons x xs ih =>
    intro a
    simp only [List.foldl_cons]
    obtain ⟨hs, hf, hf3, hb⟩ := ih (if !uses x then a.fill_byte x 0 else a)
    by_cases hx : uses x = true
    · simp only [hx, Bool.not_true, Bool.false_eq_true, if_false] at hs hf hf3 hb ⊢
      refine ⟨hs, hf, hf3, ?_⟩
      intro n r
      rw [hb n r]
      by_cases hn : n = x
      · subst hn
        simp [hx]
      · simp [hn]
    · have hx' : uses x = false := by simpa using hx
      simp only [hx', Bool.not_false, if_true] at hs hf hf3 hb ⊢
      refine ⟨hs, hf, hf3, ?_⟩
      intro n r
      rw [hb n r]
      have hsz : (a.fill_byte x 0).size = a.size := rfl
      rw [hsz]
      by_cases hn : n = x
      · subst hn
        by_cases hr : r < a.size
        · simp [hx', hr, AttributeArrays.fill_byte]
        · simp [hr, AttributeArrays.fill_byte]
      · simp [hn, AttributeArrays.fill_byte]

theorem fill_floats_foldl (uses : String → Bool) (names : List String) :
    ∀ a : AttributeArrays,
      let result := names.foldl
        (fun data name => if !uses name then data.fill_float name 0 else data) a
      result.size = a.size ∧ result.bytes = a.bytes ∧ result.float3s = a.float3s ∧
      ∀ n r, result.floats n r =
        if n ∈ names ∧ uses n = false ∧ r < a.size then 0 else a.floats n r := by
  induction names with
  | nil => intro a; simp
  | cons x xs ih =>
    intro a
    simp only [List.foldl_cons]
    obtain ⟨hs, hf, hf3, hb⟩ := ih (if !uses x then a.fill_float x 0 else a)
    by_cases hx : uses x = true
    · simp only [hx, Bool.not_true, Bool.false_eq_true, if_false] at hs hf hf3 hb ⊢
      refine ⟨hs, hf, hf3, ?_⟩
      intro n r
      rw [hb n r]
      by_cases hn : n = x
      · subst hn
        simp [hx]
      · simp [hn]
    · have hx' : uses x = false := by simpa using hx
      simp only [hx', Bool.not_false, if_true] at hs hf hf3 hb ⊢
      refine ⟨hs, hf, hf3, ?_⟩
      intro n r
      rw [hb n r]
      have hsz : (a.fill_float x 0).size = a.size := rfl
      rw [hsz]
      by_cases hn : n = x
      · subst hn
        by_cases hr : r < a.size
        · simp [hx', hr, AttributeArrays.fill_float]
        · simp [hr, AttributeArrays.fill_float]
      · simp [hn, AttributeArrays.fill_float]

theorem fill_float3s_foldl (uses : String → Bool) (names : List String) :
    ∀ a : AttributeArrays,
      let result := names.foldl
        (fun data name => if !uses name then data.fill_float3 name float3.zero else data) a
      result.size = a.size ∧ result.bytes = a.bytes ∧ result.floats = a.floats ∧
      ∀ n r, result.float3s n r =
        if n ∈ names ∧ uses n = false ∧ r < a.size then float3.zero else a.float3s n r := by
  induction names with
  | nil => intro a; simp
  | cons x xs ih =>
    intro a
    simp only [List.foldl_cons]
    obtain ⟨hs, hf, hf3, hb⟩ := ih (if !uses x then a.fill_float3 x float3.zero else a)
    by_cases hx : uses x = true
    · simp only [hx, Bool.not_true, Bool.false_eq_true, if_false] at hs hf hf3 hb ⊢
      refine ⟨hs, hf, hf3, ?_⟩
      intro n r
      rw [hb n r]
      by_cases hn : n = x
      · subst hn
        simp [hx]
      · simp [hn]
    · have hx' : uses x = false := by simpa using hx
      simp only [hx', Bool.not_false, if_true] at hs hf hf3 hb ⊢
      refine ⟨hs, hf, hf3, ?_⟩
      intro n r
      rw [hb n r]
      have hsz : (a.fill_float3 x float3.zero).size = a.size := rfl
      rw [hsz]
      by_cases hn : n = x
      · subst hn
        by_cases hr : r < a.size
        · simp [hx', hr, AttributeArrays.fill_float3]
        · simp [hr, AttributeArrays.fill_float3]
      · simp [hn, AttributeArrays.fill_float3]

/-- What the zero fill leaves behind. -/
theorem zero_unused_spec (m_attributes : AttributesInfo) (emitter : EmitterInfo)
    (a : AttributeArrays) :
    (zero_unused m_attributes emitter a).size = a.size ∧
    (∀ n r, (zero_unused m_attributes emitter a).bytes n r =
      if n ∈ m_attributes.byte_attributes ∧ n ∉ emitter.used_byte_attributes ∧ r < a.size
      then 0 else a.bytes n r) ∧
    (∀ n r, (zero_unused m_attributes emitter a).floats n r =
      if n ∈ m_attributes.float_attributes ∧ n ∉ emitter.used_float_attributes ∧ r < a.size
      then 0 else a.floats n r) ∧
    (∀ n r, (zero_unused m_attributes emitter a).float3s n r =
      if n ∈ m_attributes.float3_attributes ∧ n ∉ emitter.used_float3_attributes ∧ r < a.size
      then float3.zero else a.float3s n r) := by
  have h1 := fill_bytes_foldl emitter.uses_byte_attribute m_attributes.byte_attributes a
  have h2 := fill_floats_foldl emitter.uses_float_attribute m_attributes.float_attributes
    (m_attributes.byte_attributes.foldl
      (fun data name => if !emitter.uses_byte_attribute name then data.fill_byte name 0
        else data) a)
  have h3 := fill_float3s_foldl emitter.uses_float3_attribute m_attributes.float3_attributes
    (m_attributes.float_attributes.foldl
      (fun data name => if !emitter.uses_float_attribute name then data.fill_float name 0
        else data)
      (m_attributes.byte_attributes.foldl
        (fun data name => if !emitter.uses_byte_attribute name then data.fill_byte name 0
          else data) a))
  simp only at h1 h2 h3
  obtain ⟨s1, f1, v1, b1⟩ := h1
  obtain ⟨s2, b2, v2, f2⟩ := h2
  obtain ⟨s3, b3, f3, v3⟩ := h3
  unfold zero_unused
  simp only
  refine ⟨by rw [s3, s2, s1], ?_, ?_, ?_⟩
  · intro n r
    rw [b3, b2, b1 n r]
    simp [EmitterInfo.uses_byte_attribute]
  · intro n r
    rw [f3, f2 n r, s1, f1]
    simp [EmitterInfo.uses_float_attribute]
  · intro n r
    rw [v3 n r, s2, s1, v2, v1]
    simp [EmitterInfo.uses_float3_attribute]

/-- The factor `(rand() % 1000) / 1000.0f` lies in [0, 1). -/
theorem rand_factor_bounds (n : Nat) :
    0 ≤ ((n % 1000 : Nat) : ℚ) / 1000 ∧ ((n % 1000 : Nat) : ℚ) / 1000 < 1 := by
  have h : n % 1000 < 1000 := Nat.mod_lt _ (by norm_num)
  have h' : ((n % 1000 : Nat) : ℚ) < 1000 := by exact_mod_cast h
  constructor
  · positivity
  · rw [div_lt_one (by norm_num)]
    exact h'

/-- The loop over the birth times after `k` of its iterations. -/
theorem birth_loop_spec (rand : Nat → Nat) (state : MyState) (elapsed_seconds : ℚ)
    (a : AttributeArrays) (calls : Nat) (k : Nat) :
    let result := (List.range k).foldl
      (fun (st : AttributeArrays × Nat) row =>
        let fac : ℚ := ((rand st.2 % 1000 : Nat) : ℚ) / 1000
        (st.1.put_float "Birth Time" row (state.seconds_since_start - elapsed_seconds * fac),
          st.2 + 1))
      (a, calls)
    result.2 = calls + k ∧ result.1.size = a.size ∧ result.1.bytes = a.bytes ∧
    result.1.float3s = a.float3s ∧
    ∀ n r, result.1.floats n r =
      if n = "Birth Time" ∧ r < k then
        state.seconds_since_start
          - elapsed_seconds * (((rand (calls + r) % 1000 : Nat) : ℚ) / 1000)
      else a.floats n r := by
  induction k with
  | zero => simp
  | succ k ih =>
    simp only [List.range_succ, List.foldl_append, List.foldl_cons, List.foldl_nil]
    simp only at ih
    generalize (List.range k).foldl
      (fun (st : AttributeArrays × Nat) row =>
        (st.1.put_float "Birth Time" row (state.seconds_since_start
          - elapsed_seconds * (((rand st.2 % 1000 : Nat) : ℚ) / 1000)), st.2 + 1))
      (a, calls) = st at ih ⊢
    obtain ⟨hc, hs, hb, hv, hf⟩ := ih
    refine ⟨by rw [hc]; omega, hs, hb, hv, ?_⟩
    intro n r
    show (if n = "Birth Time" ∧ r = k then _ else st.1.floats n r) = _
    by_cases hnr : n = "Birth Time" ∧ r = k
    · obtain ⟨hn, hr⟩ := hnr
      subst hn hr
      simp [hc]
    · rw [if_neg hnr, hf n r]
      by_cases hn : n = "Birth Time"
      · have hr : r ≠ k := fun h => hnr ⟨hn, h⟩
        have : (r < k + 1) ↔ (r < k) := by omega
        simp [hn, this]
      · simp [hn]

theorem assign_birth_times_spec (rand : Nat → Nat) (state : MyState) (elapsed_seconds : ℚ)
    (a : AttributeArrays) (calls : Nat) :
    (assign_birth_times rand state elapsed_seconds a calls).2 = calls + a.size ∧
    (assign_birth_times rand state elapsed_seconds a calls).1.size = a.size ∧
    (assign_birth_times rand state elapsed_seconds a calls).1.bytes = a.bytes ∧
    (assign_birth_times rand state elapsed_seconds a calls).1.float3s = a.float3s ∧
    ∀ n r, (assign_birth_times rand state elapsed_seconds a calls).1.floats n r =
      if n = "Birth Time" ∧ r < a.size then
        state.seconds_since_start
          - elapsed_seconds * (((rand (calls + r) % 1000 : Nat) : ℚ) / 1000)
      else a.floats n r :=
  birth_loop_spec rand state elapsed_seconds a calls a.size

/-! ## One target of an emitter -/

theorem prepared_data_spec (solver : SimpleSolver) (rand : Nat → Nat) (emitter : EmitterInfo)
    (elapsed_seconds : ℚ) (state : MyState) (calls : Nat) (target : EmitterTarget) :
    (prepared_data solver rand emitter elapsed_seconds state calls target).size
      = target.emitted_amount ∧
    (∀ n r, (prepared_data solver rand emitter elapsed_seconds state calls target).bytes n r =
      if n ∈ solver.m_attributes.byte_attributes ∧ n ∉ emitter.used_byte_attributes
        ∧ r < target.emitted_amount then 0 else target.attributes.bytes n r) ∧
    (∀ n r, (prepared_data solver rand emitter elapsed_seconds state calls target).floats n r =
      if n = "Birth Time" ∧ r < target.emitted_amount then
        state.seconds_since_start
          - elapsed_seconds * (((rand (calls + r) % 1000 : Nat) : ℚ) / 1000)
      else if n ∈ solver.m_attributes.float_attributes ∧ n ∉ emitter.used_float_attributes
        ∧ r < target.emitted_amount then 0 else target.attributes.floats n r) ∧
    (∀ n r, (prepared_data solver rand emitter elapsed_seconds state calls target).float3s n r =
      if n ∈ solver.m_attributes.float3_attributes ∧ n ∉ emitter.used_float3_attributes
        ∧ r < target.emitted_amount then float3.zero else target.attributes.float3s n r) := by
  obtain ⟨_, hs, hb, hv, hf⟩ := assign_birth_times_spec rand state elapsed_seconds
    (zero_unused solver.m_attributes emitter
      { target.attributes with size := target.emitted_amount }) calls
  obtain ⟨zs, zb, zf, zv⟩ := zero_unused_spec solver.m_attributes emitter
    { target.attributes with size := target.emitted_amount }
  unfold prepared_data
  refine ⟨by rw [hs, zs], ?_, ?_, ?_⟩
  · intro n r
    rw [hb, zb n r]
  · intro n r
    rw [hf n r, zs, zf n r]
  · intro n r
    rw [hv, zv n r]

theorem prepare_emitted_spec (solver : SimpleSolver) (rand : Nat → Nat) (emitter : EmitterInfo)
    (elapsed_seconds : ℚ) (state : MyState) (calls : Nat) (target : EmitterTarget)
    (block_index : Nat) (block : ParticlesBlock)
    (hblock : state.particles.active_blocks[block_index]? = some block)
    (hfit : target.emitted_amount ≤ target.attributes.size) :
    prepare_emitted solver rand emitter elapsed_seconds (state, calls) target block_index =
      some
        { state :=
            { state with particles := ⟨state.particles.active_blocks.set block_index
                { attributes :=
                    { prepared_data solver rand emitter elapsed_seconds state calls target with
                      size := block.attributes.size }
                  active_amount := block.active_amount + target.emitted_amount }⟩ }
          rand_calls := calls + target.emitted_amount
          block :=
            { attributes :=
                { prepared_data solver rand emitter elapsed_seconds state calls target with
                  size := block.attributes.size }
              active_amount := block.active_amount + target.emitted_amount }
          emitted_data := prepared_data solver rand emitter elapsed_seconds state calls target
          time_steps := (List.range target.emitted_amount).map (fun row =>
            state.seconds_since_start
              - (prepared_data solver rand emitter elapsed_seconds state calls target).floats
                  "Birth Time" row) } := by
  have hlt : block_index < state.particles.active_blocks.length :=
    (List.getElem?_eq_some_iff.mp hblock).1
  obtain ⟨hc, _⟩ := assign_birth_times_spec rand state elapsed_seconds
    (zero_unused solver.m_attributes emitter
      { target.attributes with size := target.emitted_amount }) calls
  obtain ⟨zs, _⟩ := zero_unused_spec solver.m_attributes emitter
    { target.attributes with size := target.emitted_amount }
  have hsz := (prepared_data_spec solver rand emitter elapsed_seconds state calls target).1
  simp only [prepare_emitted, hblock, AttributeArrays.take_front, hfit, if_true,
    Option.bind_eq_bind, Option.some_bind, MyState.set_block, store, hlt, Option.pure_def,
    ParticlesBlock.written_through]
  simp only [zs] at hc
  simp only [prepared_data] at hsz ⊢
  rw [hc, hsz]

theorem written_through_slice (block : ParticlesBlock) (a : AttributeArrays) :
    (block.written_through a).attributes.bytes = a.bytes ∧
    (block.written_through a).attributes.floats = a.floats ∧
    (block.written_through a).attributes.float3s = a.float3s ∧
    (block.written_through a).attributes.size = block.attributes.size ∧
    (block.written_through a).active_amount = block.active_amount :=
  ⟨rfl, rfl, rfl, rfl, rfl⟩

/-- The body of the loop over the targets: it completes, changes only the block of the
target, and the sub-step runs on the state in which `active_amount` is already raised. -/
theorem emit_target_spec (solver : SimpleSolver) (rand : Nat → Nat) (emitter : EmitterInfo)
    (elapsed_seconds : ℚ) (state : MyState) (calls : Nat) (target : EmitterTarget)
    (block_index : Nat) (block : ParticlesBlock)
    (hblock : state.particles.active_blocks[block_index]? = some block)
    (hfit : target.emitted_amount ≤ target.attributes.size) :
    ∃ prepared stepped,
      prepare_emitted solver rand emitter elapsed_seconds (state, calls) target block_index
        = some prepared ∧
      prepared.emitted_data
        = prepared_data solver rand emitter elapsed_seconds state calls target ∧
      prepared.time_steps.length = prepared.emitted_data.size ∧
      prepared.state.particles.active_blocks[block_index]? = some prepared.block ∧
      prepared.block.active_amount = block.active_amount + target.emitted_amount ∧
      step_slice solver.m_description prepared.state prepared.emitted_data
        (List.range prepared.emitted_data.size) prepared.time_steps = some stepped ∧
      StepFrame (List.range target.emitted_amount) prepared.emitted_data stepped ∧
      emit_target solver rand emitter elapsed_seconds (state, calls) target block_index =
        some ({ state with particles := ⟨state.particles.active_blocks.set block_index
            { attributes := { stepped with size := block.attributes.size }
              active_amount := block.active_amount + target.emitted_amount }⟩ },
          calls + target.emitted_amount) := by
  have hprep := prepare_emitted_spec solver rand emitter elapsed_seconds state calls target
    block_index block hblock hfit
  have hlt : block_index < state.particles.active_blocks.length :=
    (List.getElem?_eq_some_iff.mp hblock).1
  have hsz := (prepared_data_spec solver rand emitter elapsed_seconds state calls target).1
  obtain ⟨stepped, hstep, hframe⟩ := step_slice_identity_frame solver.m_description
    { state with particles := ⟨state.particles.active_blocks.set block_index
        { attributes :=
            { prepared_data solver rand emitter elapsed_seconds state calls target with
              size := block.attributes.size }
          active_amount := block.active_amount + target.emitted_amount }⟩ }
    (prepared_data solver rand emitter elapsed_seconds state calls target)
    ((List.range target.emitted_amount).map (fun row =>
      state.seconds_since_start
        - (prepared_data solver rand emitter elapsed_seconds state calls target).floats
            "Birth Time" row))
    (by simp [hsz])
  refine ⟨_, stepped, hprep, rfl, by simp [hsz], by simp [hlt], rfl, hstep, ?_, ?_⟩
  · rw [← hsz]; exact hframe
  · simp only [emit_target, hprep, Option.bind_eq_bind, Option.some_bind, hstep,
      MyState.set_block, store, List.length_set, hlt, if_true, Option.pure_def,
      List.set_set, ParticlesBlock.written_through]

/-- The block of a target after the body of the loop, for a target backed by a new block. -/
theorem emitted_block_of_stepped (solver : SimpleSolver) (rand : Nat → Nat)
    (emitter : EmitterInfo) (elapsed_seconds : ℚ) (state : MyState) (calls : Nat)
    (target : EmitterTarget) (stepped : AttributeArrays)
    (hframe : StepFrame (List.range target.emitted_amount)
      (prepared_data solver rand emitter elapsed_seconds state calls target) stepped) :
    EmittedBlock solver emitter state.seconds_since_start elapsed_seconds target
      { attributes := { stepped with size := target.attributes.size }
        active_amount := 0 + target.emitted_amount } := by
  obtain ⟨_, hb, hf, hv⟩ :=
    prepared_data_spec solver rand emitter elapsed_seconds state calls target
  obtain ⟨_, ff, fb, fv, _⟩ := hframe
  refine ⟨by simp, rfl, ?_, ?_, ?_, ?_⟩
  · intro r hr
    refine ⟨rand (calls + r), ?_⟩
    show stepped.floats "Birth Time" r = _
    rw [ff, hf "Birth Time" r]
    simp [hr]
  · intro name hin hnot hne r hr
    show stepped.bytes name r = 0
    rw [fb name hne, hb name r]
    simp [hin, hnot, hr]
  · intro name hin hnot hne r hr
    show stepped.floats name r = 0
    rw [ff, hf name r]
    simp [hin, hnot, hr, hne]
  · intro name hin hnot hp hvel r hr
    show stepped.float3s name r = float3.zero
    rw [fv name hp hvel, hv name r]
    simp [hin, hnot, hr]

/-! ## All targets of an emitter -/

theorem new_blocks_foldl (targets : List EmitterTarget) :
    ∀ particles : ParticlesContainer,
      (targets.foldl (fun particles target => particles.new_block target.attributes)
        particles).active_blocks =
      particles.active_blocks ++ targets.map (fun target => ⟨target.attributes, 0⟩) := by
  induction targets with
  | nil => intro particles; simp
  | cons t ts ih =>
    intro particles
    simp only [List.foldl_cons, List.map_cons]
    rw [ih]
    simp [ParticlesContainer.new_block]

theorem emit_from_emitter_spec (solver : SimpleSolver) (rand : Nat → Nat) (state : MyState)
    (calls : Nat) (emitter : EmitterInfo) (elapsed_seconds : ℚ)
    (hfit : ∀ target ∈ emitter.emitter.emit,
      target.emitted_amount ≤ target.attributes.size) :
    ∃ result, emit_from_emitter solver rand (state, calls) emitter elapsed_seconds
        = some result ∧
      EmitInv solver emitter state elapsed_seconds emitter.emitter.emit.length result := by
  unfold emit_from_emitter
  simp only
  apply foldlM_range_inv _ (EmitInv solver emitter state elapsed_seconds)
  · refine ⟨rfl, ?_, ?_, ?_, ?_⟩
    · simp [new_blocks_foldl]
    · intro j hj
      simp only [new_blocks_foldl]
      rw [List.getElem?_append_left hj]
    · intro i _ _ hi
      exact absurd hi (Nat.not_lt_zero i)
    · intro i target ht _
      simp only [new_blocks_foldl]
      rw [List.getElem?_append_right (Nat.le_add_right _ _)]
      simp [ht]
  · intro k st hk hinv
    obtain ⟨s, c⟩ := st
    obtain ⟨hclock, hlen, hold, hdone, htodo⟩ := hinv
    simp only at hclock hlen hold hdone htodo
    have htk : emitter.emitter.emit[k]? = some emitter.emitter.emit[k] :=
      List.getElem?_eq_getElem hk
    have hmem : emitter.emitter.emit[k] ∈ emitter.emitter.emit := List.getElem_mem _
    have hblock := htodo k _ htk (Nat.le_refl k)
    obtain ⟨_, stepped, _, hdata, _, _, _, _, hframe, hemit⟩ := emit_target_spec solver rand
      emitter elapsed_seconds s c emitter.emitter.emit[k]
      (state.particles.active_blocks.length + k) _ hblock (hfit _ hmem)
    have hidx : ((List.range emitter.emitter.emit.length).map
        (fun i => state.particles.active_blocks.length + i))[k]?
        = some (state.particles.active_blocks.length + k) := by
      simp [List.getElem?_range hk]
    rw [hdata] at hframe
    refine ⟨({ s with particles := ⟨s.particles.active_blocks.set
        (state.particles.active_blocks.length + k)
        { attributes := { stepped with size := emitter.emitter.emit[k].attributes.size }
          active_amount := 0 + emitter.emitter.emit[k].emitted_amount }⟩ },
      c + emitter.emitter.emit[k].emitted_amount), ?_, ?_⟩
    · simp only [htk, hidx, Option.bind_eq_bind, Option.some_bind]
      exact hemit
    · have hidxlt : state.particles.active_blocks.length + k
          < s.particles.active_blocks.length := by rw [hlen]; omega
      refine ⟨hclock, by simpa using hlen, ?_, ?_, ?_⟩
      · intro j hj
        simp only
        rw [List.getElem?_set_ne (by omega)]
        exact hold j hj
      · intro i target ht hi
        simp only
        rcases Nat.lt_succ_iff_lt_or_eq.mp hi with hlt | heq
        · rw [List.getElem?_set_ne (by omega)]
          exact hdone i target ht hlt
        · subst heq
          rw [htk] at ht
          cases ht
          refine ⟨_, by rw [List.getElem?_set_self hidxlt], ?_⟩
          have hframe' : StepFrame (List.range emitter.emitter.emit[i].emitted_amount)
              (prepared_data solver rand emitter elapsed_seconds
                { particles := state.particles,
                  seconds_since_start := state.seconds_since_start } c
                emitter.emitter.emit[i]) stepped := by
            have hs : s.seconds_since_start = state.seconds_since_start := hclock
            have hpd : prepared_data solver rand emitter elapsed_seconds s c
                emitter.emitter.emit[i]
                = prepared_data solver rand emitter elapsed_seconds
                    { particles := state.particles,
                      seconds_since_start := state.seconds_since_start } c
                    emitter.emitter.emit[i] := by
              simp only [prepared_data, assign_birth_times, hs]
            rw [← hpd]
            exact hframe
          exact emitted_block_of_stepped solver rand emitter elapsed_seconds
            { particles := state.particles,
              seconds_since_start := state.seconds_since_start } c _ stepped hframe'
      · intro i target ht hi
        simp only
        rw [List.getElem?_set_ne (by omega)]
        exact htodo i target ht (by omega)

/-! ## The calls made by a step of the identity mask -/

theorem step_slice_identity_calls (m_description : Description) (state : MyState)
    (a0 : AttributeArrays) (td : List ℚ) (hlen : td.length = a0.size) :
    ∃ po vo a2 um utd po2 vo2 a3 final,
      integrate_particles m_description a0 (List.range a0.size) td
        (List.replicate (List.range a0.size).length float3.zero)
        (List.replicate (List.range a0.size).length float3.zero) = some (po, vo) ∧
      po.length = (List.range a0.size).length ∧ vo.length = (List.range a0.size).length ∧
      step_slice_to_next_event m_description state a0 (List.range a0.size) td [] []
        = some (a2, um, utd) ∧
      um.length = utd.length ∧
      integrate_particles m_description a2 um utd (List.replicate um.length float3.zero)
        (List.replicate um.length float3.zero) = some (po2, vo2) ∧
      po2.length = um.length ∧ vo2.length = um.length ∧
      step_slice_ignoring_events m_description a2 um utd = some a3 ∧
      step_slice m_description state a0 (List.range a0.size) td = some final := by
  have hnodup : (List.range a0.size).Nodup := List.nodup_range _
  have hrange : ∀ p ∈ List.range a0.size, p < a0.size := fun p hp => List.mem_range.mp hp
  have hmlen : (List.range a0.size).length = td.length := by simp [hlen]
  obtain ⟨_, po, vo, _, hint, _, hpo, hvo, _⟩ := integrate_particles_spec m_description a0
    (List.range a0.size) td (List.replicate (List.range a0.size).length float3.zero)
    (List.replicate (List.range a0.size).length float3.zero) hmlen (by simp) (by simp) hrange
  by_cases htrig : triggered a0 (List.range a0.size) po = []
  · obtain ⟨a1, a2, hnext, _, hstep, _⟩ := step_slice_untriggered m_description state a0
      (List.range a0.size) td po vo hnodup hrange (by simp) hint hpo hvo htrig
    obtain ⟨po2, vo2, a3, hint2, hpo2, hvo2, hign, _⟩ :=
      step_slice_ignoring_events_spec m_description a1 [] [] List.nodup_nil
        (fun p hp => by cases hp) rfl
    exact ⟨po, vo, a1, [], [], po2, vo2, a3, a2, hint, hpo, hvo, hnext, rfl, hint2, hpo2,
      hvo2, hign, hstep⟩
  · obtain ⟨a1, a2, po2, vo2, a3, a4, _, _, hnext, hint2, hpo2, hvo2, hign, _, hstep, _⟩ :=
      step_slice_triggered m_description state a0 (List.range a0.size) td po vo hnodup hrange
        hmlen hint hpo hvo htrig
    refine ⟨po, vo, a2, _, _, po2, vo2, a3, a4, hint, hpo, hvo, hnext, by simp, ?_, ?_, ?_,
      hign, hstep⟩
    · simpa using hint2
    · simpa using hpo2
    · simpa using hvo2

theorem step_block_cb_total (m_description : Description) (data : StepBlocksParallelData)
    (index : Nat) (block : ParticlesBlock) (hblock : data.blocks[index]? = some block) :
    ∃ stepped,
      step_slice m_description data.state block.slice_active
        (List.range block.slice_active.size)
        (List.replicate block.slice_active.size data.elapsed_seconds) = some stepped ∧
      StepFrame (List.range block.slice_active.size) block.slice_active stepped ∧
      step_block_cb m_description data index
        = some (data.blocks.set index (block.written_through stepped)) := by
  obtain ⟨stepped, hstep, hframe⟩ := step_slice_identity_frame m_description data.state
    block.slice_active (List.replicate block.slice_active.size data.elapsed_seconds)
    (by simp)
  have hlt : index < data.blocks.length := (List.getElem?_eq_some_iff.mp hblock).1
  refine ⟨stepped, hstep, hframe, ?_⟩
  simp only [step_block_cb, hblock, Option.bind_eq_bind, Option.some_bind, hstep, store, hlt,
    if_true]

/-! ## Stepping blocks in any order -/

theorem step_blocks_in_order (m_description : Description) (state : MyState)
    (elapsed_seconds : ℚ) (order : List Nat) :
    ∀ blocks : List ParticlesBlock, order.Nodup → (∀ i ∈ order, i < blocks.length) →
      ∃ result,
        order.foldlM (fun blocks index =>
          step_block_cb m_description ⟨state, blocks, elapsed_seconds⟩ index) blocks
            = some result ∧
        result.length = blocks.length ∧
        ∀ k block, blocks[k]? = some block →
          (k ∉ order → result[k]? = some block) ∧
          (k ∈ order → ∃ stepped,
            step_slice m_description state block.slice_active
              (List.range block.slice_active.size)
              (List.replicate block.slice_active.size elapsed_seconds) = some stepped ∧
            result[k]? = some (block.written_through stepped)) := by
  induction order with
  | nil =>
    intro blocks _ _
    exact ⟨blocks, by simp, rfl, fun k block hk => ⟨fun _ => hk, fun h => by cases h⟩⟩
  | cons i rest ih =>
    intro blocks hnodup hrange
    have hi : i < blocks.length := hrange i (List.mem_cons_self _ _)
    have hib : blocks[i]? = some blocks[i] := List.getElem?_eq_getElem hi
    obtain ⟨stepped, hstep, _, hcb⟩ := step_block_cb_total m_description
      ⟨state, blocks, elapsed_seconds⟩ i blocks[i] hib
    have hnotin : i ∉ rest := (List.nodup_cons.mp hnodup).1
    obtain ⟨result, hres, hlen, hall⟩ := ih (blocks.set i (blocks[i].written_through stepped))
      (List.nodup_cons.mp hnodup).2
      (fun j hj => by simpa using hrange j (List.mem_cons_of_mem _ hj))
    refine ⟨result, ?_, by simpa using hlen, ?_⟩
    · simp only [List.foldlM_cons, Option.bind_eq_bind]
      rw [hcb]
      exact hres
    · intro k block hk
      by_cases hki : k = i
      · subst hki
        rw [hib] at hk
        cases hk
        have hk' : (blocks.set k (blocks[k].written_through stepped))[k]?
            = some (blocks[k].written_through stepped) := List.getElem?_set_self hi
        refine ⟨fun h => absurd (List.mem_cons_self _ _) h, fun _ => ⟨stepped, hstep, ?_⟩⟩
        exact (hall k _ hk').1 hnotin
      · have hk' : (blocks.set i (blocks[i].written_through stepped))[k]? = some block := by
          rw [List.getElem?_set_ne (fun h => hki h.symm)]
          exact hk
        refine ⟨fun h => (hall k block hk').1 (fun h' => h (List.mem_cons_of_mem _ h')), ?_⟩
        intro h
        rcases List.mem_cons.mp h with h | h
        · exact absurd h hki
        · exact (hall k block hk').2 h

theorem step_blocks_order_irrelevant (m_description : Description) (state : MyState)
    (elapsed_seconds : ℚ) (blocks : List ParticlesBlock) (order1 order2 : List Nat)
    (hnodup : order1.Nodup) (hrange : ∀ i ∈ order1, i < blocks.length)
    (hperm : order1.Perm order2) :
    ∃ result,
      order1.foldlM (fun blocks index =>
        step_block_cb m_description ⟨state, blocks, elapsed_seconds⟩ index) blocks
          = some result ∧
      order2.foldlM (fun blocks index =>
        step_block_cb m_description ⟨state, blocks, elapsed_seconds⟩ index) blocks
          = some result := by
  obtain ⟨r1, h1, hl1, ha1⟩ := step_blocks_in_order m_description state elapsed_seconds
    order1 blocks hnodup hrange
  obtain ⟨r2, h2, hl2, ha2⟩ := step_blocks_in_order m_description state elapsed_seconds
    order2 blocks (hperm.nodup_iff.mp hnodup) (fun i hi => hrange i (hperm.mem_iff.mpr hi))
  refine ⟨r1, h1, ?_⟩
  rw [h2]
  congr 1
  apply List.ext_getElem?
  intro k
  by_cases hk : k < blocks.length
  · have hb : blocks[k]? = some blocks[k] := List.getElem?_eq_getElem hk
    by_cases hin : k ∈ order1
    · obtain ⟨s1, hs1, hr1⟩ := (ha1 k _ hb).2 hin
      obtain ⟨s2, hs2, hr2⟩ := (ha2 k _ hb).2 (hperm.mem_iff.mp hin)
      rw [hs1] at hs2
      cases hs2
      rw [hr1, hr2]
    · rw [(ha1 k _ hb).1 hin, (ha2 k _ hb).1 (fun h => hin (hperm.mem_iff.mpr h))]
  · rw [List.getElem?_eq_none (by omega), List.getElem?_eq_none (by omega)]

/-! ## Access from the outside -/

theorem active_positions_length (blocks : List ParticlesBlock) :
    (active_positions blocks).length = total_active blocks := by
  induction blocks with
  | nil => rfl
  | cons b bs ih => simp [active_positions, total_active, ih] at *

theorem count_foldl (blocks : List ParticlesBlock) :
    ∀ count, count + total_active blocks < 4294967296 →
      blocks.foldl (fun count block => (count + block.active_amount) % 4294967296) count
        = count + total_active blocks := by
  induction blocks with
  | nil => intro count _; simp [total_active]
  | cons b bs ih =>
    intro count h
    have hcons : total_active (b :: bs) = b.active_amount + total_active bs := by
      simp [total_active]
    rw [hcons] at h ⊢
    simp only [List.foldl_cons]
    rw [Nat.mod_eq_of_lt (by omega), ih _ (by omega)]
    omega

theorem copy_foldlM_of_body (f : List float3 × Nat → ParticlesBlock → Option (List float3 × Nat))
    (hf : ∀ (dst : List float3) (index : Nat) (b : ParticlesBlock),
      index + b.active_amount ≤ dst.length →
      f (dst, index) b = some (dst.take index
          ++ (List.range b.active_amount).map (b.attributes.float3s "Position")
          ++ dst.drop (index + b.active_amount), (index + b.active_amount) % 4294967296))
    (blocks : List ParticlesBlock) :
    ∀ (dst : List float3) (index : Nat), index + total_active blocks < 4294967296 →
      index + total_active blocks ≤ dst.length →
      blocks.foldlM f (dst, index)
        = some (dst.take index ++ active_positions blocks
            ++ dst.drop (index + total_active blocks), index + total_active blocks) := by
  induction blocks with
  | nil =>
    intro dst index _ _
    simp [active_positions, total_active]
  | cons b bs ih =>
    intro dst index h32 hdst
    have hcons : total_active (b :: bs) = b.active_amount + total_active bs := by
      simp [total_active]
    rw [hcons] at h32 hdst ⊢
    have hfit : index + b.active_amount ≤ dst.length := by omega
    have htake : (dst.take index).length = index := by
      rw [List.length_take]; omega
    simp only [List.foldlM_cons, Option.bind_eq_bind]
    rw [hf dst index b hfit, Option.some_bind, Nat.mod_eq_of_lt (by omega)]
    rw [ih _ (index + b.active_amount) (by omega) (by
      simp only [List.length_append, List.length_map, List.length_range, List.length_take,
        List.length_drop]
      omega)]
    congr 2
    · have h1 : (dst.take index
          ++ (List.range b.active_amount).map (b.attributes.float3s "Position")
          ++ dst.drop (index + b.active_amount)).take (index + b.active_amount)
          = dst.take index
            ++ (List.range b.active_amount).map (b.attributes.float3s "Position") := by
        apply List.take_left'
        simp [htake]
      have h2 : (dst.take index
          ++ (List.range b.active_amount).map (b.attributes.float3s "Position")
          ++ dst.drop (index + b.active_amount)).drop
            (index + b.active_amount + total_active bs)
          = dst.drop (index + (b.active_amount + total_active bs)) := by
        have hl : (dst.take index
            ++ (List.range b.active_amount).map (b.attributes.float3s "Position")).length
            = index + b.active_amount := by simp [htake]
        rw [← hl, List.drop_append, List.drop_drop, hl]
        congr 1
        omega
      rw [h1, h2]
      simp [active_positions, List.append_assoc]
    · omega

theorem get_positions_spec (state : MyState) (dst : List float3)
    (h32 : total_active state.particles.active_blocks < 4294967296)
    (hdst : total_active state.particles.active_blocks ≤ dst.length) :
    get_positions state dst = some (state,
      active_positions state.particles.active_blocks
        ++ dst.drop (total_active state.particles.active_blocks)) := by
  unfold get_positions
  rw [copy_foldlM_of_body _ ?_ state.particles.active_blocks dst 0 (by omega) (by omega)]
  · simp
  · intro d index b hfit
    have hsz : b.slice_active.size = b.active_amount := rfl
    have hcol : b.slice_active.float3s = b.attributes.float3s := rfl
    simp [memcpy, hsz, hcol, hfit]

/-! ## Rounding to `float` -/

theorem round_half_even_int (n : Int) : round_half_even (n : ℚ) = n := by
  simp [round_half_even]

theorem round_half_even_cases (x : ℚ) :
    round_half_even x = Int.floor x ∨ round_half_even x = Int.floor x + 1 := by
  unfold round_half_even
  simp only
  split
  · exact Or.inl rfl
  · split
    · exact Or.inr rfl
    · split
      · exact Or.inl rfl
      · exact Or.inr rfl

theorem round_half_even_mono {x y : ℚ} (h : x ≤ y) : round_half_even x ≤ round_half_even y := by
  have hf : Int.floor x ≤ Int.floor y := Int.floor_mono h
  rcases lt_or_eq_of_le hf with hlt | heq
  · have h1 : round_half_even x ≤ Int.floor x + 1 := by
      rcases round_half_even_cases x with h | h <;> omega
    have h2 : Int.floor y ≤ round_half_even y := by
      rcases round_half_even_cases y with h | h <;> omega
    omega
  · have hd : x - (Int.floor x : ℚ) ≤ y - (Int.floor x : ℚ) := by linarith
    unfold round_half_even
    simp only [← heq]
    by_cases h1 : x - (Int.floor x : ℚ) < 1 / 2
    · simp only [h1, if_true]
      split
      · exact le_refl _
      · split
        · omega
        · split
          · exact le_refl _
          · omega
    · simp only [h1, if_false]
      by_cases h2 : 1 / 2 < x - (Int.floor x : ℚ)
      · have h3 : ¬ (y - (Int.floor x : ℚ) < 1 / 2) := by linarith
        have h4 : 1 / 2 < y - (Int.floor x : ℚ) := by linarith
        simp only [h2, h3, h4, if_true, if_false]
        exact le_refl _
      · have h3 : ¬ (y - (Int.floor x : ℚ) < 1 / 2) := by linarith
        simp only [h2, h3, if_false]
        by_cases h4 : 1 / 2 < y - (Int.floor x : ℚ)
        · simp only [h4, if_true]
          split <;> omega
        · simp only [h4, if_false]
          exact le_refl _

theorem float_exponent_ge (q : ℚ) : -126 ≤ float_exponent q := le_max_right _ _

theorem log_le_float_exponent (q : ℚ) : Int.log 2 |q| ≤ float_exponent q := le_max_left _ _

theorem ulp_pos (k : Int) : (0 : ℚ) < 2 ^ k := zpow_pos (by norm_num) k

theorem ulp_top (e : Int) : (16777216 : ℚ) * 2 ^ (e - 23) = 2 ^ (e + 1) := by
  rw [show e + 1 = 24 + (e - 23) by ring, zpow_add₀ (two_ne_zero)]
  norm_num

theorem ulp_bottom (e : Int) : (8388608 : ℚ) * 2 ^ (e - 23) = 2 ^ e := by
  conv_rhs => rw [show e = 23 + (e - 23) by ring, zpow_add₀ (two_ne_zero)]
  norm_num

theorem lt_top_of_pos {x : ℚ} (hx : 0 < x) : x < 2 ^ (float_exponent x + 1) := by
  have h1 : x < ((2 : ℕ) : ℚ) ^ (Int.log 2 x + 1) := Int.lt_zpow_succ_log_self (by norm_num) x
  have h2 : Int.log 2 x + 1 ≤ float_exponent x + 1 := by
    have := log_le_float_exponent x
    rw [abs_of_pos hx] at this
    omega
  have h3 : ((2 : ℕ) : ℚ) ^ (Int.log 2 x + 1) ≤ (2 : ℚ) ^ (float_exponent x + 1) := by
    rw [Nat.cast_ofNat]
    exact zpow_le_zpow_right₀ (by norm_num) h2
  exact lt_of_lt_of_le h1 h3

theorem bottom_le_of_normal {x : ℚ} (hx : 0 < x) (hn : -126 ≤ Int.log 2 x) :
    (2 : ℚ) ^ float_exponent x ≤ x := by
  have he : float_exponent x = Int.log 2 x := by
    unfold float_exponent
    rw [abs_of_pos hx]
    exact max_eq_left hn
  rw [he]
  have := Int.zpow_log_le_self (b := 2) (by norm_num) hx
  rwa [Nat.cast_ofNat] at this

theorem round_to_float_zero : round_to_float 0 = 0 := by
  simp [round_to_float, round_half_even]

theorem round_to_float_nonneg {x : ℚ} (hx : 0 ≤ x) : 0 ≤ round_to_float x := by
  unfold round_to_float
  simp only
  have hu := ulp_pos (float_exponent x - 23)
  have h0 : round_half_even ((0 : Int) : ℚ) ≤ round_half_even (x / 2 ^ (float_exponent x - 23)) :=
    round_half_even_mono (by
      rw [Int.cast_zero]
      exact div_nonneg hx (le_of_lt hu))
  rw [round_half_even_int] at h0
  have : (0 : ℚ) ≤ (round_half_even (x / 2 ^ (float_exponent x - 23)) : ℚ) := by
    exact_mod_cast h0
  exact mul_nonneg this (le_of_lt hu)

/-- A positive number rounds to at most the upper end of its binade. -/
theorem round_to_float_le_top {x : ℚ} (hx : 0 < x) :
    round_to_float x ≤ 2 ^ (float_exponent x + 1) := by
  unfold round_to_float
  simp only
  have hu := ulp_pos (float_exponent x - 23)
  have hle : x / 2 ^ (float_exponent x - 23) ≤ ((16777216 : Int) : ℚ) := by
    rw [div_le_iff₀ hu]
    push_cast
    rw [ulp_top]
    exact le_of_lt (lt_top_of_pos hx)
  have h1 := round_half_even_mono hle
  rw [round_half_even_int] at h1
  have h2 : (round_half_even (x / 2 ^ (float_exponent x - 23)) : ℚ) ≤ 16777216 := by
    exact_mod_cast h1
  rw [← ulp_top]
  exact mul_le_mul_of_nonneg_right h2 (le_of_lt hu)

/-- A positive normal number rounds to at least the lower end of its binade. -/
theorem bottom_le_round_to_float {x : ℚ} (hx : 0 < x) (hn : -126 ≤ Int.log 2 x) :
    (2 : ℚ) ^ float_exponent x ≤ round_to_float x := by
  unfold round_to_float
  simp only
  have hu := ulp_pos (float_exponent x - 23)
  have hle : ((8388608 : Int) : ℚ) ≤ x / 2 ^ (float_exponent x - 23) := by
    rw [le_div_iff₀ hu]
    push_cast
    rw [ulp_bottom]
    exact bottom_le_of_normal hx hn
  have h1 := round_half_even_mono hle
  rw [round_half_even_int] at h1
  have h2 : (8388608 : ℚ) ≤ (round_half_even (x / 2 ^ (float_exponent x - 23)) : ℚ) := by
    exact_mod_cast h1
  conv_lhs => rw [← ulp_bottom]
  exact mul_le_mul_of_nonneg_right h2 (le_of_lt hu)

theorem float_exponent_mono {x y : ℚ} (hx : 0 < x) (h : x ≤ y) :
    float_exponent x ≤ float_exponent y := by
  unfold float_exponent
  rw [abs_of_pos hx, abs_of_pos (lt_of_lt_of_le hx h)]
  exact max_le_max (Int.log_mono_right hx h) (le_refl _)

/-- Rounding to `float` is monotone on the positive numbers. -/
theorem round_to_float_mono_pos {x y : ℚ} (hx : 0 < x) (h : x ≤ y) :
    round_to_float x ≤ round_to_float y := by
  have hy : 0 < y := lt_of_lt_of_le hx h
  rcases lt_or_eq_of_le (float_exponent_mono hx h) with hlt | heq
  · have hn : -126 ≤ Int.log 2 y := by
      by_contra hc
      have he : float_exponent y = -126 := by
        unfold float_exponent
        rw [abs_of_pos hy]
        exact max_eq_right (by omega)
      have := float_exponent_ge x
      omega
    have h1 := round_to_float_le_top hx
    have h2 := bottom_le_round_to_float hy hn
    have h3 : (2 : ℚ) ^ (float_exponent x + 1) ≤ 2 ^ float_exponent y :=
      zpow_le_zpow_right₀ (by norm_num) (by omega)
    linarith
  · unfold round_to_float
    simp only [heq]
    have hu := ulp_pos (float_exponent y - 23)
    have hdiv : x / 2 ^ (float_exponent y - 23) ≤ y / 2 ^ (float_exponent y - 23) :=
      div_le_div_of_nonneg_right h (le_of_lt hu)
    have h1 := round_half_even_mono hdiv
    have h2 : (round_half_even (x / 2 ^ (float_exponent y - 23)) : ℚ) ≤
        (round_half_even (y / 2 ^ (float_exponent y - 23)) : ℚ) := by
      exact_mod_cast h1
    exact mul_le_mul_of_nonneg_right h2 (le_of_lt hu)

/-- Rounding to `float` is monotone on the numbers that are not negative. -/
theorem round_to_float_mono {x y : ℚ} (hx : 0 ≤ x) (h : x ≤ y) :
    round_to_float x ≤ round_to_float y := by
  rcases lt_or_eq_of_le hx with hpos | hzero
  · exact round_to_float_mono_pos hpos h
  · rw [← hzero, round_to_float_zero]
    exact round_to_float_nonneg (hzero ▸ h)

/-- A multiple of the spacing of its own binade is a fixed point of the rounding. -/
theorem round_to_float_of_multiple (v : ℚ) (m : Int)
    (hm : v = m * 2 ^ (float_exponent v - 23)) : round_to_float v = v := by
  have hu := ulp_pos (float_exponent v - 23)
  have hdiv : v / 2 ^ (float_exponent v - 23) = (m : ℚ) := by
    rw [div_eq_iff (ne_of_gt hu)]
    exact hm
  unfold round_to_float
  simp only [hdiv, round_half_even_int]
  exact hm.symm

theorem multiple_of_le (n : Int) (a b : Int) (h : b ≤ a) :
    ∃ m : Int, (n : ℚ) * 2 ^ a = m * 2 ^ b := by
  refine ⟨n * 2 ^ (a - b).toNat, ?_⟩
  have ha : a = (a - b) + b := by ring
  conv_lhs => rw [ha, zpow_add₀ (two_ne_zero)]
  have hnat : ((a - b).toNat : Int) = a - b := Int.toNat_of_nonneg (by omega)
  have hpow : (2 : ℚ) ^ (a - b) = 2 ^ (a - b).toNat := by
    rw [← zpow_natCast, hnat]
  rw [hpow]
  push_cast
  ring

/-- Rounding a number that is not negative yields a fixed point of the rounding. -/
theorem round_to_float_idem {x : ℚ} (hx : 0 ≤ x) :
    round_to_float (round_to_float x) = round_to_float x := by
  rcases lt_or_eq_of_le hx with hpos | hzero
  · rcases lt_or_eq_of_le (round_to_float_nonneg hx) with hvpos | hvzero
    · have htop := round_to_float_le_top hpos
      have hdef : round_to_float x =
          (round_half_even (x / 2 ^ (float_exponent x - 23)) : ℚ)
            * 2 ^ (float_exponent x - 23) := rfl
      rcases lt_or_eq_of_le htop with hlt | heq
      · have hlog : Int.log 2 (round_to_float x) < float_exponent x + 1 := by
          have := (Int.lt_zpow_iff_log_lt (b := 2) (by norm_num) hvpos
            (x := float_exponent x + 1)).mp (by rw [Nat.cast_ofNat]; exact hlt)
          exact this
        have hexp : float_exponent (round_to_float x) - 23 ≤ float_exponent x - 23 := by
          have hv : float_exponent (round_to_float x)
              = max (Int.log 2 (round_to_float x)) (-126) := by
            unfold float_exponent
            rw [abs_of_pos hvpos]
          have h1 : float_exponent (round_to_float x) ≤ float_exponent x := by
            rw [hv]
            exact max_le (by omega) (float_exponent_ge x)
          omega
        obtain ⟨m, hm⟩ := multiple_of_le (round_half_even (x / 2 ^ (float_exponent x - 23)))
          _ _ hexp
        exact round_to_float_of_multiple _ m (by rw [← hm]; exact hdef)
      · have hlog : Int.log 2 (round_to_float x) = float_exponent x + 1 := by
          apply le_antisymm
          · have h2 : round_to_float x < 2 ^ (float_exponent x + 1 + 1) := by
              rw [heq]
              exact zpow_lt_zpow_right₀ (by norm_num) (by omega)
            have := (Int.lt_zpow_iff_log_lt (b := 2) (by norm_num) hvpos
              (x := float_exponent x + 1 + 1)).mp (by rw [Nat.cast_ofNat]; exact h2)
            omega
          · exact (Int.zpow_le_iff_le_log (b := 2) (by norm_num) hvpos).mp
              (by rw [Nat.cast_ofNat]; exact le_of_eq heq.symm)
        have hv : float_exponent (round_to_float x)
            = max (Int.log 2 (round_to_float x)) (-126) := by
          unfold float_exponent
          rw [abs_of_pos hvpos]
        have hexp : float_exponent (round_to_float x) = float_exponent x + 1 := by
          rw [hv, hlog]
          exact max_eq_left (by have := float_exponent_ge x; omega)
        refine round_to_float_of_multiple _ 8388608 ?_
        rw [hexp]
        push_cast
        rw [ulp_bottom]
        exact heq
    · rw [← hvzero, round_to_float_zero]
  · rw [← hzero, round_to_float_zero, round_to_float_zero]

/-! ## The clock -/

theorem set_block_clock (state state' : MyState) (index : Nat) (block : ParticlesBlock)
    (h : state.set_block index block = some state') :
    state'.seconds_since_start = state.seconds_since_start := by
  simp only [MyState.set_block, Option.bind_eq_bind, Option.bind_eq_some, Option.pure_def,
    Option.some.injEq] at h
  obtain ⟨_, _, rfl⟩ := h
  rfl

theorem prepare_emitted_clock (solver : SimpleSolver) (rand : Nat → Nat)
    (emitter : EmitterInfo) (elapsed_seconds : ℚ) (st : MyState × Nat)
    (target : EmitterTarget) (block_index : Nat) (prepared : EmittedSlice)
    (h : prepare_emitted solver rand emitter elapsed_seconds st target block_index
      = some prepared) :
    prepared.state.seconds_since_start = st.1.seconds_since_start := by
  simp only [prepare_emitted, Option.bind_eq_bind, Option.bind_eq_some, Option.pure_def,
    Option.some.injEq] at h
  obtain ⟨_, _, _, _, s, hs, rfl⟩ := h
  exact set_block_clock _ _ _ _ hs

theorem emit_target_clock (solver : SimpleSolver) (rand : Nat → Nat)
    (emitter : EmitterInfo) (elapsed_seconds : ℚ) (st st' : MyState × Nat)
    (target : EmitterTarget) (block_index : Nat)
    (h : emit_target solver rand emitter elapsed_seconds st target block_index = some st') :
    st'.1.seconds_since_start = st.1.seconds_since_start := by
  simp only [emit_target, Option.bind_eq_bind, Option.bind_eq_some, Option.pure_def,
    Option.some.injEq] at h
  obtain ⟨prepared, hprep, _, _, s, hs, rfl⟩ := h
  rw [set_block_clock _ _ _ _ hs]
  exact prepare_emitted_clock _ _ _ _ _ _ _ _ hprep

theorem emit_from_emitter_clock (solver : SimpleSolver) (rand : Nat → Nat)
    (emitter : EmitterInfo) (elapsed_seconds : ℚ) (st st' : MyState × Nat)
    (h : emit_from_emitter solver rand st emitter elapsed_seconds = some st') :
    st'.1.seconds_since_start = st.1.seconds_since_start := by
  unfold emit_from_emitter at h
  simp only at h
  have := foldlM_keeps
    (fun s t : MyState × Nat => t.1.seconds_since_start = s.1.seconds_since_start)
    (fun _ => rfl) (fun _ _ _ h1 h2 => h2.trans h1) _ ?_ _ _ _ h
  · exact this
  · intro s i s' hs
    simp only [Option.bind_eq_bind, Option.bind_eq_some] at hs
    obtain ⟨_, _, _, _, hs⟩ := hs
    exact emit_target_clock _ _ _ _ _ _ _ _ hs

theorem emit_new_particles_clock (solver : SimpleSolver) (rand : Nat → Nat)
    (elapsed_seconds : ℚ) (st st' : MyState × Nat)
    (h : emit_new_particles solver rand st elapsed_seconds = some st') :
    st'.1.seconds_since_start = st.1.seconds_since_start :=
  foldlM_keeps
    (fun s t : MyState × Nat => t.1.seconds_since_start = s.1.seconds_since_start)
    (fun _ => rfl) (fun _ _ _ h1 h2 => h2.trans h1) _
    (fun s emitter s' hs => emit_from_emitter_clock solver rand emitter elapsed_seconds s s' hs)
    _ _ _ h

theorem mapM_total {α β : Type} (f : α → Option β) (l : List α)
    (h : ∀ x ∈ l, ∃ y, f x = some y) : ∃ ys, l.mapM f = some ys := by
  induction l with
  | nil => exact ⟨[], rfl⟩
  | cons x xs ih =>
    obtain ⟨y, hy⟩ := h x (List.mem_cons_self _ _)
    obtain ⟨ys, hys⟩ := ih (fun z hz => h z (List.mem_cons_of_mem _ hz))
    exact ⟨y :: ys, by rw [List.mapM_cons, hy, hys]; rfl⟩

theorem step_blocks_total (m_description : Description) (state : MyState)
    (blocks : List ParticlesBlock) (elapsed_seconds : ℚ)
    (hfit : ∀ block ∈ blocks, block.active_amount ≤ block.attributes.size) :
    ∃ result, step_blocks m_description state blocks elapsed_seconds = some result ∧
      result.length = blocks.length ∧
      ∀ block ∈ result, block.active_amount ≤ block.attributes.size := by
  obtain ⟨result, hres, hlen, hall⟩ := step_blocks_in_order m_description state
    elapsed_seconds (List.range blocks.length) blocks (List.nodup_range _)
    (fun i hi => List.mem_range.mp hi)
  refine ⟨result, hres, hlen, ?_⟩
  intro block hblock
  obtain ⟨k, hk, hkb⟩ := List.getElem_of_mem hblock
  have hk' : k < blocks.length := hlen ▸ hk
  have hb : blocks[k]? = some blocks[k] := List.getElem?_eq_getElem hk'
  obtain ⟨stepped, _, hr⟩ := (hall k _ hb).2 (List.mem_range.mpr hk')
  rw [List.getElem?_eq_getElem hk, hkb] at hr
  cases hr
  exact hfit blocks[k] (List.getElem_mem _)

theorem emit_new_particles_total (solver : SimpleSolver) (rand : Nat → Nat)
    (elapsed_seconds : ℚ)
    (hfit : ∀ emitter ∈ solver.m_emitter_infos, ∀ target ∈ emitter.emitter.emit,
      target.emitted_amount ≤ target.attributes.size) (st : MyState × Nat) :
    ∃ result, emit_new_particles solver rand st elapsed_seconds = some result := by
  obtain ⟨result, hres, _⟩ := foldlM_list_inv
    (fun st emitter => emit_from_emitter solver rand st emitter elapsed_seconds)
    (fun _ _ => True) solver.m_emitter_infos st trivial
    (fun _ emitter s hmem _ => by
      obtain ⟨r, hr, _⟩ := emit_from_emitter_spec solver rand s.1 s.2 emitter elapsed_seconds
        (hfit emitter hmem)
      exact ⟨r, hr, trivial⟩)
  exact ⟨result, hres⟩

theorem float_add_eq (a b sum : ℚ) (h : float_add a b = some sum) :
    sum = round_to_float (a + b) ∧ |sum| < 2 ^ 128 := by
  unfold float_add at h
  simp only at h
  split at h
  · rename_i hfin
    cases h
    exact ⟨rfl, hfin⟩
  · cases h

theorem float_add_of_finite (a b : ℚ) (h : |round_to_float (a + b)| < 2 ^ 128) :
    float_add a b = some (round_to_float (a + b)) := by
  unfold float_add
  simp only [h, if_true]

/-- Adding a number that is not negative to a `float` that is not negative: the sum on
`float` is a `float`, and it is not below the first operand. -/
theorem float_add_le (a b sum : ℚ) (ha : 0 ≤ a) (hfloat : is_float a) (hb : 0 ≤ b)
    (h : float_add a b = some sum) : a ≤ sum ∧ 0 ≤ sum ∧ is_float sum := by
  obtain ⟨hsum, hfin⟩ := float_add_eq a b sum h
  have hab : 0 ≤ a + b := add_nonneg ha hb
  have hmono : round_to_float a ≤ round_to_float (a + b) :=
    round_to_float_mono ha (by linarith)
  rw [hfloat.1] at hmono
  refine ⟨by rw [hsum]; exact hmono, by rw [hsum]; exact round_to_float_nonneg hab, ?_, hfin⟩
  rw [hsum]
  exact round_to_float_idem hab

/-- The sum on `float` is the exact sum when that is a `float`. -/
theorem float_add_exact (a b : ℚ) (h : is_float (a + b)) : float_add a b = some (a + b) := by
  have hfin : |round_to_float (a + b)| < 2 ^ 128 := by
    rw [h.1]
    exact h.2
  rw [float_add_of_finite a b hfin, h.1]

theorem step_clock (solver : SimpleSolver)
    (Compress : List ParticlesBlock → List ParticlesBlock) (rand : Nat → Nat)
    (st st' : MyState × Nat) (elapsed_seconds : ℚ)
    (h : solver.step Compress rand st elapsed_seconds = some st') :
    float_add st.1.seconds_since_start elapsed_seconds = some st'.1.seconds_since_start := by
  simp only [SimpleSolver.step, Option.bind_eq_bind, Option.bind_eq_some, Option.pure_def,
    Option.some.injEq] at h
  obtain ⟨clock, hclock, _, _, _, _, emitted, hemit, rfl⟩ := h
  rw [hclock]
  exact congrArg some (emit_new_particles_clock _ _ _ _ _ hemit).symm

theorem step_total (solver : SimpleSolver)
    (Compress : List ParticlesBlock → List ParticlesBlock) (rand : Nat → Nat)
    (st : MyState × Nat) (elapsed_seconds : ℚ)
    (hblocks : ∀ block ∈ st.1.particles.active_blocks,
      block.active_amount ≤ block.attributes.size)
    (hfit : ∀ emitter ∈ solver.m_emitter_infos, ∀ target ∈ emitter.emitter.emit,
      target.emitted_amount ≤ target.attributes.size)
    (hfinite : |round_to_float (st.1.seconds_since_start + elapsed_seconds)| < 2 ^ 128) :
    ∃ st', solver.step Compress rand st elapsed_seconds = some st' := by
  have hclock := float_add_of_finite _ _ hfinite
  obtain ⟨stepped, hstepped, _, hwf⟩ := step_blocks_total solver.m_description
    { st.1 with
      seconds_since_start := round_to_float (st.1.seconds_since_start + elapsed_seconds) }
    st.1.particles.active_blocks elapsed_seconds hblocks
  obtain ⟨alive, halive⟩ := mapM_total delete_dead_particles stepped (fun block hb => by
    obtain ⟨r, hr, _⟩ := delete_loop_spec block.active_amount block.active_amount block 0 rfl
      (Nat.zero_le _) (Nat.le_refl _) (hwf block hb)
      (fun r hr => absurd hr (Nat.not_lt_zero r))
    exact ⟨r, hr⟩)
  obtain ⟨emitted, hemitted⟩ := emit_new_particles_total solver rand elapsed_seconds hfit
    ({ particles := ⟨alive⟩,
       seconds_since_start := round_to_float (st.1.seconds_since_start + elapsed_seconds) },
      st.2)
  simp only [SimpleSolver.step, Option.bind_eq_bind, hclock, hstepped, Option.some_bind,
    delete_dead_particles_all, halive, hemitted, Option.pure_def]
  exact ⟨_, rfl⟩

theorem float_sum_cons (start e : ℚ) (rest : List ℚ) (next : ℚ)
    (h : float_add start e = some next) : float_sum start (e :: rest) = float_sum next rest := by
  simp [float_sum, List.foldlM_cons, h]

/-- The clock along a sequence of calls of `step`: after call `i` it is the sum on `float` of
the start value and the first `i + 1` elapsed times; it never decreases when the start value
is a `float` that is not negative and no elapsed time is negative. -/
theorem run_steps_clock (solver : SimpleSolver)
    (Compress : List ParticlesBlock → List ParticlesBlock) (rand : Nat → Nat)
    (elapsed : List ℚ) :
    ∀ (st : MyState × Nat) (states : List (MyState × Nat)),
      run_steps solver Compress rand st elapsed = some states →
      states.length = elapsed.length ∧
      (∀ (i : Nat) (s : MyState × Nat), states[i]? = some s →
        float_sum st.1.seconds_since_start (elapsed.take (i + 1))
          = some s.1.seconds_since_start) ∧
      (0 ≤ st.1.seconds_since_start → is_float st.1.seconds_since_start →
        (∀ e ∈ elapsed, 0 ≤ e) →
        List.Chain (fun a b => a ≤ b) st.1.seconds_since_start
          (states.map (fun s => s.1.seconds_since_start))) := by
  induction elapsed with
  | nil =>
    intro st states h
    simp only [run_steps, Option.some.injEq] at h
    subst h
    exact ⟨rfl, fun i s hs => by simp at hs, fun _ _ _ => List.Chain.nil⟩
  | cons e es ih =>
    intro st states h
    simp only [run_steps, Option.bind_eq_bind, Option.bind_eq_some, Option.pure_def,
      Option.some.injEq] at h
    obtain ⟨next, hnext, rest, hrest, rfl⟩ := h
    have hclock := step_clock solver Compress rand st next e hnext
    obtain ⟨hlen, hsum, hchain⟩ := ih next rest hrest
    refine ⟨by simp [hlen], ?_, ?_⟩
    · intro i s hs
      rw [List.take_succ_cons, float_sum_cons _ _ _ _ hclock]
      cases i with
      | zero =>
        simp only [List.getElem?_cons_zero, Option.some.injEq] at hs
        subst hs
        simp [float_sum]
      | succ i =>
        simp only [List.getElem?_cons_succ] at hs
        exact hsum i s hs
    · intro h0 hfloat hpos
      obtain ⟨hle, hnonneg, hnextfloat⟩ := float_add_le _ _ _ h0 hfloat
        (hpos e (List.mem_cons_self _ _)) hclock
      simp only [List.map_cons]
      exact List.Chain.cons hle
        (hchain hnonneg hnextfloat (fun x hx => hpos x (List.mem_cons_of_mem _ hx)))

/-! ## Rounding at concrete numbers -/

theorem float_exponent_of_binade (q : ℚ) (e : Int) (he : -126 ≤ e)
    (h1 : (2 : ℚ) ^ e ≤ |q|) (h2 : |q| < 2 ^ (e + 1)) : float_exponent q = e := by
  have hpos : 0 < |q| := lt_of_lt_of_le (ulp_pos e) h1
  have hlog : Int.log 2 |q| = e := by
    apply le_antisymm
    · have := (Int.lt_zpow_iff_log_lt (b := 2) (by norm_num) hpos (x := e + 1)).mp
        (by rw [Nat.cast_ofNat]; exact h2)
      omega
    · exact (Int.zpow_le_iff_le_log (b := 2) (by norm_num) hpos).mp
        (by rw [Nat.cast_ofNat]; exact h1)
  unfold float_exponent
  rw [hlog]
  exact max_eq_left he

theorem round_half_even_tie_even (n : Int) (h : n % 2 = 0) :
    round_half_even ((n : ℚ) + 1 / 2) = n := by
  have hfloor : Int.floor ((n : ℚ) + 1 / 2) = n := by
    rw [Int.floor_eq_iff]
    constructor <;> norm_num
  unfold round_half_even
  simp only [hfloor]
  norm_num [h]

theorem is_float_of_multiple (q : ℚ) (e : Int) (m : Int) (he : -126 ≤ e)
    (h1 : (2 : ℚ) ^ e ≤ |q|) (h2 : |q| < 2 ^ (e + 1)) (hm : q = m * 2 ^ (e - 23))
    (hfin : |q| < 2 ^ 128) : is_float q := by
  refine ⟨round_to_float_of_multiple q m ?_, hfin⟩
  rw [float_exponent_of_binade q e he h1 h2]
  exact hm

theorem is_float_zero : is_float 0 := ⟨round_to_float_zero, by norm_num⟩

theorem is_float_one : is_float 1 :=
  is_float_of_multiple 1 0 8388608 (by norm_num) (by norm_num) (by norm_num) (by norm_num)
    (by norm_num)

theorem is_float_three : is_float 3 :=
  is_float_of_multiple 3 1 12582912 (by norm_num) (by norm_num) (by norm_num) (by norm_num)
    (by norm_num)

theorem is_float_seven : is_float 7 :=
  is_float_of_multiple 7 2 14680064 (by norm_num) (by norm_num) (by norm_num) (by norm_num)
    (by norm_num)

theorem is_float_16777216 : is_float 16777216 :=
  is_float_of_multiple 16777216 24 8388608 (by norm_num) (by norm_num) (by norm_num)
    (by norm_num) (by norm_num)

/-- The number 16777217 = 2^24 + 1 lies halfway between the neighbouring floats 2^24 and
2^24 + 2, and rounds to 2^24. -/
theorem round_to_float_16777217 : round_to_float 16777217 = 16777216 := by
  have he : float_exponent 16777217 = 24 :=
    float_exponent_of_binade 16777217 24 (by norm_num) (by norm_num) (by norm_num)
  have hq : (16777217 : ℚ) / 2 ^ ((24 : Int) - 23) = ((8388608 : Int) : ℚ) + 1 / 2 := by
    norm_num
  unfold round_to_float
  simp only [he, hq, round_half_even_tie_even 8388608 (by decide)]
  norm_num

theorem float_add_16777216_one : float_add 16777216 1 = some 16777216 := by
  have hsum : (16777216 : ℚ) + 1 = 16777217 := by norm_num
  unfold float_add
  simp only [hsum, round_to_float_16777217]
  norm_num

/-- A step of the solver without emitters on a state without blocks only advances the
clock. -/
theorem bare_solver_step (clock elapsed_seconds sum : ℚ) (rand_calls : Nat)
    (h : float_add clock elapsed_seconds = some sum) :
    bare_solver.step id example_rand (⟨⟨[]⟩, clock⟩, rand_calls) elapsed_seconds
      = some (⟨⟨[]⟩, sum⟩, rand_calls) := by
  simp [SimpleSolver.step, bare_solver, new_playground_solver, step_blocks,
    delete_dead_particles_all, emit_new_particles, compress_all_blocks, List.mapM.loop, h]

theorem bare_solver_two_steps (first second sum1 sum2 : ℚ)
    (h1 : float_add 0 first = some sum1) (h2 : float_add sum1 second = some sum2) :
    run_steps bare_solver id example_rand (bare_solver.init, 0) [first, second]
      = some [(⟨⟨[]⟩, sum1⟩, 0), (⟨⟨[]⟩, sum2⟩, 0)] := by
  have hinit : bare_solver.init = ⟨⟨[]⟩, 0⟩ := rfl
  rw [hinit]
  simp only [run_steps, bare_solver_step _ _ _ _ h1, bare_solver_step _ _ _ _ h2,
    Option.bind_eq_bind, Option.some_bind, Option.pure_def]

theorem float_add_zero_left (b : ℚ) (h : is_float b) : float_add 0 b = some b := by
  have := float_add_exact 0 b (by rw [zero_add]; exact h)
  rwa [zero_add] at this

/-! ## The surviving rows as a multiset -/

/-- Overwriting entry `i` of the first `n + 1` entries with entry `n` and dropping entry `n`
keeps the multiset of selected values, when entry `i` was not selected. -/
theorem swap_remove_multiset {α : Type} (p p' : Nat → Prop) [DecidablePred p]
    [DecidablePred p'] (f f' : Nat → α) (n i : Nat) (hi : i < n + 1) (hdead : ¬ p i)
    (hp : ∀ r, r ≠ i → (p' r ↔ p r)) (hf : ∀ r, r ≠ i → f' r = f r)
    (hpi : p' i ↔ p n) (hfi : f' i = f n) :
    ((Multiset.range n).filter p').map f' = ((Multiset.range (n + 1)).filter p).map f := by
  have hcongr : ∀ s : Multiset Nat, (∀ r ∈ s, r ≠ i) →
      (s.filter p').map f' = (s.filter p).map f := by
    intro s hs
    rw [Multiset.filter_congr (fun r hr => hp r (hs r hr))]
    exact Multiset.map_congr rfl (fun r hr => hf r (hs r (Multiset.mem_of_mem_filter hr)))
  rcases Nat.lt_succ_iff_lt_or_eq.mp hi with hlt | heq
  · have hmem : i ∈ Multiset.range n := Multiset.mem_range.mpr hlt
    have hrest : ∀ r ∈ (Multiset.range n).erase i, r ≠ i := by
      intro r hr heq
      rw [heq] at hr
      exact (Multiset.Nodup.not_mem_erase (Multiset.nodup_range n)) hr
    have hsplit : Multiset.range n = i ::ₘ (Multiset.range n).erase i :=
      (Multiset.cons_erase hmem).symm
    rw [Multiset.range_succ]
    by_cases hn : p n
    · rw [Multiset.filter_cons_of_pos _ hn, Multiset.map_cons]
      conv_lhs => rw [hsplit]
      conv_rhs => rw [hsplit]
      rw [Multiset.filter_cons_of_pos _ (hpi.mpr hn), Multiset.map_cons,
        Multiset.filter_cons_of_neg _ hdead, hfi, hcongr _ hrest]
    · rw [Multiset.filter_cons_of_neg _ hn]
      conv_lhs => rw [hsplit]
      conv_rhs => rw [hsplit]
      rw [Multiset.filter_cons_of_neg _ (fun h => hn (hpi.mp h)),
        Multiset.filter_cons_of_neg _ hdead, hcongr _ hrest]
  · subst heq
    rw [Multiset.range_succ, Multiset.filter_cons_of_neg _ hdead]
    exact hcongr _ (fun r hr => Nat.ne_of_lt (Multiset.mem_range.mp hr))

theorem surviving_rows_removed (b : ParticlesBlock) (i : Nat) (h : i < b.active_amount)
    (hdead : b.attributes.bytes "Kill State" i = 1) :
    Multiset.ofList (surviving_rows (removed_at b i)) = Multiset.ofList (surviving_rows b) := by
  obtain ⟨n, hn⟩ : ∃ n, b.active_amount = n + 1 := ⟨b.active_amount - 1, by omega⟩
  have hact : (removed_at b i).active_amount = n := by
    show b.active_amount - 1 = n
    omega
  have hlast : b.active_amount - 1 = n := by omega
  have key := swap_remove_multiset
    (fun r => b.attributes.bytes "Kill State" r ≠ 1)
    (fun r => (removed_at b i).attributes.bytes "Kill State" r ≠ 1)
    (row_of b.attributes) (row_of (removed_at b i).attributes) n i (by omega)
    (fun hne => hne hdead)
    (fun r hr => by simp [removed_at, hr])
    (fun r hr => by simp [row_of, removed_at, hr])
    (by simp [removed_at, hlast])
    (by simp [row_of, removed_at, hlast])
  simp only [surviving_rows, hact, hn]
  rw [← Multiset.map_coe, ← Multiset.map_coe, ← Multiset.filter_coe, ← Multiset.filter_coe]
  exact key

theorem surviving_rows_of_alive (b : ParticlesBlock)
    (halive : ∀ r, r < b.active_amount → b.attributes.bytes "Kill State" r ≠ 1) :
    surviving_rows b = active_rows b := by
  simp only [surviving_rows, active_rows]
  congr 1
  apply List.filter_eq_self.mpr
  intro r hr
  simpa using halive r (List.mem_range.mp hr)

/-- A removal step of the loop that returns has moved the last active row to `i`. -/
theorem delete_loop_dead_of_some (ks : Nat) (b b' : ParticlesBlock) (i : Nat)
    (h : i < b.active_amount) (hdead : b.attributes.bytes "Kill State" i = 1)
    (hres : delete_dead_particles.loop ks b i = some b') :
    delete_dead_particles.loop ks (removed_at b i) i = some b' := by
  rw [delete_dead_particles.loop] at hres
  simp only [h, hdead, if_true] at hres
  split at hres
  · split at hres
    · rename_i moved hmove
      unfold ParticlesBlock.move at hmove
      split at hmove
      · cases hmove
        exact hres
      · cases hmove
    · cases hres
  · cases hres

theorem delete_loop_rows (ks : Nat) :
    ∀ (m : Nat) (b : ParticlesBlock) (i : Nat), b.active_amount - i = m →
      i ≤ b.active_amount →
      (∀ r, r < i → b.attributes.bytes "Kill State" r ≠ 1) →
      ∀ b', delete_dead_particles.loop ks b i = some b' →
        Multiset.ofList (active_rows b') = Multiset.ofList (surviving_rows b) := by
  intro m
  induction m with
  | zero =>
    intro b i hm hi halive b' hres
    have hEq : i = b.active_amount := by omega
    subst hEq
    rw [delete_loop_done ks b _ (Nat.lt_irrefl _)] at hres
    cases hres
    rw [surviving_rows_of_alive b halive]
  | succ m ih =>
    intro b i hm hi halive b' hres
    have hlt : i < b.active_amount := by omega
    by_cases hdead : b.attributes.bytes "Kill State" i = 1
    · have hact : (removed_at b i).active_amount = b.active_amount - 1 := rfl
      rw [← surviving_rows_removed b i hlt hdead]
      exact ih (removed_at b i) i (by rw [hact]; omega) (by rw [hact]; omega)
        (by
          intro r hr
          have hne : r ≠ i := by omega
          simpa [removed_at, hne] using halive r hr)
        b' (delete_loop_dead_of_some ks b b' i hlt hdead hres)
    · have hks : i < ks := by
        by_contra hks
        rw [delete_dead_particles.loop] at hres
        simp [hlt, hks] at hres
      rw [delete_loop_alive ks b i hlt hks hdead] at hres
      exact ih b (i + 1) (by omega) (by omega)
        (by
          intro r hr
          rcases Nat.lt_succ_iff_lt_or_eq.mp hr with h | h
          · exact halive r h
          · subst h; exact hdead)
        b' hres

/-! ## The event pass and the procedure of the spec -/

/-- On rows that are not below the plane the event filter appends nothing, whatever the
movement. -/
theorem filter_above_plane (attributes : AttributeArrays) (mask : List Nat)
    (movement : List float3) (ri : List Nat) (rt : List ℚ)
    (hrange : ∀ p ∈ mask, p < attributes.size)
    (habove : ∀ p ∈ mask, ¬ (attributes.float3s "Position" p).y < 2) :
    HitPlaneEvent.filter attributes mask movement ri rt = some (attributes, ri, rt) := by
  obtain ⟨out, hout, hinv⟩ := foldlM_range_inv
    (HitPlaneEvent.filter_step attributes mask movement)
    (fun _ out => out = (ri, rt)) mask.length (ri, rt) rfl
    (by
      intro k s hk hs
      subst hs
      refine ⟨(ri, rt), ?_, rfl⟩
      have hmem := row_at_mem mask k hk
      simp only [HitPlaneEvent.filter_step, row_at_eq mask k hk,
        AttributeArrays.get_float3, hrange _ hmem, if_true, Option.bind_eq_bind,
        Option.some_bind, habove _ hmem, if_false, Option.pure_def])
  simp only [HitPlaneEvent.filter, hout, Option.bind_eq_bind, Option.some_bind, hinv,
    Option.pure_def]

/-- What `step_slice_to_next_event` hands back for a mask of distinct rows: the enqueued rows
are distinct rows of the mask, each has a budget, and each is at height 7. -/
theorem unfinished_rows_height (m_description : Description) (state : MyState)
    (a0 : AttributeArrays) (mask : List Nat) (td : List ℚ) (hnodup : mask.Nodup)
    (hrange : ∀ p ∈ mask, p < a0.size) (hlen : mask.length = td.length)
    (a2 : AttributeArrays) (um : List Nat) (utd : List ℚ)
    (hnext : step_slice_to_next_event m_description state a0 mask td [] [] = some (a2, um, utd)) :
    um.length = utd.length ∧ um.Nodup ∧ a2.size = a0.size ∧
    ∀ p ∈ um, p ∈ mask ∧ (a2.float3s "Position" p).y = 7 := by
  obtain ⟨_, po, vo, _, hint, _, hpo, hvo, _⟩ := integrate_particles_spec m_description a0
    mask td (List.replicate mask.length float3.zero) (List.replicate mask.length float3.zero)
    hlen (by simp) (by simp) hrange
  have hsize : a2.size = a0.size :=
    (step_slice_to_next_event_frame _ _ _ _ _ _ _ _ hnext).1
  by_cases htrig : triggered a0 mask po = []
  · obtain ⟨h1, h2⟩ := to_next_event_untriggered_out m_description state a0 mask td [] []
      po vo hrange hint hpo htrig a2 um utd hnext
    subst h1 h2
    exact ⟨rfl, List.nodup_nil, hsize, fun p hp => by cases hp⟩
  · obtain ⟨a1, a2', _, _, hnext', hoff, hmove⟩ := to_next_event_triggered m_description
      state a0 mask td [] [] po vo hnodup hrange hlen hint hpo hvo htrig
    rw [hnext] at hnext'
    simp only [List.nil_append, Option.some.injEq, Prod.mk.injEq] at hnext'
    obtain ⟨h1, h2, h3⟩ := hnext'
    subst h1 h2 h3
    refine ⟨by simp, triggered_rows_nodup a0 mask po hnodup, hsize, ?_⟩
    intro p hp
    refine ⟨triggered_rows_mem a0 mask po p hp, ?_⟩
    obtain ⟨i, hi, rfl⟩ := List.mem_map.mp hp
    obtain ⟨hilt, hcross⟩ := (triggered_mem_iff a0 mask po i).mp hi
    have h1 : (a1.float3s "Position" (row_at mask i)).y = 2 := by
      rw [(hoff.2.1 i hilt).1]
      simp only [committed_offset, hcross, if_true]
      exact crossing_height a0 _ _ hcross
    rw [hmove.2.2.2.2 (row_at mask i),
      List.count_eq_one_of_mem (triggered_rows_nodup a0 mask po hnodup) hp]
    simp only [moved_up, h1]
    norm_num

/-- A pass of the procedure of the spec on rows that are not below the plane is
`step_slice_ignoring_events`. -/
theorem spec_pass_above_plane (m_description : Description) (fuel : Nat)
    (attributes : AttributeArrays) (mask : List Nat) (td : List ℚ)
    (hrange : ∀ p ∈ mask, p < attributes.size)
    (habove : ∀ p ∈ mask, ¬ (attributes.float3s "Position" p).y < 2) :
    spec_step_slice m_description (fuel + 1) attributes mask td =
      step_slice_ignoring_events m_description attributes mask td := by
  rw [spec_step_slice]
  cases hint : integrate_particles m_description attributes mask td
      (List.replicate mask.length float3.zero) (List.replicate mask.length float3.zero) with
  | none => simp [step_slice_ignoring_events, hint]
  | some offsets =>
    obtain ⟨po, vo⟩ := offsets
    simp only [Option.bind_eq_bind, Option.some_bind,
      filter_above_plane attributes mask po [] [] hrange habove, List.length_nil, if_true]

theorem lookup_events_some (T : List Nat) (f : Nat → Nat) (g : Nat → ℚ)
    (hinj : ∀ i ∈ T, ∀ j ∈ T, f i = f j → i = j) (i : Nat) (hi : i ∈ T) :
    List.lookup (f i) ((T.map f).zip (T.map g)) = some (g i) := by
  induction T with
  | nil => cases hi
  | cons t T ih =>
    simp only [List.map_cons, List.zip_cons_cons, List.lookup_cons]
    by_cases h : f i = f t
    · have hit : i = t := hinj i hi t (List.mem_cons_self _ _) h
      subst hit
      simp
    · have hne : (f i == f t) = false := by simpa using h
      rw [hne]
      have hi' : i ∈ T := by
        rcases List.mem_cons.mp hi with h1 | h1
        · subst h1; exact absurd rfl h
        · exact h1
      exact ih (fun a ha b hb => hinj a (List.mem_cons_of_mem _ ha) b
        (List.mem_cons_of_mem _ hb)) hi'

theorem lookup_events_none (T : List Nat) (f : Nat → Nat) (g : Nat → ℚ) (p : Nat)
    (hp : p ∉ T.map f) : List.lookup p ((T.map f).zip (T.map g)) = none := by
  induction T with
  | nil => rfl
  | cons t T ih =>
    simp only [List.map_cons, List.mem_cons, not_or] at hp
    simp only [List.map_cons, List.zip_cons_cons, List.lookup_cons]
    have hne : (p == f t) = false := by simpa using hp.1
    rw [hne]
    exact ih hp.2

theorem attributeArrays_ext (a b : AttributeArrays) (hsize : a.size = b.size)
    (hbytes : a.bytes = b.bytes) (hfloats : a.floats = b.floats)
    (hfloat3s : a.float3s = b.float3s) : a = b := by
  cases a
  cases b
  simp only at hsize hbytes hfloats hfloat3s
  subst hsize hbytes hfloats hfloat3s
  rfl

theorem moveUpInv_unique (a0 : AttributeArrays) (l : List Nat) (a b : AttributeArrays)
    (ha : MoveUpInv a0 l a) (hb : MoveUpInv a0 l b) : a = b := by
  obtain ⟨ha1, ha2, ha3, ha4, ha5⟩ := ha
  obtain ⟨hb1, hb2, hb3, hb4, hb5⟩ := hb
  refine attributeArrays_ext a b (ha1.trans hb1.symm) (ha2.trans hb2.symm)
    (ha3.trans hb3.symm) ?_
  funext name
  by_cases hname : name = "Position"
  · subst hname
    funext r
    rw [ha5, hb5]
  · rw [ha4 name hname, hb4 name hname]

theorem offsetsInv_unique (a0 : AttributeArrays) (m : Nat → Nat) (dP dV : Nat → float3)
    (k : Nat) (a b : AttributeArrays) (ha : OffsetsInv a0 m dP dV k a)
    (hb : OffsetsInv a0 m dP dV k b) : a = b := by
  obtain ⟨⟨ha1, ha2, ha3, ha4⟩, ha5, ha6⟩ := ha
  obtain ⟨⟨hb1, hb2, hb3, hb4⟩, hb5, hb6⟩ := hb
  refine attributeArrays_ext a b (ha1.trans hb1.symm) (ha2.trans hb2.symm)
    (ha3.trans hb3.symm) ?_
  funext name
  by_cases hP : name = "Position"
  · subst hP
    funext r
    by_cases h : ∃ i, i < k ∧ m i = r
    · obtain ⟨i, hi, rfl⟩ := h
      rw [(ha5 i hi).1, (hb5 i hi).1]
    · have hr : ∀ i, i < k → m i ≠ r := fun i hi hir => h ⟨i, hi, hir⟩
      rw [(ha6 r hr).1, (hb6 r hr).1]
  · by_cases hV : name = "Velocity"
    · subst hV
      funext r
      by_cases h : ∃ i, i < k ∧ m i = r
      · obtain ⟨i, hi, rfl⟩ := h
        rw [(ha5 i hi).2, (hb5 i hi).2]
      · have hr : ∀ i, i < k → m i ≠ r := fun i hi hir => h ⟨i, hi, hir⟩
        rw [(ha6 r hr).2, (hb6 r hr).2]
    · rw [ha4 name hP hV, hb4 name hP hV]

theorem moved_up_add (p d : float3) (c : Nat) : moved_up p c + d = moved_up (p + d) c := by
  rw [float3.ext_iff3]
  simp only [moved_up, float3.add_x, float3.add_y, float3.add_z, true_and, and_true]
  ring

theorem moved_up_moved_up (p : float3) (c d : Nat) :
    moved_up (moved_up p c) d = moved_up p (c + d) := by
  rw [float3.ext_iff3]
  simp only [moved_up, Nat.cast_add, true_and, and_true]
  ring

/-- Adding the same offsets to a row before and after the action has run on some rows. -/
theorem moveUpInv_add_offsets (a1 a : AttributeArrays) (l : List Nat)
    (hinv : MoveUpInv a1 l a) (p : Nat) (dP dV : float3) (hp : p < a1.size)
    (a1' : AttributeArrays) (h1 : a1.add_offsets p dP dV = some a1') :
    ∃ a', a.add_offsets p dP dV = some a' ∧ MoveUpInv a1' l a' := by
  obtain ⟨hsz, hb, hf, hother, hpos⟩ := hinv
  obtain ⟨b1, hb1, hfr1, hP1, hV1, hrest1⟩ := add_offsets_some a1 p dP dV hp
  rw [h1] at hb1
  cases hb1
  obtain ⟨a', ha', hfr, hP, hV, hrest⟩ := add_offsets_some a p dP dV (by rw [hsz]; exact hp)
  refine ⟨a', ha', ?_, ?_, ?_, ?_, ?_⟩
  · rw [hfr.1, hsz, hfr1.1]
  · rw [hfr.2.1, hb, hfr1.2.1]
  · rw [hfr.2.2.1, hf, hfr1.2.2.1]
  · intro name hname
    by_cases hV' : name = "Velocity"
    · subst hV'
      funext r
      by_cases hr : r = p
      · subst hr
        rw [hV, hV1, hother "Velocity" hname]
      · rw [(hrest r hr).2, (hrest1 r hr).2, hother "Velocity" hname]
    · rw [hfr.2.2.2 name hname hV', hfr1.2.2.2 name hname hV', hother name hname]
  · intro r
    by_cases hr : r = p
    · subst hr
      rw [hP, hP1, hpos, moved_up_add]
    · rw [(hrest r hr).1, (hrest1 r hr).1, hpos]

theorem moveUpInv_append (a1 a a' : AttributeArrays) (l l' : List Nat)
    (h : MoveUpInv a1 l a) (h' : MoveUpInv a l' a') : MoveUpInv a1 (l ++ l') a' := by
  obtain ⟨hsz, hb, hf, hother, hpos⟩ := h
  obtain ⟨hsz', hb', hf', hother', hpos'⟩ := h'
  refine ⟨hsz'.trans hsz, hb'.trans hb, hf'.trans hf,
    fun name hname => (hother' name hname).trans (hother name hname), ?_⟩
  intro r
  rw [hpos', hpos, moved_up_moved_up, List.count_append]

/-- The loop of a pass of the procedure of the spec, for a mask of distinct rows: it ends
in the attributes that the event loop of `step_slice_to_next_event` followed by the action
produces, with the triggered rows and their remaining budgets enqueued in mask order. -/
theorem spec_pass_loop (a0 : AttributeArrays) (mask : List Nat) (td : List ℚ)
    (po vo : List float3) (hnodup : mask.Nodup) (hrange : ∀ p ∈ mask, p < a0.size)
    (hlen : mask.length = td.length) (hpo : po.length = mask.length)
    (hvo : vo.length = mask.length) :
    ∃ st, (List.range mask.length).foldlM
        (spec_pass_step mask td po vo
          (((triggered a0 mask po).map (row_at mask)).zip
            ((triggered a0 mask po).map
              (fun i => hit_factor a0 (row_at mask i) (offset_at po i)))))
        (a0, []) = some st ∧
      ∃ a1, OffsetsInv a0 (row_at mask) (committed_offset a0 mask po po)
          (committed_offset a0 mask po vo) mask.length a1 ∧
        MoveUpInv a1 ((triggered a0 mask po).map (row_at mask)) st.1 ∧
        st.2 = (triggered a0 mask po).map
          (fun i => (row_at mask i, remaining_time a0 mask td po i)) := by
  refine foldlM_range_inv _ (fun k st =>
    ∃ a1, OffsetsInv a0 (row_at mask) (committed_offset a0 mask po po)
        (committed_offset a0 mask po vo) k a1 ∧
      MoveUpInv a1 ((triggered_upto a0 mask po k).map (row_at mask)) st.1 ∧
      st.2 = (triggered_upto a0 mask po k).map
        (fun i => (row_at mask i, remaining_time a0 mask td po i))) mask.length (a0, []) ?_ ?_
  · refine ⟨a0, OffsetsInv.init _ _ _ _, ?_, by simp [triggered_upto]⟩
    simp only [triggered_upto, List.range_zero, List.filter_nil, List.map_nil]
    exact ⟨rfl, rfl, rfl, fun _ _ => rfl, fun r => by simp [moved_up_zero]⟩
  · intro k st hk hinv
    obtain ⟨a, queue⟩ := st
    obtain ⟨a1, hoff, hmove, hq⟩ := hinv
    simp only at hmove hq
    have hinj : ∀ i, i < k → row_at mask i ≠ row_at mask k := by
      intro i hi h
      have := row_at_inj mask hnodup i k (by omega) hk h
      omega
    have hmk := row_at_eq mask k hk
    have hpk := offset_at_eq po k (hpo ▸ hk)
    have hvk := offset_at_eq vo k (hvo ▸ hk)
    have htk := time_at_eq td k (hlen ▸ hk)
    have hp0 : row_at mask k < a0.size := hrange _ (row_at_mem mask k hk)
    have hp1 : row_at mask k < a1.size := by rw [hoff.1.1]; exact hp0
    obtain ⟨a1', h1', hoff'⟩ := OffsetsInv.step hoff hinj hp0
    obtain ⟨a', ha', hmove'⟩ := moveUpInv_add_offsets a1 a _ hmove (row_at mask k) _ _ hp1
      a1' h1'
    by_cases hc : crosses a0 (row_at mask k) (offset_at po k) = true
    · have hmem : k ∈ triggered a0 mask po := (triggered_mem_iff a0 mask po k).mpr ⟨hk, hc⟩
      have hlookup := lookup_events_some (triggered a0 mask po) (row_at mask)
        (fun i => hit_factor a0 (row_at mask i) (offset_at po i))
        (fun i hi j hj h => row_at_inj mask hnodup i j
          ((triggered_mem_iff a0 mask po i).mp hi).1
          ((triggered_mem_iff a0 mask po j).mp hj).1 h) k hmem
      simp only [committed_offset, hc, if_true] at ha'
      have hp' : ∀ p ∈ [row_at mask k], p < a'.size := by
        intro p hp
        rw [List.mem_singleton.mp hp, hmove'.1, hoff'.1.1]
        exact hp0
      obtain ⟨a'', ha'', hmove''⟩ := MoveUpAction.execute_spec a' [row_at mask k] hp'
      refine ⟨(a'', queue ++ [(row_at mask k, remaining_time a0 mask td po k)]), ?_, a1',
        hoff', ?_, ?_⟩
      · simp only [spec_pass_step, hmk, hpk, hvk, htk, hlookup, Option.bind_eq_bind,
          Option.some_bind, ha', ha'', Option.pure_def, remaining_time]
      · simp only [triggered_upto_succ, hc, if_true, List.map_append, List.map_cons,
          List.map_nil]
        exact moveUpInv_append a1' a' a'' _ _ hmove' hmove''
      · simp [triggered_upto_succ, hc, hq]
    · have hnot : row_at mask k ∉ (triggered a0 mask po).map (row_at mask) := fun h =>
        hc ((row_triggered_iff a0 mask po hnodup k hk).mp h)
      have hlookup := lookup_events_none (triggered a0 mask po) (row_at mask)
        (fun i => hit_factor a0 (row_at mask i) (offset_at po i)) (row_at mask k) hnot
      simp only [committed_offset, hc, Bool.false_eq_true, if_false] at ha'
      refine ⟨(a', queue), ?_, a1', hoff', ?_, ?_⟩
      · simp only [spec_pass_step, hmk, hpk, hvk, hlookup, Option.bind_eq_bind,
          Option.some_bind, ha', Option.pure_def]
      · simp only [triggered_upto_succ, hc, Bool.false_eq_true, if_false, List.append_nil]
        exact hmove'
      · simp [triggered_upto_succ, hc, hq]

/-- When some row triggers, the procedure of the spec with at least two passes of fuel is
the event pass of `step_slice_to_next_event` followed by `step_slice_ignoring_events` on the
enqueued rows. -/
theorem spec_step_slice_triggered (m_description : Description) (state : MyState)
    (a0 : AttributeArrays) (mask : List Nat) (td : List ℚ) (hnodup : mask.Nodup)
    (hrange : ∀ p ∈ mask, p < a0.size) (hlen : mask.length = td.length)
    (a2 : AttributeArrays) (um : List Nat) (utd : List ℚ)
    (hnext : step_slice_to_next_event m_description state a0 mask td [] [] = some (a2, um, utd))
    (hum : um ≠ []) (fuel : Nat) :
    spec_step_slice m_description (fuel + 2) a0 mask td =
      step_slice_ignoring_events m_description a2 um utd := by
  obtain ⟨_, po, vo, _, hint, _, hpo, hvo, _⟩ := integrate_particles_spec m_description a0
    mask td (List.replicate mask.length float3.zero) (List.replicate mask.length float3.zero)
    hlen (by simp) (by simp) hrange
  obtain ⟨_, _, hsize, hrows⟩ := unfinished_rows_height m_description state a0 mask td hnodup
    hrange hlen a2 um utd hnext
  have htrig : triggered a0 mask po ≠ [] := by
    intro htrig
    exact hum (to_next_event_untriggered_out m_description state a0 mask td [] [] po vo
      hrange hint hpo htrig a2 um utd hnext).1
  obtain ⟨a1, a2', _, _, hnext', hoff, hmove⟩ := to_next_event_triggered m_description
    state a0 mask td [] [] po vo hnodup hrange hlen hint hpo hvo htrig
  rw [hnext] at hnext'
  simp only [List.nil_append, Option.some.injEq, Prod.mk.injEq] at hnext'
  obtain ⟨h1, h2, h3⟩ := hnext'
  obtain ⟨st, hloop, b1, hoffs, hmoves, hqueue⟩ := spec_pass_loop a0 mask td po vo hnodup
    hrange hlen hpo hvo
  obtain ⟨as, queue⟩ := st
  simp only at hmoves hqueue
  have hb1 : b1 = a1 := offsetsInv_unique _ _ _ _ _ _ _ hoffs hoff
  subst hb1
  have has : as = a2' := moveUpInv_unique _ _ _ _ hmoves hmove
  have hne : ¬ ((triggered a0 mask po).length = 0) := fun h =>
    htrig (List.length_eq_zero.mp h)
  have hfst : queue.map Prod.fst = um := by
    rw [hqueue, h2, List.map_map]
    rfl
  have hsnd : queue.map Prod.snd = utd := by
    rw [hqueue, h3, List.map_map]
    rfl
  rw [spec_step_slice]
  simp only [hint, filter_spec a0 mask po [] [] hpo.symm hrange, Option.bind_eq_bind,
    Option.some_bind, List.nil_append, List.length_map, hne, if_false, hloop, hfst, hsnd, has,
    ← h1]
  exact spec_pass_above_plane m_description fuel a2 um utd
    (fun p hp => by rw [hsize]; exact hrange p (hrows p hp).1)
    (fun p hp => by rw [(hrows p hp).2]; norm_num)

theorem offsetsInv_congr (a0 : AttributeArrays) (m : Nat → Nat) (dP dV dP' dV' : Nat → float3)
    (k : Nat) (a : AttributeArrays) (h : OffsetsInv a0 m dP dV k a)
    (hP : ∀ i, i < k → dP i = dP' i) (hV : ∀ i, i < k → dV i = dV' i) :
    OffsetsInv a0 m dP' dV' k a := by
  obtain ⟨h1, h2, h3⟩ := h
  refine ⟨h1, ?_, h3⟩
  intro i hi
  rw [← hP i hi, ← hV i hi]
  exact h2 i hi

/-- When no row triggers and the mask is the full range, the procedure of the spec ends in
the attributes that `step_slice_to_next_event` hands back. -/
theorem spec_step_slice_untriggered (m_description : Description) (state : MyState)
    (a0 : AttributeArrays) (n : Nat) (td : List ℚ) (hn : n ≤ a0.size) (hlen : n = td.length)
    (a2 : AttributeArrays) (um : List Nat) (utd : List ℚ)
    (hnext : step_slice_to_next_event m_description state a0 (List.range n) td [] []
      = some (a2, um, utd))
    (hum : um = []) (fuel : Nat) :
    spec_step_slice m_description (fuel + 1) a0 (List.range n) td = some a2 := by
  have hnodup : (List.range n).Nodup := List.nodup_range n
  have hrange : ∀ p ∈ List.range n, p < a0.size := fun p hp =>
    Nat.lt_of_lt_of_le (List.mem_range.mp hp) hn
  have hsmall : ∀ p ∈ List.range n, p < (List.range n).length := fun p hp => by
    simpa using hp
  have hlen' : (List.range n).length = td.length := by simpa using hlen
  obtain ⟨po, vo, a, hint, hpo, hvo, hign, hoff⟩ := step_slice_ignoring_events_spec
    m_description a0 (List.range n) td hnodup hrange hlen'
  have htrig : triggered a0 (List.range n) po = [] := by
    by_contra htrig
    obtain ⟨_, _, _, _, hnext', _, _⟩ := to_next_event_triggered m_description state a0
      (List.range n) td [] [] po vo hnodup hrange hlen' hint hpo hvo htrig
    rw [hnext] at hnext'
    simp only [List.nil_append, Option.some.injEq, Prod.mk.injEq] at hnext'
    rw [hum] at hnext'
    exact htrig (List.map_eq_nil_iff.mp hnext'.2.1.symm)
  obtain ⟨a1, hnext', hoff'⟩ := to_next_event_untriggered m_description state a0
    (List.range n) td [] [] po vo hnodup hrange hsmall hint hpo hvo htrig
  rw [hnext] at hnext'
  simp only [Option.some.injEq, Prod.mk.injEq] at hnext'
  have ha : a = a2 := by
    rw [hnext'.1]
    refine offsetsInv_unique _ _ _ _ _ _ _ hoff (offsetsInv_congr _ _ _ _ _ _ _ _ hoff' ?_ ?_)
    · intro i hi
      rw [row_at_range n i (by simpa using hi)]
    · intro i hi
      rw [row_at_range n i (by simpa using hi)]
  rw [spec_step_slice]
  simp only [hint, filter_spec a0 (List.range n) po [] [] hpo.symm hrange, Option.bind_eq_bind,
    Option.some_bind, List.nil_append, htrig, List.map_nil, List.length_nil, if_true, hign, ha]

/-- Whenever the event pass of `step_slice` returns for a mask of distinct rows, and some row
triggers or the mask is the full range, `step_slice` is the procedure of the spec followed by
the kill loop. -/
theorem step_slice_eq_spec (m_description : Description) (state : MyState)
    (a0 : AttributeArrays) (mask : List Nat) (td : List ℚ) (hnodup : mask.Nodup)
    (hrange : ∀ p ∈ mask, p < a0.size) (hlen : mask.length = td.length)
    (a2 : AttributeArrays) (um : List Nat) (utd : List ℚ)
    (hnext : step_slice_to_next_event m_description state a0 mask td [] [] = some (a2, um, utd))
    (hcase : um ≠ [] ∨ mask = List.range mask.length) (fuel : Nat) :
    step_slice m_description state a0 mask td =
      (spec_step_slice m_description (fuel + 2) a0 mask td).bind
        (fun finished => mask.foldlM (kill_step state) finished) := by
  obtain ⟨hlens, _, hsize, _⟩ := unfinished_rows_height m_description state a0 mask td hnodup
    hrange hlen a2 um utd hnext
  by_cases hum : um = []
  · have hfull : mask = List.range mask.length := hcase.resolve_left (fun h => h hum)
    have hn : mask.length ≤ a0.size := by
      rcases Nat.eq_zero_or_pos mask.length with h0 | hpos
      · omega
      · have hmem : mask.length - 1 ∈ mask := by
          rw [hfull]
          exact List.mem_range.mpr (by simp; omega)
        have := hrange _ hmem
        omega
    have hnext2 : step_slice_to_next_event m_description state a0 (List.range mask.length) td
        [] [] = some (a2, um, utd) := by rw [← hfull]; exact hnext
    have hspec := spec_step_slice_untriggered m_description state a0 mask.length td hn hlen
      a2 um utd hnext2 hum (fuel + 1)
    rw [← hfull] at hspec
    have hutd : utd = [] := by
      rw [hum] at hlens
      exact List.length_eq_zero.mp hlens.symm
    subst hum hutd
    simp [step_slice, hnext, hspec]
  · have hpos : um.length > 0 := List.length_pos.mpr hum
    rw [spec_step_slice_triggered m_description state a0 mask td hnodup hrange hlen a2 um utd
      hnext hum fuel]
    simp only [step_slice, hnext, Option.bind_eq_bind, Option.some_bind, hlens, if_true]
    rw [← hlens]
    simp only [hpos, if_true]

/-! ## The iterations of the loop of `delete_dead_particles` -/

theorem uint_pred_eq (a : Nat) (hpos : 0 < a) (h32 : a < 4294967296) : uint_pred a = a - 1 := by
  unfold uint_pred
  omega

theorem traced_done (ks : Nat) (b : ParticlesBlock) (i : Nat) (h : ¬ i < b.active_amount) :
    delete_dead_particles.traced ks b i = some (b, []) := by
  rw [delete_dead_particles.traced]
  simp [h]

theorem traced_alive (ks : Nat) (b : ParticlesBlock) (i : Nat) (h : i < b.active_amount)
    (hks : i < ks) (halive : b.attributes.bytes "Kill State" i ≠ 1) :
    delete_dead_particles.traced ks b i =
      (delete_dead_particles.traced ks b (i + 1)).map
        (fun rest => (rest.1, ⟨b.active_amount, i, none⟩ :: rest.2)) := by
  rw [delete_dead_particles.traced]
  simp [h, hks, halive]

theorem traced_dead (ks : Nat) (b : ParticlesBlock) (i : Nat) (h : i < b.active_amount)
    (hks : i < ks) (hcap : b.active_amount ≤ b.attributes.size)
    (h32 : b.attributes.size < 4294967296)
    (hdead : b.attributes.bytes "Kill State" i = 1) :
    delete_dead_particles.traced ks b i =
      (delete_dead_particles.traced ks (removed_at b i) i).map
        (fun rest => (rest.1,
          ⟨b.active_amount, i, some (uint_pred b.active_amount, i)⟩ :: rest.2)) := by
  have hpred : uint_pred b.active_amount = b.active_amount - 1 :=
    uint_pred_eq _ (by omega) (by omega)
  rw [delete_dead_particles.traced]
  simp only [h, hks, hdead, if_true]
  split
  · rename_i moved hmove
    rw [hpred, move_last_eq b i h hcap] at hmove
    cases hmove
    simp only [hpred]
    rfl
  · rename_i hmove
    rw [hpred, move_last_eq b i h hcap] at hmove
    cases hmove

/-- The loop with its record, from any point on: it returns what the loop returns, runs as
many iterations as `active_amount - index` counts, and every iteration lowers that number by
one, either by a removal or by advancing the index. -/
theorem traced_loop_spec (ks : Nat) :
    ∀ (m : Nat) (b : ParticlesBlock) (i : Nat), b.active_amount - i = m →
      i ≤ b.active_amount → b.active_amount ≤ ks → b.active_amount ≤ b.attributes.size →
      b.attributes.size < 4294967296 →
      ∃ b' iterations, delete_dead_particles.traced ks b i = some (b', iterations) ∧
        delete_dead_particles.loop ks b i = some b' ∧
        iterations.length = m ∧
        (∀ it, iterations[0]? = some it → it.active_amount = b.active_amount ∧ it.index = i) ∧
        (∀ (k : Nat) (it : Iteration), iterations[k]? = some it →
          it.index < it.active_amount ∧ it.active_amount ≤ b.active_amount ∧
          it.active_amount - it.index = m - k ∧
          (it.move = none ∨ it.move = some (uint_pred it.active_amount, it.index))) ∧
        (∀ (k : Nat) (it next : Iteration), iterations[k]? = some it →
          iterations[k + 1]? = some next →
          (it.move ≠ none ∧ next.active_amount = it.active_amount - 1 ∧
            next.index = it.index) ∨
          (it.move = none ∧ next.active_amount = it.active_amount ∧
            next.index = it.index + 1)) := by
  intro m
  induction m with
  | zero =>
    intro b i hm hi _ _ _
    have hEq : ¬ i < b.active_amount := by omega
    refine ⟨b, [], traced_done ks b i hEq, delete_loop_done ks b i hEq, rfl, ?_, ?_, ?_⟩
    · intro it h; simp at h
    · intro k it h; simp at h
    · intro k it next h; simp at h
  | succ m ih =>
    intro b i hm hi hks hcap h32
    have hlt : i < b.active_amount := by omega
    by_cases hdead : b.attributes.bytes "Kill State" i = 1
    · have hact : (removed_at b i).active_amount = b.active_amount - 1 := rfl
      obtain ⟨b', rest, htr, hloop, hlen, hhead, hall, hnext⟩ := ih (removed_at b i) i
        (by rw [hact]; omega) (by rw [hact]; omega) (by rw [hact]; omega)
        (by rw [hact]; show _ ≤ b.attributes.size; omega) h32
      refine ⟨b', ⟨b.active_amount, i, some (uint_pred b.active_amount, i)⟩ :: rest, ?_, ?_,
        by simp [hlen], ?_, ?_, ?_⟩
      · rw [traced_dead ks b i hlt (by omega) hcap h32 hdead, htr]
        rfl
      · rw [delete_loop_dead ks b i hlt (by omega) hcap hdead, hloop]
      · intro it h
        simp only [List.getElem?_cons_zero, Option.some.injEq] at h
        subst h
        exact ⟨rfl, rfl⟩
      · intro k it h
        cases k with
        | zero =>
          simp only [List.getElem?_cons_zero, Option.some.injEq] at h
          subst h
          exact ⟨hlt, Nat.le_refl _, by simp only; omega, Or.inr rfl⟩
        | succ k =>
          simp only [List.getElem?_cons_succ] at h
          obtain ⟨h1, h2, h3, h4⟩ := hall k it h
          rw [hact] at h2
          exact ⟨h1, by omega, by omega, h4⟩
      · intro k it next h hn
        cases k with
        | zero =>
          simp only [List.getElem?_cons_zero, Option.some.injEq] at h
          simp only [List.getElem?_cons_succ] at hn
          subst h
          obtain ⟨h1, h2⟩ := hhead next hn
          exact Or.inl ⟨by simp, by rw [h1, hact], h2⟩
        | succ k =>
          simp only [List.getElem?_cons_succ] at h hn
          exact hnext k it next h hn
    · obtain ⟨b', rest, htr, hloop, hlen, hhead, hall, hnext⟩ := ih b (i + 1) (by omega)
        (by omega) hks hcap h32
      refine ⟨b', ⟨b.active_amount, i, none⟩ :: rest, ?_, ?_, by simp [hlen], ?_, ?_, ?_⟩
      · rw [traced_alive ks b i hlt (by omega) hdead, htr]
        rfl
      · rw [delete_loop_alive ks b i hlt (by omega) hdead, hloop]
      · intro it h
        simp only [List.getElem?_cons_zero, Option.some.injEq] at h
        subst h
        exact ⟨rfl, rfl⟩
      · intro k it h
        cases k with
        | zero =>
          simp only [List.getElem?_cons_zero, Option.some.injEq] at h
          subst h
          exact ⟨hlt, Nat.le_refl _, by simp only; omega, Or.inl rfl⟩
        | succ k =>
          simp only [List.getElem?_cons_succ] at h
          obtain ⟨h1, h2, h3, h4⟩ := hall k it h
          exact ⟨h1, h2, by omega, h4⟩
      · intro k it next h hn
        cases k with
        | zero =>
          simp only [List.getElem?_cons_zero, Option.some.injEq] at h
          simp only [List.getElem?_cons_succ] at hn
          subst h
          obtain ⟨h1, h2⟩ := hhead next hn
          exact Or.inr ⟨rfl, h1, h2⟩
        | succ k =>
          simp only [List.getElem?_cons_succ] at h hn
          exact hnext k it next h hn

/-! ## The point cache -/

theorem min_ii_eq_min (a b : Int) : min_ii a b = min a b := by
  unfold min_ii
  split
  · rename_i h
    exact (min_eq_left (le_of_lt h)).symm
  · rename_i h
    exact (min_eq_right (not_lt.mp h)).symm

theorem PTC_invalidate_some (cache : PointCache) :
    PTC_invalidate (some cache) =
      some ⟨⟨0, min_ii cache.startframe 0⟩, cache.startframe⟩ := rfl

theorem PTC_validate_some (cache : PointCache) (framenr : Int) :
    PTC_validate (some cache) framenr =
      some ⟨⟨framenr, cache.state.last_exact⟩, cache.startframe⟩ := rfl

/-! # Claims -/

/-- C1. For a mask whose rows lie in the slice and time differences of the same length,
`integrate_particles` returns offsets with `velocity_offsets[i] = time_diffs[i] *
combined_force[i]` and `position_offsets[i] = time_diffs[i] * (velocity[mask[i]] + 0.5 *
velocity_offsets[i])` for every position `i` of the mask, where `combined_force` is what
`compute_combined_force` yields; with a single constant force `F`,
`velocity_offsets[i] = time_diffs[i] * F`. -/
theorem C1_integrate_particles_offsets (m_description : Description)
    (attributes : AttributeArrays) (indices_mask : List Nat) (time_diffs : List ℚ)
    (r_position_offsets r_velocity_offsets : List float3)
    (hlen : indices_mask.length = time_diffs.length)
    (hpo : r_position_offsets.length = indices_mask.length)
    (hvo : r_velocity_offsets.length = indices_mask.length)
    (hrange : ∀ p ∈ indices_mask, p < attributes.size) :
    ∃ combined_force position_offsets velocity_offsets,
      compute_combined_force m_description attributes indices_mask
        (List.replicate indices_mask.length float3.zero) = some combined_force ∧
      integrate_particles m_description attributes indices_mask time_diffs
        r_position_offsets r_velocity_offsets = some (position_offsets, velocity_offsets) ∧
      position_offsets.length = indices_mask.length ∧
      velocity_offsets.length = indices_mask.length ∧
      (∀ (i pindex : Nat) (t : ℚ), indices_mask[i]? = some pindex → time_diffs[i]? = some t →
        ∃ force, combined_force[i]? = some force ∧
          velocity_offsets[i]? = some (t * force) ∧
          position_offsets[i]? = some
            (t * (attributes.float3s "Velocity" pindex + (1 / 2 : ℚ) * (t * force)))) ∧
      (∀ F : float3, m_description.forces = [constant_force F] →
        ∀ (i : Nat) (t : ℚ), i < indices_mask.length → time_diffs[i]? = some t →
          velocity_offsets[i]? = some (t * F)) := by
  obtain ⟨cf, po, vo, hcf, hint, hcflen, hpolen, hvolen, hall⟩ :=
    integrate_particles_spec m_description attributes indices_mask time_diffs
      r_position_offsets r_velocity_offsets hlen hpo hvo hrange
  refine ⟨cf, po, vo, hcf, hint, hpolen, hvolen, ?_, ?_⟩
  · intro i pindex t hp ht
    have hi : i < indices_mask.length := (List.getElem?_eq_some_iff.mp hp).1
    have hif : i < cf.length := hcflen ▸ hi
    have hf : cf[i]? = some cf[i] := List.getElem?_eq_getElem hif
    exact ⟨_, hf, hall i pindex t _ hp ht hf⟩
  · intro F hF i t hi ht
    have hp : indices_mask[i]? = some indices_mask[i] := List.getElem?_eq_getElem hi
    have hf : cf[i]? = some F := by
      have h := hcf
      simp only [compute_combined_force, List.length_replicate, if_true, hF, List.foldl_cons,
        List.foldl_nil, Option.some.injEq] at h
      rw [← h]
      exact forces_single_constant F attributes indices_mask i hi
    exact (hall i _ t F hp ht hf).1

/-- C1 at a concrete input: one constant force, two rows. -/
theorem C1_integrate_particles_offsets_witness :
    ∃ position_offsets velocity_offsets,
      integrate_particles one_force example_slice [0, 1] [1, 3]
        [float3.zero, float3.zero] [float3.zero, float3.zero]
          = some (position_offsets, velocity_offsets) ∧
      velocity_offsets[1]? = some ((3 : ℚ) * (⟨0, 1, 0⟩ : float3)) := by
  obtain ⟨_, po, vo, _, hint, _, _, _, hF⟩ :=
    C1_integrate_particles_offsets one_force example_slice [0, 1] [1, 3]
      [float3.zero, float3.zero] [float3.zero, float3.zero] rfl rfl rfl
      (by simp [example_slice])
  exact ⟨po, vo, hint, hF ⟨0, 1, 0⟩ rfl 1 3 (by decide) rfl⟩

/-- C2, as stated, fails: without forces a moving particle does not hold its position. Row 0
of `drifting_block` moves with velocity (1, 0, 0) and leaves the origin in a step of 1. -/
theorem C2_no_forces_hold_counterexample :
    ∃ attributes', step_slice no_forces example_state drifting_block.slice_active
        (List.range drifting_block.slice_active.size)
        (List.replicate drifting_block.slice_active.size 1) = some attributes' ∧
      attributes'.float3s "Position" 0 ≠ drifting_block.attributes.float3s "Position" 0 := by
  obtain ⟨a', hstep, hpos⟩ := step_slice_no_forces_level no_forces rfl example_state
    drifting_block.slice_active (List.replicate drifting_block.slice_active.size 1)
    (by simp)
    (by
      intro r _
      simp only [drifting_block, ParticlesBlock.slice_active, drifting_slice]
      split <;> rfl)
  refine ⟨a', hstep, ?_⟩
  rw [hpos 0 (by decide)]
  simp [drifting_block, ParticlesBlock.slice_active, drifting_slice, time_at,
    float3.ext_iff3]

/-- C2, amended. Without forces, stepping the active slice of a block with `step_slice`
(identity mask, every time difference equal to `elapsed_seconds`) succeeds, leaves the
"Velocity" of every row as it was, and leaves the "Position" as it was of every row that is at
rest, and of every row when `elapsed_seconds` is 0. -/
theorem C2_no_forces_hold_amended (m_description : Description)
    (hforces : m_description.forces = []) (state : MyState) (block : ParticlesBlock)
    (elapsed_seconds : ℚ) :
    ∃ attributes', step_slice m_description state block.slice_active
        (List.range block.slice_active.size)
        (List.replicate block.slice_active.size elapsed_seconds) = some attributes' ∧
      (∀ r, attributes'.float3s "Velocity" r = block.attributes.float3s "Velocity" r) ∧
      (∀ r, (r < block.active_amount →
          elapsed_seconds = 0 ∨ block.attributes.float3s "Velocity" r = float3.zero) →
        attributes'.float3s "Position" r = block.attributes.float3s "Position" r) := by
  obtain ⟨a', hstep, hvel, hpos⟩ := step_slice_no_forces m_description hforces state
    block.slice_active (List.replicate block.slice_active.size elapsed_seconds) (by simp)
  refine ⟨a', hstep, hvel, ?_⟩
  intro r hr
  apply hpos r
  intro hlt
  have ht : time_at (List.replicate block.slice_active.size elapsed_seconds) r
      = elapsed_seconds := by
    simp [time_at, List.getElem?_replicate, hlt]
  rw [ht]
  rcases hr hlt with h0 | hv
  · simp [h0, float3.ext_iff3]
  · have hv' : block.slice_active.float3s "Velocity" r = float3.zero := hv
    rw [hv', float3.smul_zero]

/-- C2, amended, at a concrete input: row 1 of `drifting_block` is at rest and stays. -/
theorem C2_no_forces_hold_amended_witness :
    ∃ attributes', step_slice no_forces example_state drifting_block.slice_active
        (List.range drifting_block.slice_active.size)
        (List.replicate drifting_block.slice_active.size 1) = some attributes' ∧
      attributes'.float3s "Position" 1 = drifting_block.attributes.float3s "Position" 1 := by
  obtain ⟨a', hstep, _, hpos⟩ :=
    C2_no_forces_hold_amended no_forces rfl example_state drifting_block 1
  refine ⟨a', hstep, hpos 1 ?_⟩
  intro _
  right
  simp [drifting_block, drifting_slice, float3.zero]

/-- C3. For a block with `N >= 1` active rows (at most its capacity) in which row `k < N`
is the only active row whose "Kill State" is 1, `delete_dead_particles` ends with
`active_amount = N - 1` and with every attribute value of the former last active row
(row `N - 1`) stored at row `k`. -/
theorem C3_delete_single_dead_row (block : ParticlesBlock) (k : Nat)
    (hcap : block.active_amount ≤ block.attributes.size)
    (hk : k < block.active_amount)
    (hdead : block.attributes.bytes "Kill State" k = 1)
    (honly : ∀ r, r < block.active_amount → block.attributes.bytes "Kill State" r = 1 → r = k) :
    ∃ result, delete_dead_particles block = some result ∧
      result.active_amount = block.active_amount - 1 ∧
      ∀ name,
        result.attributes.bytes name k
          = block.attributes.bytes name (block.active_amount - 1) ∧
        result.attributes.floats name k
          = block.attributes.floats name (block.active_amount - 1) ∧
        result.attributes.float3s name k
          = block.attributes.float3s name (block.active_amount - 1) := by
  refine ⟨removed_at block k, ?_, rfl, fun name => ⟨by simp [removed_at], by simp [removed_at],
    by simp [removed_at]⟩⟩
  unfold delete_dead_particles
  have hsize : block.slice_active.size = block.active_amount := rfl
  rw [hsize]
  have h1 := delete_loop_skip block.active_amount block k 0 (by omega) (by omega)
    (fun r _ hr hr1 => by
      have := honly r (by omega) hr1
      omega)
  rw [Nat.zero_add] at h1
  rw [h1, delete_loop_dead block.active_amount block k hk hk hcap hdead]
  have hact : (removed_at block k).active_amount = block.active_amount - 1 := rfl
  have h2 := delete_loop_skip block.active_amount (removed_at block k)
    (block.active_amount - 1 - k) k (by rw [hact]; omega) (by omega)
    (fun r hr1 hr2 hr3 => by
      by_cases hrk : r = k
      · subst hrk
        have hkill : block.attributes.bytes "Kill State" (block.active_amount - 1) = 1 := by
          simpa [removed_at] using hr3
        have := honly (block.active_amount - 1) (by omega) hkill
        omega
      · have hkill : block.attributes.bytes "Kill State" r = 1 := by
          simpa [removed_at, hrk] using hr3
        have := honly r (by omega) hkill
        omega)
  rw [h2]
  exact delete_loop_done _ _ _ (by rw [hact]; omega)

/-- C3 at a concrete input: four active rows, row 1 dead; row 3 is moved to row 1. -/
theorem C3_delete_single_dead_row_witness :
    ∃ result, delete_dead_particles example_block = some result ∧
      result.active_amount = 3 ∧ result.attributes.bytes "Id" 1 = 3 := by
  obtain ⟨result, hres, hact, hrow⟩ := C3_delete_single_dead_row example_block 1
    (by decide) (by decide) (by simp [example_block])
    (by
      intro r _ hr
      by_contra hne
      simp [example_block, hne] at hr)
  refine ⟨result, hres, hact, ?_⟩
  rw [(hrow "Id").1]
  simp [example_block]

/-- C4. For a block whose `active_amount` is at most its capacity, after
`delete_dead_particles` no row in `[0, active_amount)` has "Kill State" 1, and the new
`active_amount` is the old one minus the number of previously active rows whose "Kill State"
was 1. -/
theorem C4_delete_all_dead_rows (block : ParticlesBlock)
    (hcap : block.active_amount ≤ block.attributes.size) :
    ∃ result, delete_dead_particles block = some result ∧
      (∀ r, r < result.active_amount → result.attributes.bytes "Kill State" r ≠ 1) ∧
      result.active_amount =
        block.active_amount -
          ((List.range block.active_amount).filter
            (fun r => block.attributes.bytes "Kill State" r = 1)).length := by
  obtain ⟨result, hres, hnone, hcount, _⟩ := delete_loop_spec block.active_amount
    block.active_amount block 0 rfl (Nat.zero_le _) (Nat.le_refl _) hcap
    (fun r hr => absurd hr (Nat.not_lt_zero r))
  refine ⟨result, hres, hnone, ?_⟩
  have hdc : dead_count block block.active_amount =
      ((List.range block.active_amount).filter
        (fun r => block.attributes.bytes "Kill State" r = 1)).length := by
    simp [dead_count, List.countP_eq_length_filter]
  rw [← hdc]
  omega

/-- C4 at a concrete input: four active rows, one of them dead. -/
theorem C4_delete_all_dead_rows_witness :
    ∃ result, delete_dead_particles example_block = some result ∧
      (∀ r, r < result.active_amount → result.attributes.bytes "Kill State" r ≠ 1) ∧
      result.active_amount =
        example_block.active_amount -
          ((List.range example_block.active_amount).filter
            (fun r => example_block.attributes.bytes "Kill State" r = 1)).length :=
  C4_delete_all_dead_rows example_block (by decide)

/-- C5. Every time factor that `HitPlaneEvent::filter` appends lies in (0, 1]. -/
theorem C5_filter_time_factors (attributes : AttributeArrays) (indices_mask : List Nat)
    (next_movement : List float3) (r_filtered_indices : List Nat) (r_time_factors : List ℚ)
    (result : AttributeArrays × List Nat × List ℚ)
    (h : HitPlaneEvent.filter attributes indices_mask next_movement r_filtered_indices
      r_time_factors = some result) :
    ∃ appended, result.2.2 = r_time_factors ++ appended ∧
      ∀ time_factor ∈ appended, 0 < time_factor ∧ time_factor ≤ 1 := by
  simp only [HitPlaneEvent.filter, Option.bind_eq_bind, Option.bind_eq_some,
    Option.pure_def, Option.some.injEq] at h
  obtain ⟨out, hout, rfl⟩ := h
  refine foldlM_range_inv_of_some
    (HitPlaneEvent.filter_step attributes indices_mask next_movement)
    (fun _ out => ∃ appended, out.2 = r_time_factors ++ appended ∧
      ∀ time_factor ∈ appended, 0 < time_factor ∧ time_factor ≤ 1)
    indices_mask.length (r_filtered_indices, r_time_factors) ⟨[], by simp, by simp⟩ ?_ out hout
  intro k s s' _ hinv hs
  obtain ⟨appended, happ, hbound⟩ := hinv
  simp only [HitPlaneEvent.filter_step, Option.bind_eq_bind, Option.bind_eq_some,
    AttributeArrays.get_float3] at hs
  obtain ⟨pindex, _, position, hposition, hs⟩ := hs
  split at hposition
  · cases hposition
    split at hs
    · rename_i hy
      simp only [Option.bind_eq_some] at hs
      obtain ⟨movement, _, hs⟩ := hs
      split at hs
      · rename_i hsum
        cases hs
        have hc : crosses attributes pindex movement = true :=
          (crosses_iff attributes pindex movement).mpr ⟨hy, hsum⟩
        obtain ⟨_, h0, h1⟩ := hit_factor_bounds attributes pindex movement hc
        refine ⟨appended ++ [hit_factor attributes pindex movement], ?_, ?_⟩
        · simp [happ, hit_factor]
        · intro t ht
          rcases List.mem_append.mp ht with ht | ht
          · exact hbound t ht
          · simp only [List.mem_singleton] at ht
            subst ht
            exact ⟨h0, h1⟩
      · cases hs
        exact ⟨appended, happ, hbound⟩
    · cases hs
      exact ⟨appended, happ, hbound⟩
  · cases hposition

/-- C5 at a concrete input: row 0 crosses the plane half-way through its movement. -/
theorem C5_filter_time_factors_witness :
    ∃ appended, [(1 / 2 : ℚ)] = [] ++ appended ∧
      ∀ time_factor ∈ appended, 0 < time_factor ∧ time_factor ≤ 1 :=
  C5_filter_time_factors example_slice [0, 1] [⟨0, 2, 0⟩, ⟨0, 0, 0⟩] [] []
    (example_slice, [0], [1 / 2])
    (by
      simp [HitPlaneEvent.filter, HitPlaneEvent.filter_step, example_slice,
        AttributeArrays.get_float3, List.range, List.range.loop]
      norm_num)

/-- C7, as stated, fails: the row that crosses the plane ends at 2 plus the 5 that
`MoveUpAction` adds plus the displacement of the remaining integration, not at 2 plus that
displacement. Row 0 of `example_slice` crosses at time factor 1/2. -/
theorem C7_crossing_row_height_counterexample :
    ∃ a2 um utd po2 vo2 a4 j,
      step_slice_to_next_event no_forces example_state example_slice [0, 1] [1, 1] [] []
        = some (a2, um, utd) ∧
      um[j]? = some 0 ∧
      integrate_particles no_forces a2 um utd
        (List.replicate um.length float3.zero) (List.replicate um.length float3.zero)
          = some (po2, vo2) ∧
      step_slice no_forces example_state example_slice [0, 1] [1, 1] = some a4 ∧
      (a4.float3s "Position" 0).y ≠ 2 + (offset_at po2 j).y := by
  obtain ⟨a2, um, utd, po2, vo2, a4, j, hnext, hum, _, hint2, hstep, _, hy⟩ :=
    step_slice_crossing no_forces example_state example_slice [0, 1] [1, 1]
      [⟨0, 2, 0⟩, ⟨0, 0, 0⟩] [⟨0, 0, 0⟩, ⟨0, 0, 0⟩] (by decide) (by simp [example_slice]) rfl
      integrate_example_slice 0 (by decide) example_slice_row0_crosses
  refine ⟨a2, um, utd, po2, vo2, a4, j, hnext, hum, hint2, hstep, ?_⟩
  have hy' : (a4.float3s "Position" 0).y = 2 + 5 + (offset_at po2 j).y := hy
  rw [hy']
  intro h
  linarith

/-- C7, amended. For a mask of distinct rows of the slice and time differences of the same
length, a row `mask[i]` whose tentative displacement crosses y = 2 is at height 7 = 2 + 5
after `step_slice_to_next_event` (partial commit, then `MoveUpAction`), is enqueued at some
place `j` with the remaining budget `time_diffs[i] * (1 - time_factor)`, and after
`step_slice` its height is 2 + 5 plus the y displacement that `integrate_particles`, run on
the attributes after the action for the enqueued rows and budgets, yields for place `j`. -/
theorem C7_crossing_row_height_amended (m_description : Description) (state : MyState)
    (attributes : AttributeArrays) (indices_mask : List Nat) (time_diffs : List ℚ)
    (position_offsets velocity_offsets : List float3)
    (hnodup : indices_mask.Nodup) (hrange : ∀ p ∈ indices_mask, p < attributes.size)
    (hlen : indices_mask.length = time_diffs.length)
    (hint : integrate_particles m_description attributes indices_mask time_diffs
      (List.replicate indices_mask.length float3.zero)
      (List.replicate indices_mask.length float3.zero)
        = some (position_offsets, velocity_offsets))
    (i : Nat) (hi : i < indices_mask.length)
    (hcross : (attributes.float3s "Position" (row_at indices_mask i)).y < 2 ∧
      (attributes.float3s "Position" (row_at indices_mask i)).y
        + (offset_at position_offsets i).y ≥ 2) :
    ∃ after_action unfinished_mask unfinished_time_diffs position_offsets2 velocity_offsets2
        final j,
      step_slice_to_next_event m_description state attributes indices_mask time_diffs [] []
        = some (after_action, unfinished_mask, unfinished_time_diffs) ∧
      unfinished_mask[j]? = some (row_at indices_mask i) ∧
      unfinished_time_diffs[j]? = some (time_at time_diffs i *
        (1 - (2 - (attributes.float3s "Position" (row_at indices_mask i)).y)
          / (offset_at position_offsets i).y)) ∧
      integrate_particles m_description after_action unfinished_mask unfinished_time_diffs
        (List.replicate unfinished_mask.length float3.zero)
        (List.replicate unfinished_mask.length float3.zero)
          = some (position_offsets2, velocity_offsets2) ∧
      step_slice m_description state attributes indices_mask time_diffs = some final ∧
      (after_action.float3s "Position" (row_at indices_mask i)).y = 7 ∧
      (final.float3s "Position" (row_at indices_mask i)).y
        = 2 + 5 + (offset_at position_offsets2 j).y :=
  step_slice_crossing m_description state attributes indices_mask time_diffs position_offsets
    velocity_offsets hnodup hrange hlen hint i hi
    ((crosses_iff attributes _ _).mpr hcross)

/-- C7, amended, at a concrete input: row 0 of `example_slice` crosses at time factor 1/2
and is at height 7 after the event. -/
theorem C7_crossing_row_height_amended_witness :
    ∃ after_action unfinished_mask unfinished_time_diffs final,
      step_slice_to_next_event no_forces example_state example_slice [0, 1] [1, 1] [] []
        = some (after_action, unfinished_mask, unfinished_time_diffs) ∧
      step_slice no_forces example_state example_slice [0, 1] [1, 1] = some final ∧
      (after_action.float3s "Position" 0).y = 7 := by
  obtain ⟨a2, um, utd, _, _, a4, _, hnext, _, _, _, hstep, h7, _⟩ :=
    C7_crossing_row_height_amended no_forces example_state example_slice [0, 1] [1, 1]
      [⟨0, 2, 0⟩, ⟨0, 0, 0⟩] [⟨0, 0, 0⟩, ⟨0, 0, 0⟩] (by decide) (by simp [example_slice]) rfl
      integrate_example_slice 0 (by decide)
      ((crosses_iff example_slice _ _).mp example_slice_row0_crosses)
  exact ⟨a2, um, utd, a4, hnext, hstep, h7⟩

/-- C8 at its failing input: no forces, `drifting_slice`, mask `[1, 0]`, time differences
`[1, 1]`. No row triggers. The tentative offset of row `mask[0] = 1` is
`position_offsets[0] = (0, 0, 0)` and that of row `mask[1] = 0` is
`position_offsets[1] = (1, 0, 0)`, yet row 1 is moved by (1, 0, 0) and row 0 by (0, 0, 0):
the branch without events indexes the offsets by the row, not by the place in the mask. -/
theorem C8_untriggered_commit_failing_input :
    ∃ position_offsets velocity_offsets result,
      integrate_particles no_forces drifting_slice [1, 0] [1, 1]
        (List.replicate 2 float3.zero) (List.replicate 2 float3.zero)
          = some (position_offsets, velocity_offsets) ∧
      position_offsets[0]? = some ⟨0, 0, 0⟩ ∧
      position_offsets[1]? = some ⟨1, 0, 0⟩ ∧
      step_slice_to_next_event no_forces example_state drifting_slice [1, 0] [1, 1] [] []
        = some (result, [], []) ∧
      result.float3s "Position" 1 = drifting_slice.float3s "Position" 1 + ⟨1, 0, 0⟩ ∧
      result.float3s "Position" 0 = drifting_slice.float3s "Position" 0 + ⟨0, 0, 0⟩ := by
  obtain ⟨a1, hnext, hoff⟩ := to_next_event_untriggered no_forces example_state
    drifting_slice [1, 0] [1, 1] [] [] [⟨0, 0, 0⟩, ⟨1, 0, 0⟩] [⟨0, 0, 0⟩, ⟨0, 0, 0⟩]
    (by decide) (by simp [drifting_slice]) (by decide) integrate_drifting_slice rfl rfl
    drifting_slice_triggered
  refine ⟨_, _, a1, integrate_drifting_slice, rfl, rfl, hnext, ?_, ?_⟩
  · exact (hoff.2.1 0 (by decide)).1
  · exact (hoff.2.1 1 (by decide)).1

/-- C12, as stated, fails: "Birth Time" is an attribute of the schema that
`example_emitter` does not declare, and after `emit_from_emitter` it is not zero in the
emitted row 0: the birth times are assigned after the zero fill. -/
theorem C12_undeclared_zero_counterexample :
    ∃ result block,
      emit_from_emitter example_solver example_rand (late_state, 0) example_emitter 1
        = some result ∧
      result.1.particles.active_blocks[0]? = some block ∧
      "Birth Time" ∈ example_solver.m_attributes.float_attributes ∧
      "Birth Time" ∉ example_emitter.used_float_attributes ∧
      0 < block.active_amount ∧
      block.attributes.floats "Birth Time" 0 ≠ 0 := by
  obtain ⟨result, hres, _, _, _, hdone, _⟩ := emit_from_emitter_spec example_solver
    example_rand late_state 0 example_emitter 1 (by simp [example_emitter, example_target])
  obtain ⟨block, hblock, hact, _, hbirth, _⟩ := hdone 0 example_target rfl (by decide)
  refine ⟨result, block, hres, hblock, by decide, by simp [example_emitter], ?_, ?_⟩
  · rw [hact]; decide
  · obtain ⟨n, hn⟩ := hbirth 0 (by decide)
    obtain ⟨_, h1⟩ := rand_factor_bounds n
    have hclock : late_state.seconds_since_start = 6 := rfl
    rw [hn, hclock]
    intro h
    linarith

/-- C12, amended. For every emitter whose targets fit their blocks and every row it emits,
after `emit_from_emitter` returns, every attribute of the schema that the emitter did not
declare as used has the value zero in that new active row, save the attributes "Birth Time"
(assigned after the zero fill) and "Kill State", "Position", "Velocity" (which the sub-step
of the emitted rows may change). -/
theorem C12_undeclared_zero_amended (solver : SimpleSolver) (rand : Nat → Nat)
    (state : MyState) (rand_calls : Nat) (emitter : EmitterInfo) (elapsed_seconds : ℚ)
    (hfit : ∀ target ∈ emitter.emitter.emit,
      target.emitted_amount ≤ target.attributes.size) :
    ∃ result, emit_from_emitter solver rand (state, rand_calls) emitter elapsed_seconds
        = some result ∧
      ∀ i target, emitter.emitter.emit[i]? = some target →
        ∃ block,
          result.1.particles.active_blocks[state.particles.active_blocks.length + i]?
            = some block ∧
          block.active_amount = target.emitted_amount ∧
          ∀ r, r < block.active_amount →
            (∀ name, name ∈ solver.m_attributes.byte_attributes →
              name ∉ emitter.used_byte_attributes → name ≠ "Kill State" →
              block.attributes.bytes name r = 0) ∧
            (∀ name, name ∈ solver.m_attributes.float_attributes →
              name ∉ emitter.used_float_attributes → name ≠ "Birth Time" →
              block.attributes.floats name r = 0) ∧
            (∀ name, name ∈ solver.m_attributes.float3_attributes →
              name ∉ emitter.used_float3_attributes → name ≠ "Position" →
              name ≠ "Velocity" → block.attributes.float3s name r = float3.zero) := by
  obtain ⟨result, hres, _, _, _, hdone, _⟩ :=
    emit_from_emitter_spec solver rand state rand_calls emitter elapsed_seconds hfit
  refine ⟨result, hres, ?_⟩
  intro i target ht
  have hi : i < emitter.emitter.emit.length := (List.getElem?_eq_some_iff.mp ht).1
  obtain ⟨block, hblock, hact, _, _, hb, hf, hv⟩ := hdone i target ht hi
  refine ⟨block, hblock, hact, ?_⟩
  intro r hr
  rw [hact] at hr
  exact ⟨fun name h1 h2 h3 => hb name h1 h2 h3 r hr,
    fun name h1 h2 h3 => hf name h1 h2 h3 r hr,
    fun name h1 h2 h3 h4 => hv name h1 h2 h3 h4 r hr⟩

/-- C12, amended, at a concrete input: in a schema with the byte attribute "Id", which
`example_emitter` does not declare, the emitted row 1 has "Id" 0 although the target held 7
there. -/
theorem C12_undeclared_zero_amended_witness :
    ∃ result block,
      emit_from_emitter
        { example_solver with m_attributes := ⟨["Kill State", "Id"], ["Birth Time"], []⟩ }
        example_rand (late_state, 0) example_emitter 1 = some result ∧
      result.1.particles.active_blocks[0]? = some block ∧
      block.attributes.bytes "Id" 1 = 0 ∧ example_target.attributes.bytes "Id" 1 = 7 := by
  obtain ⟨result, hres, hall⟩ := C12_undeclared_zero_amended
    { example_solver with m_attributes := ⟨["Kill State", "Id"], ["Birth Time"], []⟩ }
    example_rand late_state 0 example_emitter 1 (by simp [example_emitter, example_target])
  obtain ⟨block, hblock, hact, hrows⟩ := hall 0 example_target rfl
  refine ⟨result, block, hres, hblock, ?_, rfl⟩
  exact (hrows 1 (by rw [hact]; decide)).1 "Id" (by simp) (by simp [example_emitter])
    (by decide)

/-- C13. For every state whose number of active rows is below 2^32 (the counters are `uint`)
and every buffer `dst` with room for them, `particle_amount` returns the sum of
`active_amount` over the active blocks, and `get_positions` leaves in
`dst[0 .. particle_amount())` the "Position" values of the active rows, block after block in
container order and in ascending row order inside a block, and leaves every element of `dst`
at an index at or above `particle_amount()` as it was; neither changes the state. -/
theorem C13_particle_amount_positions (state : MyState) (dst : List float3)
    (h32 : (state.particles.active_blocks.map
      (fun block => block.active_amount)).sum < 4294967296)
    (hdst : (state.particles.active_blocks.map
      (fun block => block.active_amount)).sum ≤ dst.length) :
    particle_amount state = (state,
      (state.particles.active_blocks.map (fun block => block.active_amount)).sum) ∧
    ∃ result, get_positions state dst = some (state, result) ∧
      result.length = dst.length ∧
      result.take (particle_amount state).2
        = active_positions state.particles.active_blocks ∧
      ∀ i, (particle_amount state).2 ≤ i → result[i]? = dst[i]? := by
  have hcount : particle_amount state = (state,
      (state.particles.active_blocks.map (fun block => block.active_amount)).sum) := by
    unfold particle_amount
    rw [count_foldl state.particles.active_blocks 0 (by simpa [total_active] using h32)]
    simp [total_active]
  have hlen := active_positions_length state.particles.active_blocks
  have htotal : total_active state.particles.active_blocks
      = (state.particles.active_blocks.map (fun block => block.active_amount)).sum := rfl
  refine ⟨hcount, _, get_positions_spec state dst h32 hdst, ?_, ?_, ?_⟩
  · simp only [List.length_append, List.length_drop, hlen]
    rw [htotal]
    omega
  · rw [hcount]
    apply List.take_left'
    rw [hlen]
    rfl
  · intro i hi
    rw [hcount] at hi
    simp only at hi
    rw [List.getElem?_append_right (by rw [hlen, htotal]; exact hi), hlen,
      List.getElem?_drop, htotal]
    congr 1
    omega

/-- C13 at a concrete input: two blocks with two and four active rows, and a buffer of
seven elements. -/
theorem C13_particle_amount_positions_witness :
    (particle_amount two_block_state).2 = 6 ∧
    ∃ result, get_positions two_block_state (List.replicate 7 ⟨9, 9, 9⟩)
        = some (two_block_state, result) ∧
      result[6]? = some ⟨9, 9, 9⟩ := by
  obtain ⟨hcount, result, hres, _, _, hrest⟩ := C13_particle_amount_positions
    two_block_state (List.replicate 7 ⟨9, 9, 9⟩) (by decide) (by decide)
  have h6 : (particle_amount two_block_state).2 = 6 := by
    rw [hcount]; decide
  refine ⟨h6, result, hres, ?_⟩
  rw [hrest 6 (by rw [h6])]
  rfl

/-- C14, as stated, fails: the clock is a `float`. Two calls of `step` of a solver without
emitters from its initial state, with the positive elapsed times 16777216 = 2^24 and 1: the
first call sets the clock to 2^24 and the second leaves it there, because 2^24 + 1 rounds to
2^24. So the clock after the second call is not the clock before plus 1, it is not above the
clock before, and it is not the sum 16777217 of the elapsed times. -/
theorem C14_clock_advances_counterexample :
    ∃ first second,
      run_steps bare_solver id example_rand (bare_solver.init, 0) [16777216, 1]
        = some [first, second] ∧
      first.1.seconds_since_start = 16777216 ∧
      second.1.seconds_since_start = 16777216 ∧
      second.1.seconds_since_start ≠ first.1.seconds_since_start + 1 ∧
      ¬ first.1.seconds_since_start < second.1.seconds_since_start ∧
      second.1.seconds_since_start ≠ 0 + (16777216 + 1) := by
  have hrun := bare_solver_two_steps 16777216 1 16777216 16777216
    (float_add_zero_left _ is_float_16777216) float_add_16777216_one
  refine ⟨_, _, hrun, rfl, rfl, ?_, ?_, ?_⟩
  · norm_num
  · norm_num
  · norm_num

/-- C14, amended. The clock `seconds_since_start` is 0 after `init`. Every call of `step`
that returns leaves it at the sum on `float` (binary32, round to nearest, ties to even) of
its old value and `elapsed_seconds`; that is the exact sum when the exact sum is a `float`;
and when the old value is a `float` that is not negative and `elapsed_seconds` is not
negative, the new value is a `float` that is not below the old one. The call does return
when every block has at most as many active rows as its capacity, every emitter target holds
at least its emitted rows and the sum is finite. Along a sequence of calls the clock after
call `i` is the sum on `float`, from left to right, of the start value and the first `i + 1`
elapsed times, at the end of all of them, and it never decreases when the start value is a
`float` that is not negative and no elapsed time is negative. `particle_amount` and
`get_positions` return the state they were given. -/
theorem C14_clock_advances_amended (solver : SimpleSolver)
    (Compress : List ParticlesBlock → List ParticlesBlock) (rand : Nat → Nat) :
    solver.init.seconds_since_start = 0 ∧
    (∀ (st st' : MyState × Nat) (elapsed_seconds : ℚ),
      solver.step Compress rand st elapsed_seconds = some st' →
      float_add st.1.seconds_since_start elapsed_seconds = some st'.1.seconds_since_start ∧
      (is_float (st.1.seconds_since_start + elapsed_seconds) →
        st'.1.seconds_since_start = st.1.seconds_since_start + elapsed_seconds) ∧
      (0 ≤ st.1.seconds_since_start → is_float st.1.seconds_since_start →
        0 ≤ elapsed_seconds →
        st.1.seconds_since_start ≤ st'.1.seconds_since_start ∧
        0 ≤ st'.1.seconds_since_start ∧ is_float st'.1.seconds_since_start)) ∧
    (∀ (st : MyState × Nat) (elapsed_seconds : ℚ),
      (∀ block ∈ st.1.particles.active_blocks, block.active_amount ≤ block.attributes.size) →
      (∀ emitter ∈ solver.m_emitter_infos, ∀ target ∈ emitter.emitter.emit,
        target.emitted_amount ≤ target.attributes.size) →
      |round_to_float (st.1.seconds_since_start + elapsed_seconds)| < 2 ^ 128 →
      ∃ st', solver.step Compress rand st elapsed_seconds = some st') ∧
    (∀ (st : MyState × Nat) (elapsed : List ℚ) (states : List (MyState × Nat)),
      run_steps solver Compress rand st elapsed = some states →
      states.length = elapsed.length ∧
      (∀ (i : Nat) (s : MyState × Nat), states[i]? = some s →
        float_sum st.1.seconds_since_start (elapsed.take (i + 1))
          = some s.1.seconds_since_start) ∧
      (∀ last, states.getLast? = some last →
        float_sum st.1.seconds_since_start elapsed = some last.1.seconds_since_start) ∧
      (0 ≤ st.1.seconds_since_start → is_float st.1.seconds_since_start →
        (∀ e ∈ elapsed, 0 ≤ e) →
        List.Chain (fun a b => a ≤ b) st.1.seconds_since_start
          (states.map (fun s => s.1.seconds_since_start)))) ∧
    (∀ state : MyState, (particle_amount state).1 = state) ∧
    (∀ (state : MyState) (dst : List float3) (result : MyState × List float3),
      get_positions state dst = some result → result.1 = state) := by
  refine ⟨rfl, ?_,
    fun st e hblocks hfit hfinite => step_total solver Compress rand st e hblocks hfit hfinite,
    ?_, fun state => by simp [particle_amount], ?_⟩
  · intro st st' e h
    have hclock := step_clock solver Compress rand st st' e h
    refine ⟨hclock, ?_, fun h0 hfloat he => float_add_le _ _ _ h0 hfloat he hclock⟩
    intro hexact
    rw [float_add_exact _ _ hexact] at hclock
    exact (Option.some.inj hclock).symm
  · intro st elapsed states h
    obtain ⟨hlen, hsum, hchain⟩ := run_steps_clock solver Compress rand elapsed st states h
    refine ⟨hlen, hsum, ?_, hchain⟩
    intro last hlast
    rw [List.getLast?_eq_getElem?] at hlast
    have hpos : 0 < states.length := by
      rcases Nat.eq_zero_or_pos states.length with h0 | h0
      · rw [List.length_eq_zero.mp h0] at hlast
        simp at hlast
      · exact h0
    have := hsum _ last hlast
    rwa [Nat.sub_add_cancel hpos, hlen, List.take_length] at this
  · intro state dst result h
    simp only [get_positions, Option.bind_eq_bind, Option.bind_eq_some, Option.pure_def,
      Option.some.injEq] at h
    obtain ⟨_, _, rfl⟩ := h
    rfl

/-- C14, amended, at concrete inputs: one step of `example_solver` from `fresh_state`, whose
clock shows 6, with elapsed time 1 returns a state whose clock shows 7; two steps of a
solver without emitters from its initial state, with elapsed times 1 and 2, end at clock 3,
and the clock never decreases on the way. -/
theorem C14_clock_advances_amended_witness :
    (∃ st', example_solver.step id example_rand (fresh_state, 0) 1 = some st' ∧
      st'.1.seconds_since_start = 7) ∧
    ∃ states last,
      run_steps bare_solver id example_rand (bare_solver.init, 0) [1, 2] = some states ∧
      states.getLast? = some last ∧ last.1.seconds_since_start = 3 ∧
      List.Chain (fun a b => a ≤ b) (0 : ℚ)
        (states.map (fun s => s.1.seconds_since_start)) := by
  have h67 : (6 : ℚ) + 1 = 7 := by norm_num
  have h01 : float_add 0 1 = some 1 := float_add_zero_left _ is_float_one
  have h12 : float_add 1 2 = some 3 := by
    have h := float_add_exact 1 2 (by norm_num; exact is_float_three)
    norm_num at h
    exact h
  constructor
  · obtain ⟨_, hstep, htotal, _⟩ := C14_clock_advances_amended example_solver id example_rand
    have hclock : fresh_state.seconds_since_start = 6 := rfl
    obtain ⟨st', h⟩ := htotal (fresh_state, 0) 1
      (by simp [fresh_state])
      (by simp [example_solver, new_playground_solver, example_emitter, example_target])
      (by
        show |round_to_float (fresh_state.seconds_since_start + 1)| < 2 ^ 128
        rw [hclock, h67, is_float_seven.1]
        norm_num)
    refine ⟨st', h, ?_⟩
    have hexact := (hstep _ _ _ h).2.1
      (by
        show is_float (fresh_state.seconds_since_start + 1)
        rw [hclock, h67]
        exact is_float_seven)
    rw [hexact]
    show fresh_state.seconds_since_start + 1 = 7
    rw [hclock, h67]
  · obtain ⟨_, _, _, hrun, _⟩ := C14_clock_advances_amended bare_solver id example_rand
    have h : ∃ states, run_steps bare_solver id example_rand (bare_solver.init, 0) [1, 2]
        = some states := ⟨_, bare_solver_two_steps 1 2 1 3 h01 h12⟩
    obtain ⟨states, hstates⟩ := h
    obtain ⟨hlen, _, hlast, hchain⟩ := hrun _ _ _ hstates
    have hne : states ≠ [] := by
      intro h0
      rw [h0] at hlen
      simp at hlen
    have hinit : (bare_solver.init, 0).1.seconds_since_start = (0 : ℚ) := rfl
    refine ⟨states, states.getLast hne, hstates, List.getLast?_eq_getLast _ hne, ?_, ?_⟩
    · have hsum := hlast _ (List.getLast?_eq_getLast _ hne)
      rw [hinit] at hsum
      simp only [float_sum, List.foldlM_cons, List.foldlM_nil, h01, h12, Option.bind_eq_bind,
        Option.some_bind, Option.pure_def, Option.some.injEq] at hsum
      exact hsum.symm
    · have := hchain (by rw [hinit]) (by rw [hinit]; exact is_float_zero)
        (by intro e he; simp at he; rcases he with rfl | rfl <;> norm_num)
      rw [hinit] at this
      exact this

/-- C15. For forces that add a per-row term into the accumulator, `compute_combined_force`
yields, for every position `i` of the mask, the sum over the registered forces of the term of
row `mask[i]`, starting from zero; the result is the same for any other content of `dst`, it
is all zeros when no force is registered, and it is the same for every permutation of the
list of forces. -/
theorem C15_combined_force_additive (m_description : Description)
    (attributes : AttributeArrays) (indices_mask : List Nat) (dst : List float3)
    (hlen : indices_mask.length = dst.length) :
    ∃ result, compute_combined_force m_description attributes indices_mask dst = some result ∧
      result.length = indices_mask.length ∧
      (∀ (i pindex : Nat), indices_mask[i]? = some pindex →
        result[i]? = some (m_description.forces.foldl
          (fun sum force => sum + force.term attributes pindex) float3.zero)) ∧
      (∀ other_dst : List float3, indices_mask.length = other_dst.length →
        compute_combined_force m_description attributes indices_mask other_dst
          = some result) ∧
      (m_description.forces = [] →
        result = List.replicate indices_mask.length float3.zero) ∧
      (∀ forces : List Force, forces.Perm m_description.forces →
        compute_combined_force ⟨forces⟩ attributes indices_mask dst = some result) := by
  obtain ⟨result, hres, hlenres, hentries⟩ :=
    compute_combined_force_entries m_description attributes indices_mask dst hlen
  refine ⟨result, hres, hlenres, hentries, ?_, ?_, ?_⟩
  · intro other hother
    simp only [compute_combined_force, hlen, if_true, Option.some.injEq] at hres
    simp only [compute_combined_force, hother, if_true]
    rw [← hres, ← hother, ← hlen]
  · intro hnone
    simp only [compute_combined_force, hlen, if_true, hnone, List.foldl_nil,
      Option.some.injEq] at hres
    rw [← hres, hlen]
  · intro forces hperm
    obtain ⟨result', hres', hlenres', hentries'⟩ :=
      compute_combined_force_entries ⟨forces⟩ attributes indices_mask dst hlen
    rw [hres']
    congr 1
    apply List.ext_getElem?
    intro i
    by_cases hi : i < indices_mask.length
    · have hp : indices_mask[i]? = some indices_mask[i] := List.getElem?_eq_getElem hi
      rw [hentries' i _ hp, hentries i _ hp]
      congr 1
      exact force_sum_perm _ _ attributes _ hperm
    · rw [List.getElem?_eq_none (by omega), List.getElem?_eq_none (by omega)]

/-- C15 at a concrete input: two constant forces, registered in either order, add up to the
same combined force for both rows of `example_slice`. -/
theorem C15_combined_force_additive_witness :
    ∃ result, compute_combined_force ⟨[side_force, up_force]⟩ example_slice [0, 1]
        [float3.zero, float3.zero] = some result ∧
      compute_combined_force ⟨[up_force, side_force]⟩ example_slice [0, 1]
        [float3.zero, float3.zero] = some result := by
  obtain ⟨result, hres, _, _, _, _, hperm⟩ := C15_combined_force_additive
    ⟨[side_force, up_force]⟩ example_slice [0, 1] [float3.zero, float3.zero] rfl
  exact ⟨result, hres, hperm [up_force, side_force] (List.Perm.swap _ _ _)⟩

/-- C16. For every block, whenever `delete_dead_particles` returns, the multiset of
attribute tuples (all byte, float and float3 values of one row) found in the rows
`[0, active_amount)` of the result equals the multiset of attribute tuples of the previously
active rows whose "Kill State" was not 1; and it does return when `active_amount` is at most
the capacity. -/
theorem C16_survivors_kept (block : ParticlesBlock) :
    (∀ result, delete_dead_particles block = some result →
      Multiset.ofList (active_rows result) = Multiset.ofList (surviving_rows block)) ∧
    (block.active_amount ≤ block.attributes.size →
      ∃ result, delete_dead_particles block = some result) := by
  constructor
  · intro result hres
    exact delete_loop_rows block.slice_active.size block.active_amount block 0 rfl
      (Nat.zero_le _) (fun r hr => absurd hr (Nat.not_lt_zero r)) result hres
  · intro hcap
    obtain ⟨result, hres, _⟩ := delete_loop_spec block.active_amount block.active_amount
      block 0 rfl (Nat.zero_le _) (Nat.le_refl _) hcap
      (fun r hr => absurd hr (Nat.not_lt_zero r))
    exact ⟨result, hres⟩

/-- C16 at a concrete input: `example_block` has four active rows with "Id" 0, 1, 2, 3, of
which row 1 is dead; the result holds the tuples of the rows with "Id" 0, 2 and 3. -/
theorem C16_survivors_kept_witness :
    ∃ result, delete_dead_particles example_block = some result ∧
      Multiset.ofList (active_rows result) = Multiset.ofList (surviving_rows example_block) ∧
      (surviving_rows example_block).map (fun tuple => tuple.1 "Id") = [0, 2, 3] := by
  obtain ⟨result, hres⟩ := (C16_survivors_kept example_block).2 (by decide)
  refine ⟨result, hres, (C16_survivors_kept example_block).1 result hres, ?_⟩
  simp [surviving_rows, row_of, example_block, List.range, List.range.loop, List.filter]

/-- C17. For a mask of distinct rows of the slice and time differences of the same length,
whenever `step_slice_to_next_event` returns: every enqueued row has a budget and is at
height exactly 7 after the partial commit and the action; `HitPlaneEvent::filter`, run again
on the enqueued rows with any movement, returns no row and no time factor;
`step_slice_ignoring_events` on the enqueued rows returns, and a further pass of the
procedure of the spec (`spec_step_slice`, with any fuel of at least one pass) on them
returns the same attributes; and when some row was enqueued, or the mask is the full range
`0 .. n-1`, the whole `step_slice` is the procedure of the spec (with any fuel of at least
two passes) followed by the kill loop. -/
theorem C17_event_pass_agrees_with_spec (m_description : Description) (state : MyState)
    (attributes : AttributeArrays) (indices_mask : List Nat) (time_diffs : List ℚ)
    (hnodup : indices_mask.Nodup) (hrange : ∀ p ∈ indices_mask, p < attributes.size)
    (hlen : indices_mask.length = time_diffs.length)
    (after_action : AttributeArrays) (unfinished_mask : List Nat)
    (unfinished_time_diffs : List ℚ)
    (hnext : step_slice_to_next_event m_description state attributes indices_mask time_diffs
      [] [] = some (after_action, unfinished_mask, unfinished_time_diffs)) :
    unfinished_mask.length = unfinished_time_diffs.length ∧
    (∀ p ∈ unfinished_mask, (after_action.float3s "Position" p).y = 7) ∧
    (∀ movement : List float3,
      HitPlaneEvent.filter after_action unfinished_mask movement [] []
        = some (after_action, [], [])) ∧
    (∃ finished,
      step_slice_ignoring_events m_description after_action unfinished_mask
        unfinished_time_diffs = some finished ∧
      ∀ fuel, spec_step_slice m_description (fuel + 1) after_action unfinished_mask
        unfinished_time_diffs = some finished) ∧
    ((unfinished_mask ≠ [] ∨ indices_mask = List.range indices_mask.length) →
      ∀ fuel, step_slice m_description state attributes indices_mask time_diffs =
        (spec_step_slice m_description (fuel + 2) attributes indices_mask time_diffs).bind
          (fun finished => indices_mask.foldlM (kill_step state) finished)) := by
  obtain ⟨hlens, hnd, hsize, hrows⟩ := unfinished_rows_height m_description state attributes
    indices_mask time_diffs hnodup hrange hlen after_action unfinished_mask
    unfinished_time_diffs hnext
  have hrange2 : ∀ p ∈ unfinished_mask, p < after_action.size := fun p hp => by
    rw [hsize]
    exact hrange p (hrows p hp).1
  have habove : ∀ p ∈ unfinished_mask, ¬ (after_action.float3s "Position" p).y < 2 :=
    fun p hp => by
      rw [(hrows p hp).2]
      norm_num
  refine ⟨hlens, fun p hp => (hrows p hp).2,
    fun movement => filter_above_plane after_action unfinished_mask movement [] [] hrange2
      habove, ?_, ?_⟩
  · obtain ⟨_, _, finished, _, _, _, hfin, _⟩ := step_slice_ignoring_events_spec
      m_description after_action unfinished_mask unfinished_time_diffs hnd hrange2 hlens
    refine ⟨finished, hfin, fun fuel => ?_⟩
    rw [spec_pass_above_plane m_description fuel after_action unfinished_mask
      unfinished_time_diffs hrange2 habove, hfin]
  · intro hcase fuel
    exact step_slice_eq_spec m_description state attributes indices_mask time_diffs hnodup
      hrange hlen after_action unfinished_mask unfinished_time_diffs hnext hcase fuel

/-- C17 at a concrete input: row 0 of `example_slice` crosses the plane, is enqueued, and is
at height 7; the filter returns nothing on the enqueued rows even for a movement of 10
downwards; a further pass of the procedure of the spec finishes as
`step_slice_ignoring_events` does. -/
theorem C17_event_pass_agrees_with_spec_witness :
    ∃ after_action unfinished_mask unfinished_time_diffs finished,
      step_slice_to_next_event no_forces example_state example_slice [0, 1] [1, 1] [] []
        = some (after_action, unfinished_mask, unfinished_time_diffs) ∧
      0 ∈ unfinished_mask ∧
      (after_action.float3s "Position" 0).y = 7 ∧
      HitPlaneEvent.filter after_action unfinished_mask
        (List.replicate unfinished_mask.length ⟨0, -10, 0⟩) [] []
          = some (after_action, [], []) ∧
      step_slice_ignoring_events no_forces after_action unfinished_mask
        unfinished_time_diffs = some finished ∧
      spec_step_slice no_forces 1 after_action unfinished_mask unfinished_time_diffs
        = some finished ∧
      step_slice no_forces example_state example_slice [0, 1] [1, 1] =
        (spec_step_slice no_forces 2 example_slice [0, 1] [1, 1]).bind
          (fun finished => [0, 1].foldlM (kill_step example_state) finished) := by
  obtain ⟨a2, um, utd, _, _, _, j, hnext, hum, _⟩ :=
    step_slice_crossing no_forces example_state example_slice [0, 1] [1, 1]
      [⟨0, 2, 0⟩, ⟨0, 0, 0⟩] [⟨0, 0, 0⟩, ⟨0, 0, 0⟩] (by decide) (by simp [example_slice]) rfl
      integrate_example_slice 0 (by decide) example_slice_row0_crosses
  have hmem : 0 ∈ um := List.getElem?_mem hum
  obtain ⟨_, hheight, hfilter, ⟨finished, hfin, hspec⟩, hwhole⟩ :=
    C17_event_pass_agrees_with_spec no_forces example_state example_slice [0, 1] [1, 1]
      (by decide) (by simp [example_slice]) rfl a2 um utd hnext
  exact ⟨a2, um, utd, finished, hnext, hmem, hheight 0 hmem, hfilter _, hfin, hspec 0,
    hwhole (Or.inl (List.ne_nil_of_mem hmem)) 0⟩

/-- C18. The callback `step_block_cb` for block `index` completes; it replaces only block
`index` in the list of blocks, keeps the `active_amount` and the capacity of that block, and
keeps every attribute value of its rows at or above `active_amount`; the state, with
`seconds_since_start`, is only read. Consequently running the callback over the indices of
the blocks in any order (any two permutations of distinct indices) yields the same blocks. -/
theorem C18_block_stepping_independent (m_description : Description)
    (data : StepBlocksParallelData) :
    (∀ index block, data.blocks[index]? = some block →
      ∃ blocks stepped_block,
        step_block_cb m_description data index = some blocks ∧
        blocks.length = data.blocks.length ∧
        blocks[index]? = some stepped_block ∧
        (∀ k, k ≠ index → blocks[k]? = data.blocks[k]?) ∧
        stepped_block.active_amount = block.active_amount ∧
        stepped_block.attributes.size = block.attributes.size ∧
        ∀ r, block.active_amount ≤ r → ∀ name,
          stepped_block.attributes.bytes name r = block.attributes.bytes name r ∧
          stepped_block.attributes.floats name r = block.attributes.floats name r ∧
          stepped_block.attributes.float3s name r = block.attributes.float3s name r) ∧
    (∀ order1 order2 : List Nat, order1.Nodup → (∀ i ∈ order1, i < data.blocks.length) →
      order1.Perm order2 →
      ∃ result,
        order1.foldlM (fun blocks index =>
          step_block_cb m_description ⟨data.state, blocks, data.elapsed_seconds⟩ index)
          data.blocks = some result ∧
        order2.foldlM (fun blocks index =>
          step_block_cb m_description ⟨data.state, blocks, data.elapsed_seconds⟩ index)
          data.blocks = some result) := by
  constructor
  · intro index block hblock
    obtain ⟨stepped, _, hframe, hcb⟩ :=
      step_block_cb_total m_description data index block hblock
    have hlt : index < data.blocks.length := (List.getElem?_eq_some_iff.mp hblock).1
    obtain ⟨_, hf, hb, hv, hrows⟩ := hframe
    refine ⟨_, block.written_through stepped, hcb, by simp, List.getElem?_set_self hlt,
      fun k hk => List.getElem?_set_ne (fun h => hk h.symm), rfl, rfl, ?_⟩
    intro r hr name
    have hnot : r ∉ List.range block.slice_active.size := by
      intro h
      have := List.mem_range.mp h
      exact absurd hr (Nat.not_le_of_lt this)
    obtain ⟨hkill, hpos, hvel⟩ := hrows r hnot
    refine ⟨?_, ?_, ?_⟩
    · show stepped.bytes name r = block.slice_active.bytes name r
      by_cases hn : name = "Kill State"
      · subst hn; exact hkill
      · rw [hb name hn]
    · show stepped.floats name r = block.slice_active.floats name r
      rw [hf]
    · show stepped.float3s name r = block.slice_active.float3s name r
      by_cases hp : name = "Position"
      · subst hp; exact hpos
      · by_cases hvn : name = "Velocity"
        · subst hvn; exact hvel
        · rw [hv name hp hvn]
  · intro order1 order2 hnodup hrange hperm
    exact step_blocks_order_irrelevant m_description data.state data.elapsed_seconds
      data.blocks order1 order2 hnodup hrange hperm

/-- C18 at a concrete input: two blocks stepped in the order 0, 1 and in the order 1, 0. -/
theorem C18_block_stepping_independent_witness :
    ∃ result,
      [0, 1].foldlM (fun blocks index =>
        step_block_cb no_forces ⟨example_state, blocks, 1⟩ index)
        [drifting_block, example_block] = some result ∧
      [1, 0].foldlM (fun blocks index =>
        step_block_cb no_forces ⟨example_state, blocks, 1⟩ index)
        [drifting_block, example_block] = some result :=
  (C18_block_stepping_independent no_forces
    ⟨example_state, [drifting_block, example_block], 1⟩).2 [0, 1] [1, 0] (by decide)
    (by decide) (List.Perm.swap _ _ _)

/-- C19, as stated, fails: when `step_slice` is called for the rows emitted into
`example_target`, the block of the target, which had `active_amount = 0` before the
emission, already has `active_amount = 2` in the state the sub-step runs on. -/
theorem C19_active_amount_order_counterexample :
    ∃ prepared stepped final,
      prepare_emitted example_solver example_rand example_emitter 1 (fresh_state, 0)
        example_target 0 = some prepared ∧
      step_slice example_solver.m_description prepared.state prepared.emitted_data
        (List.range prepared.emitted_data.size) prepared.time_steps = some stepped ∧
      emit_target example_solver example_rand example_emitter 1 (fresh_state, 0)
        example_target 0 = some final ∧
      (fresh_state.particles.active_blocks[0]?).map (fun block => block.active_amount)
        = some 0 ∧
      (prepared.state.particles.active_blocks[0]?).map (fun block => block.active_amount)
        ≠ some 0 := by
  obtain ⟨prepared, stepped, hprep, _, _, hblock, hact, hstep, _, hemit⟩ :=
    emit_target_spec example_solver example_rand example_emitter 1 fresh_state 0
      example_target 0 ⟨example_target.attributes, 0⟩ rfl (by decide)
  refine ⟨prepared, stepped, _, hprep, hstep, hemit, rfl, ?_⟩
  rw [hblock]
  simp only [Option.map_some', hact]
  decide

/-- C19, amended. In the body of the loop over the targets of `emit_from_emitter`, for every
target that fits its block, `active_amount` of the block is increased by the emitted amount
before the sub-step of the emitted slice: the state `step_slice` runs on already has the
raised value, and the value is the same after the sub-step has finished. -/
theorem C19_active_amount_order_amended (solver : SimpleSolver) (rand : Nat → Nat)
    (emitter : EmitterInfo) (elapsed_seconds : ℚ) (state : MyState) (rand_calls : Nat)
    (target : EmitterTarget) (block_index : Nat) (block : ParticlesBlock)
    (hblock : state.particles.active_blocks[block_index]? = some block)
    (hfit : target.emitted_amount ≤ target.attributes.size) :
    ∃ prepared stepped final,
      prepare_emitted solver rand emitter elapsed_seconds (state, rand_calls) target
        block_index = some prepared ∧
      step_slice solver.m_description prepared.state prepared.emitted_data
        (List.range prepared.emitted_data.size) prepared.time_steps = some stepped ∧
      emit_target solver rand emitter elapsed_seconds (state, rand_calls) target block_index
        = some final ∧
      (prepared.state.particles.active_blocks[block_index]?).map
          (fun block => block.active_amount)
        = some (block.active_amount + target.emitted_amount) ∧
      (final.1.particles.active_blocks[block_index]?).map (fun block => block.active_amount)
        = some (block.active_amount + target.emitted_amount) := by
  obtain ⟨prepared, stepped, hprep, _, _, hpblock, hact, hstep, _, hemit⟩ :=
    emit_target_spec solver rand emitter elapsed_seconds state rand_calls target block_index
      block hblock hfit
  have hlt : block_index < state.particles.active_blocks.length :=
    (List.getElem?_eq_some_iff.mp hblock).1
  refine ⟨prepared, stepped, _, hprep, hstep, hemit, ?_, ?_⟩
  · rw [hpblock]
    simp [hact]
  · simp [hlt]

/-- C19, amended, at a concrete input: the block of `example_target` has `active_amount = 2`
both when the sub-step starts and when it has finished. -/
theorem C19_active_amount_order_amended_witness :
    ∃ prepared final,
      prepare_emitted example_solver example_rand example_emitter 1 (fresh_state, 0)
        example_target 0 = some prepared ∧
      emit_target example_solver example_rand example_emitter 1 (fresh_state, 0)
        example_target 0 = some final ∧
      (prepared.state.particles.active_blocks[0]?).map (fun block => block.active_amount)
        = some 2 ∧
      (final.1.particles.active_blocks[0]?).map (fun block => block.active_amount)
        = some 2 := by
  obtain ⟨prepared, _, final, hprep, _, hemit, h1, h2⟩ :=
    C19_active_amount_order_amended example_solver example_rand example_emitter 1
      fresh_state 0 example_target 0 ⟨example_target.attributes, 0⟩ rfl (by decide)
  exact ⟨prepared, final, hprep, hemit, h1, h2⟩

/-- C20. On the paths started by `step` no length assertion fails and no offset vector is
indexed outside its length (either would make the model return `none`):
`compute_combined_force` is always called with a `dst` of the length of the mask; a step of
a slice with the identity mask and as many time differences as rows completes, with both
calls of `integrate_particles` receiving a mask and time differences of equal length and
returning offset vectors of that length, and with equally long unfinished vectors;
`step_block_cb` makes such a call and completes for every block; and the loop body of
`emit_from_emitter` makes such a call and completes for every target that fits its block. -/
theorem C20_assertions_hold (solver : SimpleSolver) :
    (∀ (attributes : AttributeArrays) (indices_mask : List Nat),
      indices_mask.length = (List.replicate indices_mask.length float3.zero).length ∧
      ∃ combined_force, compute_combined_force solver.m_description attributes indices_mask
        (List.replicate indices_mask.length float3.zero) = some combined_force) ∧
    (∀ (state : MyState) (attributes : AttributeArrays) (time_diffs : List ℚ),
      time_diffs.length = attributes.size →
      ∃ po vo after_event unfinished_mask unfinished_time_diffs po2 vo2 finished final,
        integrate_particles solver.m_description attributes (List.range attributes.size)
          time_diffs (List.replicate (List.range attributes.size).length float3.zero)
          (List.replicate (List.range attributes.size).length float3.zero) = some (po, vo) ∧
        po.length = (List.range attributes.size).length ∧
        vo.length = (List.range attributes.size).length ∧
        step_slice_to_next_event solver.m_description state attributes
          (List.range attributes.size) time_diffs [] []
            = some (after_event, unfinished_mask, unfinished_time_diffs) ∧
        unfinished_mask.length = unfinished_time_diffs.length ∧
        integrate_particles solver.m_description after_event unfinished_mask
          unfinished_time_diffs (List.replicate unfinished_mask.length float3.zero)
          (List.replicate unfinished_mask.length float3.zero) = some (po2, vo2) ∧
        po2.length = unfinished_mask.length ∧ vo2.length = unfinished_mask.length ∧
        step_slice_ignoring_events solver.m_description after_event unfinished_mask
          unfinished_time_diffs = some finished ∧
        step_slice solver.m_description state attributes (List.range attributes.size)
          time_diffs = some final) ∧
    (∀ (data : StepBlocksParallelData) (index : Nat) (block : ParticlesBlock),
      data.blocks[index]? = some block →
      (List.range block.slice_active.size).length
        = (List.replicate block.slice_active.size data.elapsed_seconds).length ∧
      ∃ blocks, step_block_cb solver.m_description data index = some blocks) ∧
    (∀ (rand : Nat → Nat) (emitter : EmitterInfo) (elapsed_seconds : ℚ) (state : MyState)
      (rand_calls : Nat) (target : EmitterTarget) (block_index : Nat) (block : ParticlesBlock),
      state.particles.active_blocks[block_index]? = some block →
      target.emitted_amount ≤ target.attributes.size →
      ∃ prepared final,
        prepare_emitted solver rand emitter elapsed_seconds (state, rand_calls) target
          block_index = some prepared ∧
        (List.range prepared.emitted_data.size).length = prepared.time_steps.length ∧
        emit_target solver rand emitter elapsed_seconds (state, rand_calls) target
          block_index = some final) := by
  refine ⟨?_, ?_, ?_, ?_⟩
  · intro attributes mask
    obtain ⟨cf, hcf, _⟩ := compute_combined_force_some solver.m_description attributes mask
      (List.replicate mask.length float3.zero) (by simp)
    exact ⟨by simp, cf, hcf⟩
  · intro state attributes td hlen
    exact step_slice_identity_calls solver.m_description state attributes td hlen
  · intro data index block hblock
    obtain ⟨_, _, _, hcb⟩ := step_block_cb_total solver.m_description data index block hblock
    exact ⟨by simp, _, hcb⟩
  · intro rand emitter elapsed_seconds state calls target block_index block hblock hfit
    obtain ⟨prepared, _, hprep, _, hlen, _, _, _, _, hemit⟩ := emit_target_spec solver rand
      emitter elapsed_seconds state calls target block_index block hblock hfit
    exact ⟨prepared, _, hprep, by simp [hlen], hemit⟩

/-- C20 at a concrete input: the block `drifting_block` is stepped by `step_block_cb`, and
the rows emitted into `example_target` are stepped by the loop body of
`emit_from_emitter`. -/
theorem C20_assertions_hold_witness :
    (∃ blocks, step_block_cb example_solver.m_description
      ⟨example_state, [drifting_block], 1⟩ 0 = some blocks) ∧
    (∃ final, emit_target example_solver example_rand example_emitter 1 (fresh_state, 0)
      example_target 0 = some final) := by
  obtain ⟨_, _, hcb, hemit⟩ := C20_assertions_hold example_solver
  refine ⟨(hcb ⟨example_state, [drifting_block], 1⟩ 0 drifting_block rfl).2, ?_⟩
  obtain ⟨_, final, _, _, h⟩ := hemit example_rand example_emitter 1 fresh_state 0
    example_target 0 ⟨example_target.attributes, 0⟩ rfl (by decide)
  exact ⟨final, h⟩

/-- C21. For every block whose `active_amount` `N` is at most its capacity (a `uint`), the
loop of `delete_dead_particles` returns after exactly `N` iterations: at its iteration `k`
the index is below `active_amount` and `active_amount - index` is `N - k`, and from one
iteration to the next either `active_amount` went down by one (the iteration called `move`)
or the index went up by one (it did not). Every iteration that evaluates
`active_amount() - 1` does so with `active_amount() > 0`, where the expression on `uint` is
the predecessor, and the two rows it passes to `move` are `active_amount() - 1` and `index`,
both below `N`. The block returned is the one `delete_dead_particles` returns. -/
theorem C21_delete_loop_iterations (block : ParticlesBlock)
    (hcap : block.active_amount ≤ block.attributes.size)
    (h32 : block.attributes.size < 4294967296) :
    ∃ result iterations,
      delete_dead_particles_traced block = some (result, iterations) ∧
      delete_dead_particles block = some result ∧
      iterations.length = block.active_amount ∧
      (∀ (k : Nat) (it : Iteration), iterations[k]? = some it →
        it.index < it.active_amount ∧
        it.active_amount - it.index = block.active_amount - k) ∧
      (∀ (k : Nat) (it next : Iteration), iterations[k]? = some it →
        iterations[k + 1]? = some next →
        (it.move ≠ none ∧ next.active_amount = it.active_amount - 1 ∧
          next.index = it.index) ∨
        (it.move = none ∧ next.active_amount = it.active_amount ∧
          next.index = it.index + 1)) ∧
      (∀ (it : Iteration) (old_index new_index : Nat), it ∈ iterations →
        it.move = some (old_index, new_index) →
        0 < it.active_amount ∧ old_index = uint_pred it.active_amount ∧
        uint_pred it.active_amount = it.active_amount - 1 ∧ new_index = it.index ∧
        old_index < block.active_amount ∧ new_index < block.active_amount) := by
  obtain ⟨result, iterations, htr, hloop, hlen, _, hall, hnext⟩ :=
    traced_loop_spec block.active_amount block.active_amount block 0 rfl (Nat.zero_le _)
      (Nat.le_refl _) hcap h32
  refine ⟨result, iterations, htr, hloop, hlen, ?_, hnext, ?_⟩
  · intro k it h
    obtain ⟨h1, _, h3, _⟩ := hall k it h
    exact ⟨h1, h3⟩
  · intro it old_index new_index hmem hmove
    obtain ⟨k, hk, hkit⟩ := List.getElem_of_mem hmem
    have hget : iterations[k]? = some it := by rw [List.getElem?_eq_getElem hk, hkit]
    obtain ⟨h1, h2, _, h4⟩ := hall k it hget
    have hpred : uint_pred it.active_amount = it.active_amount - 1 :=
      uint_pred_eq _ (by omega) (by omega)
    rcases h4 with h4 | h4
    · rw [h4] at hmove
      cases hmove
    · rw [h4] at hmove
      simp only [Option.some.injEq, Prod.mk.injEq] at hmove
      obtain ⟨ho, hn⟩ := hmove
      refine ⟨by omega, ho.symm, hpred, hn.symm, ?_, ?_⟩
      · rw [← ho, hpred]
        omega
      · rw [← hn]
        omega

/-- C21 at a concrete input: `example_block` has four active rows, one of them dead; the loop
runs four iterations and ends with three active rows. -/
theorem C21_delete_loop_iterations_witness :
    ∃ result iterations,
      delete_dead_particles_traced example_block = some (result, iterations) ∧
      delete_dead_particles example_block = some result ∧
      iterations.length = 4 ∧ result.active_amount = 3 := by
  obtain ⟨result, iterations, htr, hloop, hlen, _⟩ :=
    C21_delete_loop_iterations example_block (by decide) (by decide)
  refine ⟨result, iterations, htr, hloop, hlen, ?_⟩
  obtain ⟨r, hr, _, hcount, _⟩ := delete_loop_spec example_block.active_amount
    example_block.active_amount example_block 0 rfl (Nat.zero_le _) (Nat.le_refl _)
    (by decide) (fun r hr => absurd hr (Nat.not_lt_zero r))
  have hsame : r = result := by
    have h := hloop
    unfold delete_dead_particles at h
    rw [show example_block.slice_active.size = example_block.active_amount from rfl, hr] at h
    exact Option.some.inj h
  subst hsame
  have hdead : dead_count example_block example_block.active_amount = 1 := by
    simp [dead_count, example_block, List.range, List.range.loop, List.countP_cons]
  have hfour : example_block.active_amount = 4 := rfl
  omega

/-- C22. For every point cache behind a pointer that is not null, `PTC_invalidate` sets
`state.simframe` to 0 and `state.last_exact` to the smaller of `startframe` and 0, which is
at most 0, and keeps `startframe`; `PTC_validate` sets `state.simframe` to `framenr` and
keeps `state.last_exact` and `startframe`; on a null pointer both do nothing; and a second
`PTC_invalidate` changes nothing after the first. -/
theorem C22_validate_invalidate (cache : PointCache) (framenr : Int) :
    (∃ after, PTC_invalidate (some cache) = some after ∧
      after.state.simframe = 0 ∧
      after.state.last_exact = min cache.startframe 0 ∧
      after.state.last_exact ≤ 0 ∧
      after.startframe = cache.startframe) ∧
    (∃ after, PTC_validate (some cache) framenr = some after ∧
      after.state.simframe = framenr ∧
      after.state.last_exact = cache.state.last_exact ∧
      after.startframe = cache.startframe) ∧
    PTC_validate none framenr = none ∧
    PTC_invalidate none = none ∧
    (∀ pointer : Option PointCache,
      PTC_invalidate (PTC_invalidate pointer) = PTC_invalidate pointer) := by
  refine ⟨⟨_, PTC_invalidate_some cache, rfl, min_ii_eq_min _ _, ?_, rfl⟩,
    ⟨_, PTC_validate_some cache framenr, rfl, rfl, rfl⟩, rfl, rfl, ?_⟩
  · show min_ii cache.startframe 0 ≤ 0
    rw [min_ii_eq_min]
    exact min_le_right _ _
  · intro pointer
    cases pointer with
    | none => rfl
    | some c => rfl

/-- C22 at concrete inputs: invalidating `early_cache`, which starts at frame -4, leaves
`last_exact` at -4; validating `example_cache` at frame 20 leaves `simframe` at 20 and
`last_exact` at 9. -/
theorem C22_validate_invalidate_witness :
    (∃ after, PTC_invalidate (some early_cache) = some after ∧
      after.state.simframe = 0 ∧ after.state.last_exact = -4) ∧
    (∃ after, PTC_validate (some example_cache) 20 = some after ∧
      after.state.simframe = 20 ∧ after.state.last_exact = 9) := by
  obtain ⟨⟨a, ha, hsim, hlast, _⟩, _⟩ := C22_validate_invalidate early_cache 0
  obtain ⟨_, ⟨b, hb, hbsim, hblast, _⟩, _⟩ := C22_validate_invalidate example_cache 20
  refine ⟨⟨a, ha, hsim, ?_⟩, ⟨b, hb, hbsim, ?_⟩⟩
  · rw [hlast]
    decide
  · rw [hblast]
    rfl

end BParticles
